import Mathlib

/-!
# Verification of `tiny.c` and `doubly-linked-list.cpp`

Two programs are embedded: the Tiny web server of the proxy lab (namespace `Tiny`)
and the class template `DLList<T>` (namespace `Dsa`).  The definitions of both
come first, their properties after.
-/

/-!
# Tiny web server (`courses/cs-app/labs/7-proxy-lab/tiny/tiny.c`)

A shallow embedding of the request parser and the responders of `tiny.c`, and
the properties of its specification proved or refuted on it.

Conventions of the embedding.

* A C string is the list of its characters, terminator excluded.  The array
  `cgiargs`, which the program also writes as raw memory (`Riob_read` and an
  indexed store), is the list of its cells, terminator and stale cells included;
  `cstr` reads such an array as a C string.
* The arrays of the request have their capacities: `method[100]`,
  `filename[MAXLINE]`, `cgiargs[MAXLINE]`, and so have the local arrays `uri`
  and `version` of `read_request_line`.  A store outside the array it is aimed
  at ends the embedded function with `overflow`: from there on the behaviour of
  the C program is undefined, whatever lies next to the array.  The buffers of
  `MAXBUF` cells are written through `strncatf` only, which is modelled from the
  specification.  What an uninitialised cell holds is an input of the function
  that reads it (`Frame`, the incoming `request_header`).
* C truth values (`int` used as a flag) are `Bool`; status codes and lengths that
  the program keeps in an `int` are `Int`, with `toInt32` at every narrowing
  conversion and `toSize` at every conversion to `size_t`.
* The connection is explicit state: the bytes delivered so far and the fate of
  each coming write call.  The file system, the behaviour of executable files
  and the outcome of `fork` are fields of `World`; the server is taken to own the
  files, so that a file with the owner-read bit can be opened.
* `csapp.h` and `csapp.c` are not part of the sources.  Their helpers are
  modelled from the specification, each in a definition that says so, and
  `MAXLINE` is a parameter.  Console output (`printf`) is left out.
-/

namespace Tiny

/-! ## libc and system interface -/

/-- Conversion of a wider integer (`off_t`, `size_t`, `long`) to `int`: the value
modulo `2 ^ 32`, read as a signed 32-bit number. -/
def toInt32 (z : Int) : Int :=
  (z + 2 ^ 31) % 2 ^ 32 - 2 ^ 31

/-- Conversion of an `int` to `size_t`: the value modulo `2 ^ 64`. -/
def toSize (z : Int) : Nat :=
  (z % 2 ^ 64).toNat

/-- The libc function `index`: position of the first occurrence of `c`. -/
def index : List Char → Char → Option Nat
  | [], _ => none
  | x :: xs, c => if x = c then some 0 else (index xs c).map (fun i => i + 1)

/-- The libc function `strrchr`: position of the last occurrence of `c`. -/
def strrchr : List Char → Char → Option Nat
  | [], _ => none
  | x :: xs, c =>
    match strrchr xs c with
    | some i => some (i + 1)
    | none => if x = c then some 0 else none

/-- The libc predicate `isspace` in the C locale. -/
def isspace (c : Char) : Bool :=
  c == ' ' || c == '\t' || c == '\n' || c == '\x0b' || c == '\x0c' || c == '\r'

/-- The libc predicate `isdigit`. -/
def isdigit (c : Char) : Bool :=
  '0'.toNat ≤ c.toNat && c.toNat ≤ '9'.toNat

/-- One `%s` conversion of `sscanf`: skip white space, then take the characters
up to the next white space.  `none` when the input ends first; otherwise the
token and the input after it. -/
def scan_s (s : List Char) : Option (List Char × List Char) :=
  let s1 := s.dropWhile isspace
  if s1 = [] then none
  else some (s1.takeWhile (fun c => !isspace c), s1.dropWhile (fun c => !isspace c))

/-- The value of a run of decimal digits. -/
def digits_value (ds : List Char) : Nat :=
  ds.foldl (fun acc c => 10 * acc + (c.toNat - '0'.toNat)) 0

/-- One `%d` conversion of `sscanf` (glibc): skip white space, read an optional
sign and a non-empty run of digits, clamp the value to the range of `long` and
store it in an `int`.  `none` when there is no number to read. -/
def scan_d (s : List Char) : Option Int :=
  let s1 := s.dropWhile isspace
  let (neg, s2) :=
    match s1 with
    | '-' :: r => (true, r)
    | '+' :: r => (false, r)
    | r => (false, r)
  let ds := s2.takeWhile isdigit
  if ds = [] then none
  else
    let v : Int := if neg then - (digits_value ds : Int) else (digits_value ds : Int)
    some (toInt32 (max (-(2 ^ 63)) (min v (2 ^ 63 - 1))))

/-- How a function that stores into an array ends without a result: by a store
outside the array, where the behaviour of the C program is undefined. -/
inductive Fault where
  | overflow
  deriving DecidableEq, Repr

deriving instance DecidableEq for Except

/-- The libc function `strcpy` into an array of `cap` cells whose cells are `dst`:
the string and its terminator replace the first cells; `overflow` when they do
not fit into the array. -/
def strcpy (cap : Nat) (dst src : List Char) : Except Fault (List Char) :=
  if src.length + 1 ≤ cap then .ok (src ++ '\x00' :: dst.drop (src.length + 1))
  else .error .overflow

/-- The libc function `strcat` onto the C string `dst` held in an array of `cap`
cells: the string that the array holds afterwards; `overflow` when that string
and its terminator do not fit into the array. -/
def strcat (cap : Nat) (dst src : List Char) : Except Fault (List Char) :=
  if dst.length + src.length + 1 ≤ cap then .ok (dst ++ src) else .error .overflow

/-- The store of a `%s` token by `sscanf` into an array of `cap` cells: the C
string that the array holds afterwards; `overflow` when the token and its
terminator do not fit into the array. -/
def scan_store (cap : Nat) (token : List Char) : Except Fault (List Char) :=
  if token.length + 1 ≤ cap then .ok token else .error .overflow

/-- The cells of an array whose known cells are `a` after the store `a[i] = c`,
for an index `i` of the array.  A store past the known cells makes the cells up
to it known, the cells in between reading as NUL. -/
def poke (a : List Char) (i : Int) (c : Char) : List Char :=
  if i < 0 then a
  else if i.toNat < a.length then a.set i.toNat c
  else a ++ List.replicate (i.toNat - a.length) '\x00' ++ [c]

/-- The store `a[i] = c` into an array of `cap` cells, `i` an `int`: `overflow`
when `i` is no index of the array. -/
def store (cap : Nat) (a : List Char) (i : Int) (c : Char) : Except Fault (List Char) :=
  if 0 ≤ i ∧ i < (cap : Int) then .ok (poke a i c) else .error .overflow

/-- The character `s[i]` of a C string held in an array, `i` of type `size_t`.
The cell before the array (`i = 2 ^ 64 - 1`, that is `s[-1]`) holds whatever
`before` is; the cell after the string holds the terminator. -/
def peek (before : Char) (s : List Char) (i : Nat) : Char :=
  if i = 2 ^ 64 - 1 then before else s.getD i '\x00'

/-- The `%d` conversion of `printf`. -/
def fmt_d (n : Int) : List Char :=
  if n < 0 then '-' :: (Nat.toDigits 10 n.natAbs) else Nat.toDigits 10 n.natAbs

/-- An array of characters read as a C string: the cells before the first NUL. -/
def cstr (buf : List Char) : List Char :=
  buf.takeWhile (fun c => c != '\x00')

/-- File type mask and permission bits of `st_mode` (`<sys/stat.h>`, Linux). -/
def S_IFMT : Nat := 0o170000

/-- Mode bits of a regular file. -/
def S_IFREG : Nat := 0o100000

/-- Owner may read. -/
def S_IRUSR : Nat := 0o400

/-- Owner may execute. -/
def S_IXUSR : Nat := 0o100

/-- The macro `S_ISREG`. -/
def S_ISREG (m : Nat) : Bool :=
  (m &&& S_IFMT) == S_IFREG

/-- What `stat` fills in, as far as the server looks at it. -/
structure Stat where
  st_mode : Nat
  st_size : Nat
  deriving DecidableEq, Repr

/-- A directory entry: its mode bits and, for a file, its bytes. -/
structure File where
  mode : Nat
  data : List Char
  deriving DecidableEq, Repr

/-- The connection to the client: what has been delivered, and for each coming
write call whether it fails (`true`); calls beyond the list succeed. -/
structure Conn where
  sent : List Char
  fails : List Bool
  deriving DecidableEq, Repr

/-- Everything outside the process that a response depends on: the files under
the root, what an executable file prints on its standard output when run with
the given `QUERY_STRING` and `REQUEST_METHOD` (arguments: file name, query
string, method), whether `fork` succeeds, and the connection. -/
structure World where
  files : List Char → Option File
  exec : List Char → List Char → List Char → List Char
  fork_ok : Bool
  conn : Conn

/-- The system call `stat`: `none` when it returns a negative value. -/
def World.stat (w : World) (path : List Char) : Option Stat :=
  match w.files path with
  | none => none
  | some f => some { st_mode := f.mode, st_size := f.data.length }

/-- The buffered reader `rio_t`: the bytes of the connection not yet read. -/
structure rio_t where
  unread : List Char
  deriving DecidableEq, Repr

/-! ## csapp helpers -/

/-- Modelled from the spec: `Riob_readline` of csapp is not among the sources.
Section 4.1: it yields the next line of the stream, terminator included, when
the line is shorter than `maxlen`.  It signals "no more data" (`none`, a return
value `<= 0`) when the stream ends before a full line, which uses the stream up,
and when the line exceeds the maximum, which consumes `maxlen - 1` bytes. -/
def Riob_readline (rp : rio_t) (maxlen : Nat) : Option (List Char) × rio_t :=
  match index rp.unread '\n' with
  | none => (none, { unread := [] })
  | some i =>
    if i + 1 < maxlen then (some (rp.unread.take (i + 1)), { unread := rp.unread.drop (i + 1) })
    else (none, { unread := rp.unread.drop (maxlen - 1) })

/-- Modelled from the spec: `Riob_read` of csapp is not among the sources.
Section 4.2 step 6: it reads exactly `n` bytes from the stream, or what is left
of the stream when that is less. -/
def Riob_read (rp : rio_t) (n : Nat) : List Char × rio_t :=
  (rp.unread.take n, { unread := rp.unread.drop n })

/-- Modelled from the spec: the wrappers `Open` and `Mmap` of csapp are not among
the sources.  Section 4.4: the file is memory-mapped for the transfer.  The
mapping of `length` bytes (an `int`, converted to `size_t`) fails for length `0`,
for a negative `int`, whose conversion exceeds every address space, and when the
file cannot be opened; otherwise it holds the first `length` bytes of the file. -/
def Mmap (w_files : List Char → Option File) (path : List Char) (length : Int) :
    Option (List Char) :=
  if length ≤ 0 then none
  else
    match w_files path with
    | none => none
    | some f => some (f.data.take length.toNat)

/-- Modelled from the spec: `streq` of csapp is not among the sources.  The
specification words every comparison that the server makes through it as a
comparison of the two strings as they are: the method is "in {GET, HEAD, POST}"
(section 4.3), the extension is looked up in a fixed table (section 4.4).  What
the last argument selects is told neither by the sources nor by the
specification; it is carried along and does not enter the comparison. -/
def streq (s1 s2 : List Char) (_flag : Int) : Bool :=
  s1 == s2

/-- Modelled from the spec: `strneq` of csapp is not among the sources.  It is
`streq` restricted to the first `n` characters of both strings.  Section 4.2
words both calls that the server makes as tests of a prefix taken as it is: the
header field is found by a "case-sensitive match on the prefix" (last argument
0), and a request is dynamic iff its path "starts with" the reserved prefix
(last argument 1). -/
def strneq (s1 s2 : List Char) (n : Nat) (flag : Int) : Bool :=
  streq (s1.take n) (s2.take n) flag

/-- Modelled from the spec: `Rio_write` of csapp is not among the sources.  It
sends the given bytes on the connection and returns a negative value when the
write fails (section 5: a write to a disconnected client is an ignorable
failure).  Nothing is delivered by a failed call; a call with no bytes does not
reach the connection. -/
def Rio_write (c : Conn) (bytes : List Char) : Int × Conn :=
  if bytes = [] then (0, c)
  else
    match c.fails with
    | [] => (bytes.length, { c with sent := c.sent ++ bytes })
    | false :: rest => (bytes.length, { sent := c.sent ++ bytes, fails := rest })
    | true :: rest => (-1, { c with fails := rest })

/-- Modelled from the spec: `Rio_writef` of csapp is not among the sources.  It
formats a text and sends it like `Rio_write`; the argument here is the formatted
text. -/
def Rio_writef (c : Conn) (text : List Char) : Int × Conn :=
  Rio_write c text

/-- Modelled from the spec: `strncatf` of csapp is not among the sources.  It
appends a formatted text to the string in the buffer (section 4.6: the body is a
fixed template embedding its arguments); the argument here is the formatted
text. -/
def strncatf (dst text : List Char) : List Char :=
  dst ++ text

/-! ## tiny.c -/

/-- The C struct `request_header`. -/
structure request_header where
  method : List Char
  filename : List Char
  cgiargs : List Char
  is_dynamic : Bool
  content_length : Int
  deriving DecidableEq, Repr

/-- The name of the served root, `ROOT_PATH`. -/
def ROOT_PATH : List Char := ".".toList

/-- The file served for a directory, `DEFAULT_FILE`. -/
def DEFAULT_FILE : List Char := "home.html".toList

/-- Return 1 if the HTTP method is implemented, otherwise 0. -/
def check_method (method : List Char) : Bool :=
  if streq method "GET".toList 0 then true
  else if streq method "POST".toList 0 then true
  else if streq method "HEAD".toList 0 then true
  else false

/-- The HTTP status message for the given HTTP status code. -/
def http_status (httpcode : Int) : List Char :=
  if httpcode = 200 then "OK".toList
  else if httpcode = 403 then "Forbidden".toList
  else if httpcode = 404 then "Not Found".toList
  else if httpcode = 501 then "Not Implemented".toList
  else "Unknown Error".toList

/-- The body that `error_response` builds in its local buffer. -/
def error_body (cause : List Char) (httpcode : Int) (msg : List Char) : List Char :=
  let body := "<html><title>Tiny Error</title>".toList
  let body := strncatf body "<body bgcolor=ffffff>\r\n".toList
  let body := strncatf body (fmt_d httpcode ++ ": ".toList ++ http_status httpcode ++ "\r\n".toList)
  let body := strncatf body ("<p>".toList ++ msg ++ ": ".toList ++ cause ++ "\r\n".toList)
  strncatf body "<hr><em>The Tiny Web server</em></body></html>\r\n".toList

/-- Write an error response to the client; the body is not written when the
method is HEAD. -/
def error_response (c : Conn) (method cause : List Char) (httpcode : Int)
    (msg : List Char) : Conn :=
  let body := error_body cause httpcode msg
  let c := (Rio_writef c ("HTTP/1.0 ".toList ++ fmt_d httpcode ++ " ".toList ++
    http_status httpcode ++ "\r\n".toList)).2
  let c := (Rio_writef c "Content-type: text/html\r\n".toList).2
  let c := (Rio_writef c ("Content-length: ".toList ++ fmt_d (toInt32 (body.length : Int)) ++
    "\r\n\r\n".toList)).2
  if streq method "HEAD".toList 0 then c
  else (Rio_write c body).2

/-- The file extension of a file name: the text after the last dot, and the
empty string when there is no dot or the only dot opens the name. -/
def file_ext (filename : List Char) : List Char :=
  match strrchr filename '.' with
  | none => []
  | some dot => if dot = 0 then [] else filename.drop (dot + 1)

/-- The MIME type for the given file. -/
def mime_type (filename : List Char) : List Char :=
  let ext := file_ext filename
  if streq ext "html".toList 0 then "text/html".toList
  else if streq ext "css".toList 0 then "text/css".toList
  else if streq ext "js".toList 0 then "text/javascript".toList
  else if streq ext "pdf".toList 0 then "application/pdf".toList
  else if streq ext "gif".toList 0 then "image/gif".toList
  else if streq ext "png".toList 0 then "image/png".toList
  else if streq ext "jpg".toList 0 then "image/jpeg".toList
  else if streq ext "ico".toList 0 then "image/vnd.microsoft.icon".toList
  else if streq ext "mpg".toList 0 then "video/mpeg".toList
  else if streq ext "mpeg".toList 0 then "video/mpeg".toList
  else if streq ext "mp4".toList 0 then "video/mp4".toList
  else "text/plain".toList

/-- Copy a file back to the client; returns the HTTP status code. -/
def serve_static (w : World) (reqhead : request_header) (filesize : Int) : Int × World :=
  let header := "HTTP/1.0 200 OK\r\n".toList
  let header := strncatf header "Server: Tiny Web Server\r\n".toList
  let header := strncatf header "Connection: close\r\n".toList
  let header := strncatf header ("Content-length: ".toList ++ fmt_d filesize ++ "\r\n".toList)
  let header := strncatf header
    ("Content-type: ".toList ++ mime_type reqhead.filename ++ "\r\n\r\n".toList)
  let r := Rio_write w.conn header
  if r.1 < 0 then (-1, { w with conn := r.2 })
  else if streq reqhead.method "HEAD".toList 0 then (200, { w with conn := r.2 })
  else
    match Mmap w.files reqhead.filename filesize with
    | some src => (200, { w with conn := (Rio_write r.2 src).2 })
    | none => (200, { w with conn := r.2 })

/-- Run a CGI program on behalf of the client; returns the HTTP status code.
The child, when `fork` succeeds, runs the file with `QUERY_STRING` and
`REQUEST_METHOD` set and its standard output on the connection. -/
def serve_dynamic (w : World) (reqhead : request_header) : Int × World :=
  let r := Rio_writef w.conn "HTTP/1.0 200 OK\r\n".toList
  if r.1 < 0 then (-1, { w with conn := r.2 })
  else
    let c := (Rio_writef r.2 "Server: Tiny Web Server\r\n".toList).2
    if w.fork_ok then
      let out := w.exec reqhead.filename (cstr reqhead.cgiargs) reqhead.method
      (200, { w with conn := { c with sent := c.sent ++ out } })
    else (200, { w with conn := c })

/-- Write a response to the client; returns the HTTP status code of the
response. -/
def write_response (w : World) (reqhead : request_header) : Int × World :=
  if !check_method reqhead.method then
    (501, { w with conn := (error_response w.conn reqhead.method reqhead.method 501
      "Tiny does not implement this method".toList) })
  else
    match w.stat reqhead.filename with
    | none =>
      (404, { w with conn := (error_response w.conn reqhead.method reqhead.filename 404
        "Tiny couldn't find this file".toList) })
    | some sbuf =>
      if !S_ISREG sbuf.st_mode then
        (403, { w with conn := (error_response w.conn reqhead.method reqhead.filename 403
          "Tiny couldn't access the file".toList) })
      else if reqhead.is_dynamic then
        if S_IXUSR &&& sbuf.st_mode = 0 then
          (403, { w with conn := (error_response w.conn reqhead.method reqhead.filename 403
            "Tiny couldn't run the CGI program".toList) })
        else serve_dynamic w reqhead
      else
        if S_IRUSR &&& sbuf.st_mode = 0 then
          (403, { w with conn := (error_response w.conn reqhead.method reqhead.filename 403
            "Tiny couldn't read the file".toList) })
        else serve_static w reqhead (toInt32 sbuf.st_size)

/-- The local arrays of `read_request_line` as the call finds them: the C string
that the unset array `uri` happens to hold, and the byte in the cell before it. -/
structure Frame where
  uri : List Char
  before_uri : Char

/-- Lines 112 to 122 of `read_request_line`: parse `uri` into the file name, the
CGI arguments and the dynamic flag of `reqhead`.  The arrays `filename` and
`cgiargs` have `MAXLINE` cells each. -/
def parse_uri (MAXLINE : Nat) (fr : Frame) (reqhead : request_header) (uri : List Char) :
    Except Fault request_header := do
  let cgiargs ← strcpy MAXLINE reqhead.cgiargs []
  let separator := index uri '?'
  let cgiargs ←
    match separator with
    | some i => strcpy MAXLINE cgiargs (uri.drop (i + 1))
    | none => pure cgiargs
  let uri :=
    match separator with
    | some i => uri.take i
    | none => uri
  let filename ← (strcpy MAXLINE reqhead.filename ROOT_PATH).map cstr
  let filename ← strcat MAXLINE filename uri
  let filename ←
    if peek fr.before_uri uri (toSize ((uri.length : Int) - 1)) = '/' then
      strcat MAXLINE filename DEFAULT_FILE
    else pure filename
  pure { reqhead with
    filename := filename
    cgiargs := cgiargs
    is_dynamic := strneq uri "/cgi-bin/".toList 9 1 }

/-- Read the HTTP request line and parse it into the method, filename, cgiargs
and is_dynamic fields of `reqhead`; returns 0 on success, -1 on error.  The
tokens that `sscanf` finds go into `method[100]`, `uri[MAXLINE]` and
`version[MAXLINE]`; an array that `sscanf` does not reach keeps what it held. -/
def read_request_line (MAXLINE : Nat) (fr : Frame) (rp : rio_t) (reqhead : request_header) :
    Except Fault (Int × request_header × rio_t) :=
  match Riob_readline rp MAXLINE with
  | (none, rp1) => pure (-1, reqhead, rp1)
  | (some reqline, rp1) => do
    let t1 := scan_s (cstr reqline)
    let t2 := t1.bind (fun t => scan_s t.2)
    let t3 := t2.bind (fun t => scan_s t.2)
    let method ←
      match t1 with
      | some t => scan_store 100 t.1
      | none => pure reqhead.method
    let uri ←
      match t2 with
      | some t => scan_store MAXLINE t.1
      | none => pure fr.uri
    let _ ←
      match t3 with
      | some t => scan_store MAXLINE t.1
      | none => pure []
    let reqhead1 ← parse_uri MAXLINE fr { reqhead with method := method } uri
    pure (0, reqhead1, rp1)

/-- The loop of `read_request_headers`; `fuel` bounds the number of lines. -/
def read_headers_loop (MAXLINE : Nat) : Nat → rio_t → Int → Int × rio_t
  | 0, rp, content_length => (content_length, rp)
  | fuel + 1, rp, content_length =>
    match Riob_readline rp MAXLINE with
    | (none, rp1) => (content_length, rp1)
    | (some line, rp1) =>
      let header := cstr line
      let content_length :=
        if strneq header "Content-Length:".toList 15 0 then
          (scan_d (header.drop 15)).getD content_length
        else content_length
      if header = "\r\n".toList then (content_length, rp1)
      else read_headers_loop MAXLINE fuel rp1 content_length

/-- Read the HTTP request headers; the value of the Content-Length header goes
into `reqhead`.  Every line read takes at least one byte off the stream, so the
number of unread bytes bounds the number of lines. -/
def read_request_headers (MAXLINE : Nat) (rp : rio_t) (reqhead : request_header) :
    request_header × rio_t :=
  let r := read_headers_loop MAXLINE (rp.unread.length + 1) rp 0
  ({ reqhead with content_length := r.1 }, r.2)

/-- Lines 87 to 96 of `serve`: the request that is handed to `write_response`,
and the reader after it; `none` when there is no request line.  The body of a
POST request is read into the `MAXLINE` cells of `cgiargs`, and the terminator
is stored at the index `content_length`. -/
def serve_request (MAXLINE : Nat) (fr : Frame) (rp : rio_t) (reqhead : request_header) :
    Except Fault (Option (request_header × rio_t)) := do
  let (r, reqhead1, rp1) ← read_request_line MAXLINE fr rp reqhead
  if r ≠ 0 then pure none
  else
    let (reqhead2, rp2) := read_request_headers MAXLINE rp1 reqhead1
    if streq reqhead2.method "POST".toList 0 then
      let (body, rp3) := Riob_read rp2 (toSize reqhead2.content_length)
      if MAXLINE < body.length then throw .overflow
      else
        let cgiargs ← store MAXLINE (body ++ reqhead2.cgiargs.drop body.length)
          reqhead2.content_length '\x00'
        pure (some ({ reqhead2 with cgiargs := cgiargs }, rp3))
    else pure (some (reqhead2, rp2))

/-- Handle one HTTP request/response transaction. -/
def serve (MAXLINE : Nat) (fr : Frame) (reqhead : request_header) (input : List Char)
    (w : World) : Except Fault World := do
  match ← serve_request MAXLINE fr { unread := input } reqhead with
  | none => pure w
  | some (reqhead1, _) => pure (write_response w reqhead1).2

/-! ## The specification, as definitions -/

/-- Resource metadata as section 3 of the specification lists it. -/
structure Metadata where
  present : Bool
  is_regular_file : Bool
  size : Nat
  readable : Bool
  executable : Bool
  deriving DecidableEq, Repr

/-- The metadata that a `stat` of `path` yields in world `w`. -/
def metadata (w : World) (path : List Char) : Metadata :=
  match w.stat path with
  | none =>
    { present := false, is_regular_file := false, size := 0, readable := false,
      executable := false }
  | some sbuf =>
    { present := true
      is_regular_file := S_ISREG sbuf.st_mode
      size := sbuf.st_size
      readable := S_IRUSR &&& sbuf.st_mode != 0
      executable := S_IXUSR &&& sbuf.st_mode != 0 }

/-- A row of the decision table of section 4.3: an error status, or a dispatch. -/
inductive Decision where
  | status (code : Int)
  | dispatch_static
  | dispatch_dynamic
  deriving DecidableEq, Repr

/-- The decision table of section 4.3 of the specification, written from its
words: the rows in order, the first matching row wins. -/
def spec_decision_table (method : List Char) (m : Metadata) (is_dynamic : Bool) : Decision :=
  if method ∉ ["GET".toList, "HEAD".toList, "POST".toList] then Decision.status 501
  else if !m.present then Decision.status 404
  else if !m.is_regular_file then Decision.status 403
  else if is_dynamic && !m.executable then Decision.status 403
  else if !is_dynamic && !m.readable then Decision.status 403
  else if is_dynamic then Decision.dispatch_dynamic
  else Decision.dispatch_static


/-- The body of a response: what follows the first blank line. -/
def http_body : List Char → List Char
  | [] => []
  | c :: cs =>
    if "\r\n\r\n".toList.isPrefixOf (c :: cs) then cs.drop 3 else http_body cs


/-- The bytes of a file of 2 GiB. -/
def big_data : List Char := List.replicate (2 ^ 31) 'x'

/-- A world whose root holds the readable regular file `big.bin` of `2 ^ 31` bytes. -/
def big_file_world : World :=
  { files := fun p =>
      if p = "./big.bin".toList then some { mode := 0o100644, data := big_data }
      else none
    exec := fun _ _ _ => []
    fork_ok := true
    conn := { sent := [], fails := [] } }

/-- The request `GET /big.bin`, parsed. -/
def big_request : request_header :=
  { method := "GET".toList, filename := "./big.bin".toList, cgiargs := [], is_dynamic := false,
    content_length := 0 }

/-- The stack as a call may find it: nothing in `uri`, a letter before it. -/
def quiet_frame : Frame := { uri := [], before_uri := 'x' }

/-- A `request_header` not yet written to. -/
def blank_request : request_header :=
  { method := [], filename := [], cgiargs := [], is_dynamic := false, content_length := 0 }

/-- The stack with a slash in the cell before `uri`. -/
def slash_frame : Frame := { uri := [], before_uri := '/' }

/-- The extension of a file name in the words of the specification: the text
after the last dot, and none when the name has no dot. -/
def spec_extension (filename : List Char) : Option (List Char) :=
  if '.' ∈ filename then some (filename.reverse.takeWhile (fun c => c != '.')).reverse
  else none

/-- The extension to MIME type mapping of section 4.4 of the specification. -/
def spec_mime_table : List (List Char × List Char) :=
  [ ("html".toList, "text/html".toList),
    ("css".toList, "text/css".toList),
    ("js".toList, "text/javascript".toList),
    ("pdf".toList, "application/pdf".toList),
    ("gif".toList, "image/gif".toList),
    ("png".toList, "image/png".toList),
    ("jpg".toList, "image/jpeg".toList),
    ("ico".toList, "image/vnd.microsoft.icon".toList),
    ("mpg".toList, "video/mpeg".toList),
    ("mpeg".toList, "video/mpeg".toList),
    ("mp4".toList, "video/mp4".toList) ]

/-- The MIME type of a file name in the words of the specification: the entry of
the table for its extension, and `text/plain` for any other extension and for no
extension. -/
def spec_mime_type (filename : List Char) : List Char :=
  match spec_extension filename with
  | none => "text/plain".toList
  | some ext => (spec_mime_table.lookup ext).getD "text/plain".toList

/-- The name is a dot followed by text without a dot, such as `.html`. -/
def only_leading_dot (filename : List Char) : Bool :=
  match filename with
  | '.' :: rest => !rest.contains '.'
  | _ => false

/-- A POST request with a query string in the URI and a body of three bytes. -/
def post_input : List Char :=
  "POST /cgi-bin/adder?15&20 HTTP/1.0\r\nContent-Length: 3\r\n\r\n1&2".toList

/-- The request of `post_input` after `read_request_line`. -/
def post_after_line : request_header :=
  { method := "POST".toList, filename := "./cgi-bin/adder".toList,
    cgiargs := "15&20\x00".toList, is_dynamic := true, content_length := 0 }

/-- The request of `post_input` after `read_request_headers`. -/
def post_after_headers : request_header :=
  { method := "POST".toList, filename := "./cgi-bin/adder".toList,
    cgiargs := "15&20\x00".toList, is_dynamic := true, content_length := 3 }

/-- A world with an empty root and a fresh connection. -/
def empty_world : World :=
  { files := fun _ => none
    exec := fun _ _ _ => []
    fork_ok := true
    conn := { sent := [], fails := [] } }

/-- A HEAD request for a file that is not there. -/
def head_request : request_header :=
  { method := "HEAD".toList, filename := "./missing.txt".toList, cgiargs := [],
    is_dynamic := false, content_length := 0 }

/-- A request with a method that Tiny does not implement. -/
def put_request : request_header :=
  { method := "PUT".toList, filename := "./home.html".toList, cgiargs := [],
    is_dynamic := false, content_length := 0 }

/-- A world whose root holds the readable regular file `home.html`, on a
connection whose first write fails. -/
def broken_pipe_world : World :=
  { files := fun p =>
      if p = "./home.html".toList then some { mode := 0o100644, data := "hello".toList }
      else none
    exec := fun _ _ _ => []
    fork_ok := true
    conn := { sent := [], fails := [true] } }

/-- The request `GET /home.html`, parsed. -/
def home_request : request_header :=
  { method := "GET".toList, filename := "./home.html".toList, cgiargs := [], is_dynamic := false,
    content_length := 0 }

/-- A world whose CGI programs print the query string they are handed. -/
def echo_world : World :=
  { files := fun p =>
      if p = "./cgi-bin/adder".toList then some { mode := 0o100755, data := [] } else none
    exec := fun _ query _ => "QUERY_STRING=".toList ++ query
    fork_ok := true
    conn := { sent := [], fails := [] } }

/-- The segments of a path: the texts between its slashes. -/
def spec_segments : List Char → List (List Char)
  | [] => [[]]
  | c :: cs =>
    if c = '/' then [] :: spec_segments cs
    else
      match spec_segments cs with
      | [] => [[c]]
      | s :: rest => (c :: s) :: rest

/-- Walk the segments of a relative path from depth `depth` below the starting
directory: `.` and the empty segment stay, `..` goes up, any other segment goes
down.  False as soon as the walk would go above the starting directory. -/
def spec_stays_below : Nat → List (List Char) → Bool
  | _, [] => true
  | depth, seg :: rest =>
    if seg = [] ∨ seg = ".".toList then spec_stays_below depth rest
    else if seg = "..".toList then
      match depth with
      | 0 => false
      | d + 1 => spec_stays_below d rest
    else spec_stays_below (depth + 1) rest

/-- The target path, read as a path relative to the working directory of the
server (the serving root `.`), with `.` and `..` resolved, never leaves the
serving root. -/
def spec_confined (target_path : List Char) : Bool :=
  spec_stays_below 0 (spec_segments target_path)

/-- The path of a URI in the words of section 4.2 of the specification:
everything before the first `?`. -/
def spec_path (uri : List Char) : List Char :=
  uri.takeWhile (fun c => c != '?')

/-- The raw query string of a URI in the words of section 4.2 of the
specification: everything after the first `?`, and the empty string when the URI
has no `?`. -/
def spec_query (uri : List Char) : List Char :=
  (uri.dropWhile (fun c => c != '?')).drop 1

/-- The index at which the trailing-slash test of `read_request_line` reads the
path: `strlen(uri) - 1` in `size_t` arithmetic. -/
def slash_test_index (path : List Char) : Nat :=
  toSize ((path.length : Int) - 1)

/-- A POST request with a query string in the URI and an empty body. -/
def post_empty_input : List Char :=
  "POST /cgi-bin/adder?15&20 HTTP/1.0\r\nContent-Length: 0\r\n\r\n".toList

/-- A POST request that announces a body as long as the `cgiargs` array when
`MAXLINE` is 8192. -/
def post_long_input : List Char :=
  "POST / HTTP/1.0\r\nContent-Length: 8192\r\n\r\n".toList

/-- The request of `post_long_input` after `read_request_line`. -/
def post_long_after_line : request_header :=
  { method := "POST".toList, filename := "./home.html".toList, cgiargs := "\x00".toList,
    is_dynamic := false, content_length := 0 }

/-- A path of 8182 characters that ends in a slash: a slash, 8180 letters and a
slash.  With `MAXLINE` 8192 it has `MAXLINE - 10` characters. -/
def long_path : List Char := '/' :: (List.replicate 8180 'a' ++ ['/'])

/-- The request line `GET <long_path>?x`, of 8190 characters. -/
def long_path_input : List Char :=
  'G' :: 'E' :: 'T' :: ' ' :: (long_path ++ ['?', 'x', '\r', '\n'])

/-- A body of 8192 bytes. -/
def long_body : List Char := List.replicate 8192 'a'

/-- A POST request that carries `long_body`, announced by its header. -/
def post_body_input : List Char :=
  "POST /cgi-bin/adder HTTP/1.0\r".toList ++ '\n' ::
    ("Content-Length: 8192\r".toList ++ '\n' :: '\r' :: '\n' :: long_body)

/-- The request of `post_body_input` after `read_request_line`. -/
def post_body_after_line : request_header :=
  { method := "POST".toList, filename := "./cgi-bin/adder".toList, cgiargs := "\x00".toList,
    is_dynamic := true, content_length := 0 }

end Tiny

/-!
# Doubly linked list (`courses/dsa-cpp/implementations/doubly-linked-list.cpp`)

A shallow embedding of the class template `DLList<T>`.

* A pointer to a node is an address, `none` for `nullptr`.  The free store is a
  map from addresses to nodes; `new` hands out the address `brk` and moves `brk`
  up, `delete` empties the cell.
* A member function is a function from the list to an outcome and the list
  after the call.  A C++ exception leaves its name as the outcome; reading or
  writing through a null or dangling pointer is the outcome `undefined`.
* `size_type` is `unsigned`: `length` is kept modulo `2 ^ 32`.
* Loops that follow pointers take a bound on the number of rounds, the number of
  nodes ever allocated; the outcome `diverges` says that the bound was reached.
* The list that `filter` returns is built in the free store of the list it is
  called on, where `new` puts its nodes.
-/

namespace Dsa

variable {T : Type}

/-- A pointer to a node; `none` is `nullptr`. -/
abbrev Ptr := Option Nat

/-- The class `DLList<T>::Node`. -/
structure Node (T : Type) where
  value : T
  next : Ptr
  prev : Ptr
  deriving DecidableEq, Repr

/-- How a call does not return: the C++ exception it throws, undefined behaviour
(access through a null or dangling pointer), or a loop that does not end. -/
inductive Failure where
  | runtime_error
  | out_of_range
  | exception
  | undefined
  | diverges
  deriving DecidableEq, Repr

/-- The free store: the node in each cell, `none` for a cell that holds none. -/
abbrev Store (T : Type) := Nat → Option (Node T)

/-- The class `DLList<T>` with the free store its nodes live in. -/
structure DLList (T : Type) where
  store : Store T
  brk : Nat
  head : Ptr
  tail : Ptr
  length : Nat

/-- The constructor `DLList()`. -/
def DLList.empty : DLList T :=
  { store := fun _ => none, brk := 0, head := none, tail := none, length := 0 }

/-- The statement `if (p) p->prev = v;`. -/
def set_prev (store : Store T) (p v : Ptr) : Option (Store T) :=
  match p with
  | none => some store
  | some a =>
    match store a with
    | none => none
    | some nd => some (Function.update store a (some { nd with prev := v }))

/-- The statement `if (p) p->next = v;`. -/
def set_next (store : Store T) (p v : Ptr) : Option (Store T) :=
  match p with
  | none => some store
  | some a =>
    match store a with
    | none => none
    | some nd => some (Function.update store a (some { nd with next := v }))

/-- The member `size`. -/
def size (l : DLList T) : Nat := l.length

/-- The member `empty`. -/
def empty (l : DLList T) : Bool := l.head == none || l.tail == none

/-- The member `create_node`. -/
def create_node (l : DLList T) (value : T) (next prev : Ptr) :
    Except Failure Nat × DLList T :=
  let newNode := l.brk
  let store := Function.update l.store newNode (some { value := value, next := next, prev := prev })
  match set_prev store next (some newNode) with
  | none => (.error .undefined, l)
  | some store =>
    match set_next store prev (some newNode) with
    | none => (.error .undefined, l)
    | some store =>
      (.ok newNode,
        { store := store
          brk := l.brk + 1
          head := if next = l.head then some newNode else l.head
          tail := if prev = l.tail then some newNode else l.tail
          length := (l.length + 1) % 2 ^ 32 })

/-- The member `remove_node`. -/
def remove_node (l : DLList T) (target : Ptr) : Except Failure T × DLList T :=
  match target with
  | none => (.error .undefined, l)
  | some t =>
    match l.store t with
    | none => (.error .undefined, l)
    | some nd =>
      match set_prev l.store nd.next nd.prev with
      | none => (.error .undefined, l)
      | some store =>
        match set_next store nd.prev nd.next with
        | none => (.error .undefined, l)
        | some store =>
          (.ok nd.value,
            { store := Function.update store t none
              brk := l.brk
              head := if target = l.head then nd.next else l.head
              tail := if target = l.tail then nd.prev else l.tail
              length := (l.length + 2 ^ 32 - 1) % 2 ^ 32 })

/-- The loop of `node_at`: `i` steps along `next`, stopping at `nullptr`. -/
def walk (store : Store T) : Nat → Ptr → Except Failure Ptr
  | 0, element => .ok element
  | _ + 1, none => .ok none
  | i + 1, some a =>
    match store a with
    | none => .error .undefined
    | some nd => walk store i nd.next

/-- The member `node_at`. -/
def node_at (l : DLList T) (i : Nat) : Except Failure Ptr :=
  if i ≥ size l then .error .out_of_range
  else walk l.store i l.head

/-- The member `push_back(const value_type&)`. -/
def push_back (l : DLList T) (item : T) : Except Failure Unit × DLList T :=
  match create_node l item none l.tail with
  | (.ok _, l1) => (.ok (), l1)
  | (.error e, l1) => (.error e, l1)

/-- The member `push_front(const value_type&)`. -/
def push_front (l : DLList T) (item : T) : Except Failure Unit × DLList T :=
  match create_node l item l.head none with
  | (.ok _, l1) => (.ok (), l1)
  | (.error e, l1) => (.error e, l1)

/-- The member `pop_back`. -/
def pop_back (l : DLList T) : Except Failure T × DLList T :=
  if empty l then (.error .runtime_error, l)
  else remove_node l l.tail

/-- The member `pop_front`. -/
def pop_front (l : DLList T) : Except Failure T × DLList T :=
  if empty l then (.error .runtime_error, l)
  else remove_node l l.head

/-- The loop of `reverse`: swap `next` and `prev` in every node from `curr` on;
`fuel` bounds the number of rounds. -/
def reverse_loop : Nat → Store T → Ptr → Except Failure (Store T)
  | _, store, none => .ok store
  | 0, _, some _ => .error .diverges
  | fuel + 1, store, some curr =>
    match store curr with
    | none => .error .undefined
    | some nd =>
      reverse_loop fuel
        (Function.update store curr (some { nd with next := nd.prev, prev := nd.next })) nd.next

/-- The member `reverse`. -/
def reverse (l : DLList T) : Except Failure Unit × DLList T :=
  match reverse_loop l.brk l.store l.head with
  | .error e => (.error e, l)
  | .ok store => (.ok (), { l with store := store, head := l.tail, tail := l.head })

/-- The member `insert`. -/
def insert (l : DLList T) (index : Nat) (item : T) : Except Failure Unit × DLList T :=
  if index = 0 then push_front l item
  else if index = size l then push_back l item
  else
    match node_at l (index - 1) with
    | .error e => (.error e, l)
    | .ok none => (.error .undefined, l)
    | .ok (some prev) =>
      match l.store prev with
      | none => (.error .undefined, l)
      | some nd =>
        match create_node l item nd.next (some prev) with
        | (.ok _, l1) => (.ok (), l1)
        | (.error e, l1) => (.error e, l1)

/-- The member `remove`. -/
def remove (l : DLList T) (index : Nat) : Except Failure T × DLList T :=
  match node_at l index with
  | .error e => (.error e, l)
  | .ok target => remove_node l target

/-- The loop of `filter_self`; `fuel` bounds the number of rounds. -/
def filter_loop (predicate : T → Bool) : Nat → DLList T → Ptr → Except Failure Unit × DLList T
  | _, l, none => (.ok (), l)
  | 0, l, some _ => (.error .diverges, l)
  | fuel + 1, l, some curr =>
    match l.store curr with
    | none => (.error .undefined, l)
    | some nd =>
      if !predicate nd.value then
        match remove_node l (some curr) with
        | (.ok _, l1) => filter_loop predicate fuel l1 nd.next
        | (.error e, l1) => (.error e, l1)
      else filter_loop predicate fuel l nd.next

/-- The member `filter_self`, for a predicate without side effects. -/
def filter_self (l : DLList T) (predicate : T → Bool) : Except Failure Unit × DLList T :=
  filter_loop predicate l.brk l l.head

/-- The member `remove_all`. -/
def remove_all [DecidableEq T] (l : DLList T) (item : T) : Except Failure Unit × DLList T :=
  filter_self l (fun i => i != item)

/-- The loop of `remove_first`: from `curr` along `next`, remove the first node
that holds `value`; `fuel` bounds the number of rounds. -/
def remove_first_loop [DecidableEq T] (value : T) :
    Nat → DLList T → Ptr → Except Failure Unit × DLList T
  | _, l, none => (.ok (), l)
  | 0, l, some _ => (.error .diverges, l)
  | fuel + 1, l, some curr =>
    match l.store curr with
    | none => (.error .undefined, l)
    | some nd =>
      if nd.value = value then
        match remove_node l (some curr) with
        | (.ok _, l1) => (.ok (), l1)
        | (.error e, l1) => (.error e, l1)
      else remove_first_loop value fuel l nd.next

/-- The member `remove_first`. -/
def remove_first [DecidableEq T] (l : DLList T) (value : T) : Except Failure Unit × DLList T :=
  if empty l then (.error .exception, l)
  else remove_first_loop value l.brk l l.head

/-- The loop of `remove_last`: from `curr` along `prev`, remove the first node
that holds `value`; `fuel` bounds the number of rounds. -/
def remove_last_loop [DecidableEq T] (value : T) :
    Nat → DLList T → Ptr → Except Failure Unit × DLList T
  | _, l, none => (.ok (), l)
  | 0, l, some _ => (.error .diverges, l)
  | fuel + 1, l, some curr =>
    match l.store curr with
    | none => (.error .undefined, l)
    | some nd =>
      if nd.value = value then
        match remove_node l (some curr) with
        | (.ok _, l1) => (.ok (), l1)
        | (.error e, l1) => (.error e, l1)
      else remove_last_loop value fuel l nd.prev

/-- The member `remove_last`. -/
def remove_last [DecidableEq T] (l : DLList T) (value : T) : Except Failure Unit × DLList T :=
  if empty l then (.error .exception, l)
  else remove_last_loop value l.brk l l.tail

/-- The nodes met from `p` along `next`, at most `fuel` of them. -/
def forward (store : Store T) : Nat → Ptr → List Nat
  | 0, _ => []
  | _ + 1, none => []
  | fuel + 1, some a =>
    a :: (match store a with
      | none => []
      | some nd => forward store fuel nd.next)

/-- The nodes met from `p` along `prev`, at most `fuel` of them. -/
def backward (store : Store T) : Nat → Ptr → List Nat
  | 0, _ => []
  | _ + 1, none => []
  | fuel + 1, some a =>
    a :: (match store a with
      | none => []
      | some nd => backward store fuel nd.prev)

/-- The values of the list from front to back, as an iteration from `begin()` to
`end()` meets them. -/
def to_list (store : Store T) : Nat → Ptr → List T
  | 0, _ => []
  | _ + 1, none => []
  | fuel + 1, some a =>
    match store a with
    | none => []
    | some nd => nd.value :: to_list store fuel nd.next

/-- The elements of the list, front to back. -/
def elements (l : DLList T) : List T := to_list l.store l.brk l.head

/-! ## The representation invariant -/

/-- The address of the first cell of a run of cells, `dflt` for an empty run. -/
def hd (cs : List (Nat × T)) (dflt : Ptr) : Ptr :=
  match cs with
  | [] => dflt
  | c :: _ => some c.1

/-- The address of the last cell of a run of cells, `dflt` for an empty run. -/
def lst : List (Nat × T) → Ptr → Ptr
  | [], dflt => dflt
  | c :: rest, _ => lst rest (some c.1)

/-- The addresses of a run of cells. -/
def addrs (cs : List (Nat × T)) : List Nat := cs.map Prod.fst

/-- The values of a run of cells. -/
def vals (cs : List (Nat × T)) : List T := cs.map Prod.snd

/-- The store holds the cells `cs` (address and value) as a doubly linked run: each
node points with `next` to the cell after it, the last one to `n`, and with
`prev` to the cell before it, the first one to `p`. -/
def Seg (store : Store T) : Ptr → List (Nat × T) → Ptr → Prop
  | _, [], _ => True
  | p, c :: rest, n =>
    store c.1 = some { value := c.2, next := hd rest n, prev := p } ∧ Seg store (some c.1) rest n

/-- The list is well formed with the cells `cs`, front to back: the nodes are
distinct and linked in both directions, `head` and `tail` are the first and the
last of them (null when there is none), `length` is their number modulo
`2 ^ 32`, and every node was handed out by `new`. -/
structure WF (l : DLList T) (cs : List (Nat × T)) : Prop where
  nodup : (addrs cs).Nodup
  seg : Seg l.store none cs none
  head_eq : l.head = hd cs none
  tail_eq : l.tail = lst cs none
  length_eq : l.length = cs.length % 2 ^ 32
  below : ∀ a ∈ addrs cs, a < l.brk

/-! ## More members, the lists a program can hold, and lists used in the statements -/

/-- The member `front`. -/
def front (l : DLList T) : Except Failure T :=
  if empty l then .error .runtime_error
  else
    match l.head with
    | none => .error .undefined
    | some a =>
      match l.store a with
      | none => .error .undefined
      | some nd => .ok nd.value

/-- The member `back`. -/
def back (l : DLList T) : Except Failure T :=
  if empty l then .error .runtime_error
  else
    match l.tail with
    | none => .error .undefined
    | some a =>
      match l.store a with
      | none => .error .undefined
      | some nd => .ok nd.value

/-- The lists a program can hold: the empty list, and the list after a call of
a public member that changes the list, made on a list a program can hold. -/
inductive Reachable [DecidableEq T] : DLList T → Prop
  | empty : Reachable DLList.empty
  | push_back (l : DLList T) (item : T) : Reachable l → Reachable (push_back l item).2
  | push_front (l : DLList T) (item : T) : Reachable l → Reachable (push_front l item).2
  | pop_back (l : DLList T) : Reachable l → Reachable (pop_back l).2
  | pop_front (l : DLList T) : Reachable l → Reachable (pop_front l).2
  | insert (l : DLList T) (index : Nat) (item : T) :
      Reachable l → Reachable (insert l index item).2
  | remove (l : DLList T) (index : Nat) : Reachable l → Reachable (remove l index).2
  | remove_first (l : DLList T) (value : T) : Reachable l → Reachable (remove_first l value).2
  | remove_last (l : DLList T) (value : T) : Reachable l → Reachable (remove_last l value).2
  | remove_all (l : DLList T) (item : T) : Reachable l → Reachable (remove_all l item).2
  | filter_self (l : DLList T) (predicate : T → Bool) :
      Reachable l → Reachable (filter_self l predicate).2
  | reverse (l : DLList T) : Reachable l → Reachable (reverse l).2

/-- The list after `n` calls `push_back(item)` on the empty list. -/
def pushes (item : T) : Nat → DLList T
  | 0 => DLList.empty
  | n + 1 => (push_back (pushes item n) item).2

/-- The list `{1, 2, 3}`, built by three calls of `push_back`. -/
def list_123 : DLList Nat :=
  (push_back (push_back (push_back DLList.empty 1).2 2).2 3).2

/-- The loop of `filter`, the range-based `for` over this list: from `curr` along
`next`, `push_back` on `result` every value that satisfies the predicate.  The
nodes of both lists are in the free store that `result` carries; `fuel` bounds
the number of rounds. -/
def filter_for (predicate : T → Bool) :
    Nat → DLList T → Ptr → Except Failure Unit × DLList T
  | _, result, none => (.ok (), result)
  | 0, result, some _ => (.error .diverges, result)
  | fuel + 1, result, some curr =>
    match result.store curr with
    | none => (.error .undefined, result)
    | some nd =>
      match (if predicate nd.value then push_back result nd.value else (.ok (), result)) with
      | (.error e, result1) => (.error e, result1)
      | (.ok _, result1) =>
        match result1.store curr with
        | none => (.error .undefined, result1)
        | some nd1 => filter_for predicate fuel result1 nd1.next

/-- The member `filter`, for a predicate without side effects.  The new list
`result` starts without nodes in the free store this list lives in; the call gives
`result` and this list after the call, both with the free store as the call
leaves it. -/
def filter (l : DLList T) (predicate : T → Bool) : Except Failure (DLList T) × DLList T :=
  match filter_for predicate l.brk
      { store := l.store, brk := l.brk, head := none, tail := none, length := 0 } l.head with
  | (.error e, result) => (.error e, { l with store := result.store, brk := result.brk })
  | (.ok _, result) => (.ok result, { l with store := result.store, brk := result.brk })

/-- The predicate `[](int i) { return i % 2 == 1; }`. -/
def is_odd (i : Nat) : Bool := i % 2 == 1

/-- The predicate that holds of every value. -/
def always (_ : Unit) : Bool := true

end Dsa

namespace Tiny

/-! ## Properties -/

/-! ### Helper lemmas -/

theorem streq_zero (a b : List Char) : streq a b 0 = (a == b) := by
  simp [streq]

theorem check_method_eq_true_iff (m : List Char) :
    check_method m = true ↔ m ∈ ["GET".toList, "HEAD".toList, "POST".toList] := by
  simp only [check_method, streq_zero, beq_iff_eq, List.mem_cons, List.mem_singleton,
    List.not_mem_nil, or_false]
  by_cases h1 : m = "GET".toList <;> by_cases h2 : m = "POST".toList <;>
    by_cases h3 : m = "HEAD".toList <;> simp only [h1, h2, h3, if_true, if_false] <;> simp

theorem write_response_table (w : World) (reqhead : request_header) :
    match spec_decision_table reqhead.method (metadata w reqhead.filename)
      reqhead.is_dynamic with
    | Decision.status code =>
      (write_response w reqhead).1 = code ∧
        ∃ cause msg, (write_response w reqhead).2 =
          { w with conn := error_response w.conn reqhead.method cause code msg }
    | Decision.dispatch_dynamic => write_response w reqhead = serve_dynamic w reqhead
    | Decision.dispatch_static =>
      write_response w reqhead =
        serve_static w reqhead (toInt32 (metadata w reqhead.filename).size) := by
  unfold spec_decision_table write_response metadata
  by_cases hm : check_method reqhead.method = true
  · have hm2 := (check_method_eq_true_iff reqhead.method).1 hm
    simp only [hm, hm2, not_true_eq_false, if_false, Bool.not_true, Bool.false_eq_true]
    cases hs : w.stat reqhead.filename with
    | none => simp; exact ⟨_, _, rfl⟩
    | some sbuf =>
      simp only [Bool.not_true, Bool.false_eq_true, if_false]
      by_cases hreg : S_ISREG sbuf.st_mode = true
      · simp only [hreg, Bool.not_true, Bool.false_eq_true, if_false]
        by_cases hd : reqhead.is_dynamic = true
        · by_cases hx : S_IXUSR &&& sbuf.st_mode = 0
          · simp [hd, hx]; exact ⟨_, _, rfl⟩
          · simp [hd, hx]
        · simp only [Bool.not_eq_true] at hd
          by_cases hr : S_IRUSR &&& sbuf.st_mode = 0
          · simp [hd, hr]; exact ⟨_, _, rfl⟩
          · simp [hd, hr]
      · simp only [Bool.not_eq_true] at hreg
        simp [hreg]; exact ⟨_, _, rfl⟩
  · have hm2 : reqhead.method ∉ ["GET".toList, "HEAD".toList, "POST".toList] :=
      fun h => hm ((check_method_eq_true_iff _).2 h)
    simp only [Bool.not_eq_true] at hm
    simp only [hm, hm2, not_false_eq_true, if_true, Bool.not_false]
    exact ⟨trivial, _, _, rfl⟩

theorem Rio_write_ok (c : Conn) (bytes : List Char) (h : c.fails = []) :
    Rio_write c bytes = ((bytes.length : Int), { c with sent := c.sent ++ bytes }) := by
  unfold Rio_write
  by_cases hb : bytes = []
  · subst hb; simp
  · simp [hb, h]

theorem toInt32_of_lt (n : Nat) (h : n < 2 ^ 31) : toInt32 (n : Int) = n := by
  unfold toInt32
  omega

theorem fmt_d_natCast (n : Nat) : fmt_d (n : Int) = Nat.toDigits 10 n := by
  simp [fmt_d]

theorem error_response_sent (c : Conn) (method cause : List Char) (httpcode : Int)
    (msg : List Char) (hm : method ≠ "HEAD".toList) (hc : c.fails = []) :
    (error_response c method cause httpcode msg).sent =
      c.sent ++ ("HTTP/1.0 ".toList ++ fmt_d httpcode ++ " ".toList ++ http_status httpcode ++
          "\r\n".toList) ++
        "Content-type: text/html\r\n".toList ++
        ("Content-length: ".toList ++
          fmt_d (toInt32 ((error_body cause httpcode msg).length : Int)) ++ "\r\n\r\n".toList) ++
        error_body cause httpcode msg := by
  have hm2 : streq method "HEAD".toList 0 = false := by
    simpa [streq_zero] using hm
  simp only [error_response, Rio_writef, hm2, Rio_write_ok, hc, Bool.false_eq_true, if_false]

theorem index_append_of_not_mem (l rest : List Char) (c : Char) (h : c ∉ l) :
    index (l ++ c :: rest) c = some l.length := by
  induction l with
  | nil => simp [index]
  | cons x xs ih =>
    have hx : x ≠ c := fun e => h (by simp [e])
    have hxs : c ∉ xs := fun e => h (by simp [e])
    simp [index, hx, ih hxs]

theorem Riob_readline_line (l rest : List Char) (maxlen : Nat) (h : '\n' ∉ l)
    (hlen : l.length + 1 < maxlen) :
    Riob_readline { unread := l ++ '\n' :: rest } maxlen =
      (some (l ++ ['\n']), { unread := rest }) := by
  simp [Riob_readline, index_append_of_not_mem l rest '\n' h, hlen, List.take_append_eq_append_take,
    List.drop_append_eq_append_drop]

theorem scan_s_length (s t r : List Char) (h : scan_s s = some (t, r)) :
    t.length + r.length ≤ s.length := by
  unfold scan_s at h
  simp only at h
  split at h
  · cases h
  · simp only [Option.some.injEq, Prod.mk.injEq] at h
    obtain ⟨ht, hr⟩ := h
    have h1 := congrArg List.length
      (List.takeWhile_append_dropWhile (fun c => !isspace c) (s.dropWhile isspace))
    rw [List.length_append, ht, hr] at h1
    have h2 := (List.dropWhile_sublist isspace (l := s)).length_le
    omega

theorem cstr_length_le (l : List Char) : (cstr l).length ≤ l.length :=
  (List.takeWhile_sublist _).length_le

theorem Riob_readline_length (rp rp1 : rio_t) (maxlen : Nat) (line : List Char)
    (h : Riob_readline rp maxlen = (some line, rp1)) : line.length < maxlen := by
  unfold Riob_readline at h
  split at h
  · cases h
  · split at h
    · next i _ hi =>
      simp only [Prod.mk.injEq, Option.some.injEq] at h
      rw [← h.1]
      have := List.length_take_le (i + 1) rp.unread
      omega
    · cases h

theorem scan_store_ok (cap : Nat) (token : List Char) (h : token.length < cap) :
    scan_store cap token = .ok token := by
  unfold scan_store
  rw [if_pos (by omega)]

theorem read_request_line_tokens (MAXLINE : Nat) (fr : Frame) (rp rp1 : rio_t)
    (reqhead : request_header) (line method r1 uri r2 : List Char)
    (hline : Riob_readline rp MAXLINE = (some line, rp1))
    (h1 : scan_s (cstr line) = some (method, r1)) (h2 : scan_s r1 = some (uri, r2))
    (hm : method.length < 100) :
    read_request_line MAXLINE fr rp reqhead =
      (parse_uri MAXLINE fr { reqhead with method := method } uri).map
        (fun r => (0, r, rp1)) := by
  have hl := Riob_readline_length rp rp1 MAXLINE line hline
  have hc := cstr_length_le line
  have hs1 := scan_s_length _ _ _ h1
  have hs2 := scan_s_length _ _ _ h2
  have hu : scan_store MAXLINE uri = .ok uri := scan_store_ok _ _ (by omega)
  cases h : scan_s r2 with
  | none =>
    simp only [read_request_line, hline, h1, h2, h, Option.bind, scan_store_ok 100 method hm, hu,
      bind, Except.bind, pure, Except.pure, Except.map]
  | some t =>
    have hs3 := scan_s_length r2 t.1 t.2 h
    have hv : scan_store MAXLINE t.1 = .ok t.1 := scan_store_ok _ _ (by omega)
    simp only [read_request_line, hline, h1, h2, h, Option.bind, scan_store_ok 100 method hm, hu,
      hv, bind, Except.bind, pure, Except.pure, Except.map]

theorem digitChar_ne_cr (k : Nat) (h : k < 10) : Nat.digitChar k ≠ '\r' := by
  interval_cases k <;> decide

theorem toDigitsCore_no_cr (fuel : Nat) : ∀ (n : Nat) (acc : List Char), '\r' ∉ acc →
    '\r' ∉ Nat.toDigitsCore 10 fuel n acc := by
  induction fuel with
  | zero => intro n acc h; simpa [Nat.toDigitsCore] using h
  | succ f ih =>
    intro n acc h
    have hd : '\r' ≠ Nat.digitChar (n % 10) :=
      fun e => digitChar_ne_cr (n % 10) (Nat.mod_lt _ (by decide)) e.symm
    have hacc : '\r' ∉ Nat.digitChar (n % 10) :: acc := by
      simp only [List.mem_cons, not_or]; exact ⟨hd, h⟩
    unfold Nat.toDigitsCore
    by_cases h0 : n / 10 = 0
    · simpa [h0] using hacc
    · simpa [h0] using ih (n / 10) _ hacc

theorem fmt_d_no_cr (z : Int) : '\r' ∉ fmt_d z := by
  have h : '\r' ∉ Nat.toDigits 10 z.natAbs := toDigitsCore_no_cr _ _ _ (by simp)
  unfold fmt_d
  by_cases hz : z < 0
  · simp only [hz, if_true, List.mem_cons, not_or]; exact ⟨by decide, h⟩
  · simpa [hz] using h

theorem ite_no_cr (c : Prop) [Decidable c] (a b : List Char) (ha : '\r' ∉ a) (hb : '\r' ∉ b) :
    '\r' ∉ (if c then a else b) := by
  split <;> assumption
theorem http_status_no_cr (code : Int) : '\r' ∉ http_status code := by
  simp only [http_status]
  repeat' apply ite_no_cr
  all_goals decide

theorem http_body_line (l rest : List Char) (hl : '\r' ∉ l) :
    http_body (l ++ '\r' :: '\n' :: rest) =
      if "\r\n".toList.isPrefixOf rest then rest.drop 2 else http_body rest := by
  induction l with
  | nil =>
    match rest with
    | [] => simp [http_body, List.isPrefixOf]
    | [a] => simp [http_body, List.isPrefixOf]
    | a :: b :: r =>
      by_cases ha : a = '\r' <;> by_cases hb : b = '\n' <;>
        simp [http_body, List.isPrefixOf, ha, hb]
  | cons x xs ih =>
    have hx : x ≠ '\r' := fun e => hl (by simp [e])
    have hxs : '\r' ∉ xs := fun e => hl (by simp [e])
    have hx2 : ('\r' == x) = false := by simpa using hx.symm
    simp [http_body, List.isPrefixOf, hx2, ih hxs]

theorem http_body_after_line (l rest : List Char) (hl : '\r' ∉ l)
    (hr : "\r\n".toList.isPrefixOf rest = false) :
    http_body ((l ++ "\r\n".toList) ++ rest) = http_body rest := by
  have h := http_body_line l rest hl
  rw [hr] at h
  simpa using h

theorem toInt32_two_pow_31 : toInt32 ((2 ^ 31 : Nat) : Int) = -2147483648 := by
  decide

theorem big_data_length : big_data.length = 2 ^ 31 := by
  simp only [big_data, List.length_replicate]

theorem serve_static_get (w : World) (reqhead : request_header) (f : File) (z : Int)
    (hm : reqhead.method = "GET".toList)
    (hf : w.files reqhead.filename = some f) (hc : w.conn.fails = []) :
    serve_static w reqhead z =
      (200, { w with conn :=
        { sent := w.conn.sent ++
            ("HTTP/1.0 200 OK\r\n".toList ++ "Server: Tiny Web Server\r\n".toList ++
              "Connection: close\r\n".toList ++
              ("Content-length: ".toList ++ fmt_d z ++ "\r\n".toList) ++
              ("Content-type: ".toList ++ mime_type reqhead.filename ++ "\r\n\r\n".toList)) ++
            (if z ≤ 0 then [] else f.data.take z.toNat),
          fails := [] } }) := by
  have hhd : streq reqhead.method "HEAD".toList 0 = false := by rw [hm]; decide
  unfold serve_static
  simp only [strncatf]
  simp only [Rio_write_ok _ _ hc]
  simp only [hhd]
  simp only [Mmap, hf]
  have hnn : ∀ l : List Char, ¬ ((l.length : Int) < 0) := fun l => by omega
  rw [if_neg (hnn _), if_neg (by simp)]
  by_cases hz : z ≤ 0
  · rw [if_pos hz, if_pos hz]
    simp only [List.append_nil, hc]
  · rw [if_neg hz, if_neg hz]
    simp only []
    rw [Rio_write_ok _ _ (by exact hc)]
    simp only [hc]

theorem write_response_static_get (w : World) (reqhead : request_header) (f : File)
    (hm : reqhead.method = "GET".toList) (hd : reqhead.is_dynamic = false)
    (hf : w.files reqhead.filename = some f) (hreg : S_ISREG f.mode = true)
    (hr : S_IRUSR &&& f.mode ≠ 0) :
    write_response w reqhead =
      serve_static w reqhead (toInt32 (f.data.length : Int)) := by
  have hcm : check_method reqhead.method = true := by rw [hm]; decide
  have hstat : w.stat reqhead.filename =
      some { st_mode := f.mode, st_size := f.data.length } := by
    simp only [World.stat, hf]
  unfold write_response
  simp only [hcm, hstat, hreg, hd, hr, Bool.not_true, Bool.false_eq_true, if_false]

/-- C2, the code at the failing input: for a GET of a readable regular file of
`2 ^ 31` bytes `stat` reports the size `2 ^ 31`, and the response, status 200,
carries `Content-length: -2147483648` and no body byte. -/
theorem C2_two_gib_file_content_length :
    (big_file_world.stat big_request.filename).map (fun s => s.st_size) = some (2 ^ 31) ∧
    (write_response big_file_world big_request).1 = 200 ∧
    (write_response big_file_world big_request).2.conn.sent =
      ("HTTP/1.0 200 OK\r\nServer: Tiny Web Server\r\nConnection: close\r\n" ++
        "Content-length: -2147483648\r\nContent-type: text/plain\r\n\r\n").toList := by
  have hfile : big_file_world.files big_request.filename =
      some { mode := 0o100644, data := big_data } := by
    simp only [big_file_world, big_request, if_true]
  have hstat : big_file_world.stat big_request.filename =
      some { st_mode := 0o100644, st_size := 2 ^ 31 } := by
    simp only [World.stat, hfile, big_data_length]
  have hmime : mime_type big_request.filename = "text/plain".toList := by decide
  have hfmt : fmt_d (-2147483648) = "-2147483648".toList := by decide
  have hlen : toInt32 ((big_data.length : Nat) : Int) = -2147483648 := by
    rw [big_data_length]; exact toInt32_two_pow_31
  have hreg : S_ISREG 0o100644 = true := by decide
  have hr : S_IRUSR &&& 0o100644 ≠ 0 := by decide
  have hsent : big_file_world.conn.sent = [] := rfl
  have h := write_response_static_get big_file_world big_request
    { mode := 0o100644, data := big_data } rfl rfl hfile hreg hr
  rw [serve_static_get big_file_world big_request { mode := 0o100644, data := big_data } _
    rfl hfile rfl] at h
  simp only [hlen, hfmt, hmime, hsent] at h
  rw [if_pos (by decide)] at h
  refine ⟨by rw [hstat]; rfl, by rw [h], ?_⟩
  rw [h]
  rfl

theorem write_response_static_get_small (w : World) (reqhead : request_header) (f : File)
    (hm : reqhead.method = "GET".toList) (hd : reqhead.is_dynamic = false)
    (hf : w.files reqhead.filename = some f) (hreg : S_ISREG f.mode = true)
    (hr : S_IRUSR &&& f.mode ≠ 0) (hc : w.conn.fails = []) (hN : f.data.length < 2 ^ 31) :
    write_response w reqhead =
      (200, { w with conn :=
        { sent := w.conn.sent ++
            ("HTTP/1.0 200 OK\r\n".toList ++ "Server: Tiny Web Server\r\n".toList ++
              "Connection: close\r\n".toList ++
              ("Content-length: ".toList ++ Nat.toDigits 10 f.data.length ++ "\r\n".toList) ++
              ("Content-type: ".toList ++ mime_type reqhead.filename ++ "\r\n\r\n".toList)) ++
            f.data,
          fails := [] } }) := by
  rw [write_response_static_get w reqhead f hm hd hf hreg hr,
    serve_static_get w reqhead f _ hm hf hc, toInt32_of_lt _ hN, fmt_d_natCast]
  by_cases h0 : f.data.length = 0
  · have : f.data = [] := List.length_eq_zero.mp h0
    simp [this]
  · have hpos : ¬ ((f.data.length : Int) ≤ 0) := by omega
    rw [if_neg hpos]
    simp

theorem cstr_no_nul (l : List Char) : '\x00' ∉ cstr l := by
  intro h
  have := List.mem_takeWhile_imp h
  simp at this

theorem cstr_append_nul (a g : List Char) (h : '\x00' ∉ a) : cstr (a ++ '\x00' :: g) = a := by
  unfold cstr
  induction a with
  | nil => simp
  | cons x xs ih =>
    have hx : x ≠ '\x00' := fun e => h (by simp [e])
    have hxs : '\x00' ∉ xs := fun e => h (by simp [e])
    simp [hx, ih hxs]

theorem scan_s_no_nul (s t r : List Char) (hs : '\x00' ∉ s) (h : scan_s s = some (t, r)) :
    '\x00' ∉ t ∧ '\x00' ∉ r := by
  unfold scan_s at h
  simp only at h
  split at h
  · cases h
  · simp only [Option.some.injEq, Prod.mk.injEq] at h
    obtain ⟨ht, hr⟩ := h
    have hd : '\x00' ∉ s.dropWhile isspace :=
      fun e => hs ((List.dropWhile_sublist _).subset e)
    constructor
    · rw [← ht]; exact fun e => hd ((List.takeWhile_sublist _).subset e)
    · rw [← hr]; exact fun e => hd ((List.dropWhile_sublist _).subset e)

theorem index_eq_none (l : List Char) (c : Char) (h : c ∉ l) : index l c = none := by
  induction l with
  | nil => rfl
  | cons x xs ih =>
    have hx : x ≠ c := fun e => h (by simp [e])
    have hxs : c ∉ xs := fun e => h (by simp [e])
    simp [index, hx, ih hxs]

theorem index_question (uri : List Char) :
    match index uri '?' with
    | some i => uri.take i = spec_path uri ∧ uri.drop (i + 1) = spec_query uri
    | none => spec_path uri = uri ∧ spec_query uri = [] := by
  induction uri with
  | nil => exact ⟨rfl, rfl⟩
  | cons x xs ih =>
    by_cases hx : x = '?'
    · simp [index, hx, spec_path, spec_query]
    · cases hi : index xs '?' with
      | none =>
        rw [hi] at ih
        simp only [spec_path, spec_query] at ih
        simp [index, hx, hi, spec_path, spec_query, ih.1, ih.2]
      | some i =>
        rw [hi] at ih
        simp only [spec_path, spec_query] at ih
        simp [index, hx, hi, spec_path, spec_query, ih.1, ih.2]

theorem spec_path_append_query (uri : List Char) (h : '?' ∈ uri) :
    uri = spec_path uri ++ '?' :: spec_query uri := by
  induction uri with
  | nil => simp at h
  | cons x xs ih =>
    by_cases hx : x = '?'
    · simp [hx, spec_path, spec_query]
    · have hxs : '?' ∈ xs := by
        rcases List.mem_cons.1 h with e | e
        · exact absurd e.symm hx
        · exact e
      have := ih hxs
      simp only [spec_path, spec_query] at this ⊢
      simp only [List.takeWhile_cons, List.dropWhile_cons, bne_iff_ne, ne_eq, hx,
        not_false_eq_true, decide_True, if_true, List.cons_append]
      exact congrArg _ this

theorem spec_path_of_split (p a : List Char) (hp : '?' ∉ p) :
    spec_path (p ++ '?' :: a) = p ∧ spec_query (p ++ '?' :: a) = a := by
  induction p with
  | nil => simp [spec_path, spec_query]
  | cons x xs ih =>
    have hx : x ≠ '?' := fun e => hp (by simp [e])
    have hxs : '?' ∉ xs := fun e => hp (by simp [e])
    have := ih hxs
    simp only [spec_path, spec_query] at this ⊢
    simp [hx, this.1, this.2]

theorem spec_path_of_no_query (uri : List Char) (h : '?' ∉ uri) :
    spec_path uri = uri ∧ spec_query uri = [] := by
  have := index_question uri
  rw [index_eq_none uri '?' h] at this
  exact this

theorem spec_path_query_length (uri : List Char) :
    (spec_path uri).length + (spec_query uri).length ≤ uri.length := by
  have h := congrArg List.length
    (List.takeWhile_append_dropWhile (fun c => c != '?') uri)
  rw [List.length_append] at h
  simp only [spec_path, spec_query, List.length_drop]
  omega

theorem drop_succ_cons_tail (x : Char) (l : List Char) (n : Nat) :
    List.drop (1 + n) (x :: l.tail) = List.drop (1 + n) l := by
  rw [Nat.add_comm, List.drop_succ_cons]
  cases l <;> simp

theorem strcpy_ok (cap : Nat) (dst src : List Char) (h : src.length < cap) :
    strcpy cap dst src = .ok (src ++ '\x00' :: dst.drop (src.length + 1)) := by
  unfold strcpy
  rw [if_pos (by omega)]

theorem strcat_ok (cap : Nat) (dst src : List Char) (h : dst.length + src.length < cap) :
    strcat cap dst src = .ok (dst ++ src) := by
  unfold strcat
  rw [if_pos (by omega)]

theorem strcat_overflow (cap : Nat) (dst src : List Char) (h : cap ≤ dst.length + src.length) :
    strcat cap dst src = .error .overflow := by
  unfold strcat
  rw [if_neg (by omega)]

theorem strcpy_root (cap : Nat) (dst : List Char) (h : 1 < cap) :
    (strcpy cap dst ROOT_PATH).map cstr = .ok ROOT_PATH := by
  rw [strcpy_ok cap dst ROOT_PATH h]
  exact congrArg Except.ok (cstr_append_nul _ _ (by decide))

theorem fault_eq_overflow (e : Fault) : e = Fault.overflow := by
  cases e
  rfl

theorem bind_eq_ok {α β : Type} (x : Except Fault α) (f : α → Except Fault β) (b : β)
    (h : (x >>= f) = .ok b) : ∃ a, x = .ok a ∧ f a = .ok b := by
  cases x with
  | error e => cases h
  | ok a => exact ⟨a, rfl, h⟩

theorem not_ok_eq_overflow {α : Type} (x : Except Fault α) (h : ∀ a, x ≠ .ok a) :
    x = .error .overflow := by
  cases x with
  | error e => rw [fault_eq_overflow e]
  | ok a => exact absurd rfl (h a)

theorem strcat_eq_ok (cap : Nat) (dst src r : List Char) (h : strcat cap dst src = .ok r) :
    r = dst ++ src ∧ dst.length + src.length < cap := by
  unfold strcat at h
  split at h
  · next hc => exact ⟨(Except.ok.inj h).symm, by omega⟩
  · cases h

theorem strcpy_eq_ok (cap : Nat) (dst src r : List Char) (h : strcpy cap dst src = .ok r) :
    r = src ++ '\x00' :: dst.drop (src.length + 1) ∧ src.length < cap := by
  unfold strcpy at h
  split at h
  · next hc => exact ⟨(Except.ok.inj h).symm, by omega⟩
  · cases h

theorem strcpy_root_eq_ok (cap : Nat) (dst r : List Char)
    (h : (strcpy cap dst ROOT_PATH).map cstr = .ok r) : r = ROOT_PATH := by
  unfold strcpy at h
  split at h
  · simp only [Except.map] at h
    rw [← Except.ok.inj h]
    exact cstr_append_nul _ _ (by decide)
  · cases h

theorem index_path (uri : List Char) :
    (match index uri '?' with
      | some i => uri.take i
      | none => uri) = spec_path uri := by
  have := index_question uri
  cases hi : index uri '?' with
  | none => rw [hi] at this; exact this.1.symm
  | some i => rw [hi] at this; exact this.1

theorem parse_uri_fits (MAXLINE : Nat) (fr : Frame) (reqhead : request_header)
    (uri : List Char) (hq : (spec_query uri).length < MAXLINE)
    (hfit : (spec_path uri).length + 1 +
      (if peek fr.before_uri (spec_path uri) (slash_test_index (spec_path uri)) = '/'
        then 9 else 0) < MAXLINE) :
    parse_uri MAXLINE fr reqhead uri =
      .ok { reqhead with
        filename := ROOT_PATH ++ spec_path uri ++
          (if peek fr.before_uri (spec_path uri) (slash_test_index (spec_path uri)) = '/'
            then DEFAULT_FILE else [])
        cgiargs := spec_query uri ++ '\x00' ::
          reqhead.cgiargs.drop ((spec_query uri).length + 1)
        is_dynamic := strneq (spec_path uri) "/cgi-bin/".toList 9 1 } := by
  have hrl : ROOT_PATH.length = 1 := rfl
  have hdl : DEFAULT_FILE.length = 9 := rfl
  have e1 := strcpy_ok MAXLINE reqhead.cgiargs [] (by simp only [List.length_nil]; omega)
  have e3 := strcpy_root MAXLINE reqhead.filename (by omega)
  have e4 := strcat_ok MAXLINE ROOT_PATH (spec_path uri) (by rw [hrl]; omega)
  have e2 := strcpy_ok MAXLINE
    (([] : List Char) ++ '\x00' :: reqhead.cgiargs.drop (([] : List Char).length + 1))
    (spec_query uri) hq
  have hiq := index_question uri
  unfold parse_uri
  simp only [index_path]
  by_cases hs : peek fr.before_uri (spec_path uri) (slash_test_index (spec_path uri)) = '/'
  · rw [if_pos hs] at hfit
    have e5 := strcat_ok MAXLINE (ROOT_PATH ++ spec_path uri) DEFAULT_FILE
      (by rw [List.length_append, hrl, hdl]; omega)
    unfold slash_test_index at hs
    cases hi : index uri '?' with
    | none =>
      rw [hi] at hiq
      rw [hiq.2]
      simp only [e1, bind, Except.bind, pure, Except.pure, e3, e4, slash_test_index, hs, if_true,
        e5]
    | some i =>
      rw [hi] at hiq
      simp only [e1, bind, Except.bind, pure, Except.pure, e3, hiq.2, e2, e4,
        slash_test_index, hs, if_true, e5]
      simp [Nat.add_comm]
      exact drop_succ_cons_tail _ _ _
  · unfold slash_test_index at hs
    cases hi : index uri '?' with
    | none =>
      rw [hi] at hiq
      rw [hiq.2]
      simp only [e1, bind, Except.bind, pure, Except.pure, e3, e4, slash_test_index, hs,
        if_false]
      simp
    | some i =>
      rw [hi] at hiq
      simp only [e1, bind, Except.bind, pure, Except.pure, e3, hiq.2, e2, e4,
        slash_test_index, hs, if_false]
      simp [Nat.add_comm]
      exact drop_succ_cons_tail _ _ _

theorem parse_uri_ok_fits (MAXLINE : Nat) (fr : Frame) (reqhead r : request_header)
    (uri : List Char) (h : parse_uri MAXLINE fr reqhead uri = .ok r) :
    (spec_query uri).length < MAXLINE ∧
      (spec_path uri).length + 1 +
        (if peek fr.before_uri (spec_path uri) (slash_test_index (spec_path uri)) = '/'
          then 9 else 0) < MAXLINE := by
  have hrl : ROOT_PATH.length = 1 := rfl
  have hdl : DEFAULT_FILE.length = 9 := rfl
  have hiq := index_question uri
  have tail1 : ∀ (v1 v2 : List Char),
      Except.map cstr (strcpy MAXLINE reqhead.filename ROOT_PATH) = .ok v1 →
      strcat MAXLINE v1 (spec_path uri) = .ok v2 →
      v2 = ROOT_PATH ++ spec_path uri ∧ (spec_path uri).length + 1 < MAXLINE := by
    intro v1 v2 h1 h2
    have hv1 := strcpy_root_eq_ok _ _ _ h1
    obtain ⟨e1, e1'⟩ := strcat_eq_ok _ _ _ _ h2
    rw [hv1, hrl] at e1'
    exact ⟨by rw [e1, hv1], by omega⟩
  have tail2 : ∀ (v2 v3 : List Char), v2 = ROOT_PATH ++ spec_path uri →
      strcat MAXLINE v2 DEFAULT_FILE = .ok v3 → (spec_path uri).length + 1 + 9 < MAXLINE := by
    intro v2 v3 hv2 h3
    obtain ⟨_, e2⟩ := strcat_eq_ok _ _ _ _ h3
    rw [hv2, List.length_append, hrl, hdl] at e2
    omega
  have hquery : (spec_query uri).length < MAXLINE := by
    unfold parse_uri at h
    simp only [bind, Except.bind, pure, Except.pure] at h
    split at h
    · cases h
    · rename_i c1 hc1
      obtain ⟨_, hq1⟩ := strcpy_eq_ok _ _ _ _ hc1
      cases hi : index uri '?' with
      | none =>
        rw [hi] at hiq
        rw [hiq.2]
        simpa using hq1
      | some i =>
        rw [hi] at hiq
        simp only [hi] at h
        split at h
        · cases h
        · rename_i c2 hc2
          obtain ⟨_, hq⟩ := strcpy_eq_ok _ _ _ _ hc2
          rw [hiq.2] at hq
          exact hq
  refine ⟨hquery, ?_⟩
  unfold parse_uri at h
  unfold slash_test_index
  by_cases hs : peek fr.before_uri (spec_path uri)
      (toSize (((spec_path uri).length : Int) - 1)) = '/'
  · rw [if_pos hs]
    simp only [bind, Except.bind, pure, Except.pure, index_path, hs, if_true] at h
    split at h
    · cases h
    · split at h
      · split at h
        · cases h
        · split at h
          · cases h
          · rename_i v1 hv1
            split at h
            · cases h
            · rename_i v2 hv2
              split at h
              · cases h
              · rename_i v3 hv3
                exact tail2 v2 v3 (tail1 v1 v2 hv1 hv2).1 hv3
      · split at h
        · cases h
        · rename_i v1 hv1
          split at h
          · cases h
          · rename_i v2 hv2
            split at h
            · cases h
            · rename_i v3 hv3
              exact tail2 v2 v3 (tail1 v1 v2 hv1 hv2).1 hv3
  · rw [if_neg hs]
    simp only [bind, Except.bind, pure, Except.pure, index_path, hs, if_false] at h
    split at h
    · cases h
    · split at h
      · split at h
        · cases h
        · split at h
          · cases h
          · rename_i v1 hv1
            split at h
            · cases h
            · rename_i v2 hv2
              exact (tail1 v1 v2 hv1 hv2).2
      · split at h
        · cases h
        · rename_i v1 hv1
          split at h
          · cases h
          · rename_i v2 hv2
            exact (tail1 v1 v2 hv1 hv2).2

theorem fits_of_lt (n cap : Nat) (c : Prop) [Decidable c] (h : n + 10 < cap) :
    n + 1 + (if c then 9 else 0) < cap := by
  split <;> omega

theorem parse_uri_eq_ok (MAXLINE : Nat) (fr : Frame) (reqhead r : request_header)
    (uri : List Char) (h : parse_uri MAXLINE fr reqhead uri = .ok r) :
    r = { reqhead with
        filename := ROOT_PATH ++ spec_path uri ++
          (if peek fr.before_uri (spec_path uri) (slash_test_index (spec_path uri)) = '/'
            then DEFAULT_FILE else [])
        cgiargs := spec_query uri ++ '\x00' ::
          reqhead.cgiargs.drop ((spec_query uri).length + 1)
        is_dynamic := strneq (spec_path uri) "/cgi-bin/".toList 9 1 } := by
  obtain ⟨hq, hfit⟩ := parse_uri_ok_fits MAXLINE fr reqhead r uri h
  rw [parse_uri_fits MAXLINE fr reqhead uri hq hfit] at h
  exact (Except.ok.inj h).symm

theorem uri_token_length (MAXLINE : Nat) (rp rp1 : rio_t) (line method r1 uri r2 : List Char)
    (hline : Riob_readline rp MAXLINE = (some line, rp1))
    (h1 : scan_s (cstr line) = some (method, r1)) (h2 : scan_s r1 = some (uri, r2)) :
    uri.length < MAXLINE := by
  have hl := Riob_readline_length rp rp1 MAXLINE line hline
  have hc := cstr_length_le line
  have hs1 := scan_s_length _ _ _ h1
  have hs2 := scan_s_length _ _ _ h2
  omega

theorem read_request_line_fits (MAXLINE : Nat) (fr : Frame) (rp rp1 : rio_t)
    (reqhead : request_header) (line method r1 uri r2 : List Char)
    (hline : Riob_readline rp MAXLINE = (some line, rp1))
    (h1 : scan_s (cstr line) = some (method, r1)) (h2 : scan_s r1 = some (uri, r2))
    (hm : method.length < 100) (hfit : (spec_path uri).length + 10 < MAXLINE) :
    read_request_line MAXLINE fr rp reqhead =
      .ok (0,
        { method := method
          filename := ROOT_PATH ++ spec_path uri ++
            (if peek fr.before_uri (spec_path uri) (slash_test_index (spec_path uri)) = '/'
              then DEFAULT_FILE else [])
          cgiargs := spec_query uri ++ '\x00' ::
            reqhead.cgiargs.drop ((spec_query uri).length + 1)
          is_dynamic := strneq (spec_path uri) "/cgi-bin/".toList 9 1
          content_length := reqhead.content_length },
        rp1) := by
  have hu := uri_token_length MAXLINE rp rp1 line method r1 uri r2 hline h1 h2
  have hq := spec_path_query_length uri
  rw [read_request_line_tokens MAXLINE fr rp rp1 reqhead line method r1 uri r2 hline h1 h2 hm,
    parse_uri_fits MAXLINE fr _ uri (by omega) (fits_of_lt _ _ _ hfit)]
  rfl

theorem read_request_line_eq_ok (MAXLINE : Nat) (fr : Frame) (rp rp1 : rio_t)
    (reqhead : request_header) (line method r1 uri r2 : List Char)
    (r : Int × request_header × rio_t)
    (hline : Riob_readline rp MAXLINE = (some line, rp1))
    (h1 : scan_s (cstr line) = some (method, r1)) (h2 : scan_s r1 = some (uri, r2))
    (h : read_request_line MAXLINE fr rp reqhead = .ok r) :
    (spec_path uri).length + 1 < MAXLINE ∧
    r = (0,
        { method := method
          filename := ROOT_PATH ++ spec_path uri ++
            (if peek fr.before_uri (spec_path uri) (slash_test_index (spec_path uri)) = '/'
              then DEFAULT_FILE else [])
          cgiargs := spec_query uri ++ '\x00' ::
            reqhead.cgiargs.drop ((spec_query uri).length + 1)
          is_dynamic := strneq (spec_path uri) "/cgi-bin/".toList 9 1
          content_length := reqhead.content_length },
        rp1) := by
  by_cases hm : method.length < 100
  · rw [read_request_line_tokens MAXLINE fr rp rp1 reqhead line method r1 uri r2 hline h1 h2 hm]
      at h
    cases hp : parse_uri MAXLINE fr { reqhead with method := method } uri with
    | error e => rw [hp] at h; cases h
    | ok rh =>
      rw [hp] at h
      have hr : r = (0, rh, rp1) := (Except.ok.inj h).symm
      obtain ⟨_, hfit⟩ := parse_uri_ok_fits MAXLINE fr _ rh uri hp
      have hrh := parse_uri_eq_ok MAXLINE fr _ rh uri hp
      refine ⟨by omega, ?_⟩
      rw [hr, hrh]
  · exfalso
    have hs : scan_store 100 method = .error .overflow := by
      unfold scan_store
      rw [if_neg (by omega)]
    simp only [read_request_line, hline, h1, hs, bind, Except.bind] at h
    cases h

theorem request_uri_split (MAXLINE : Nat) (fr : Frame) (rp rp1 : rio_t)
    (reqhead : request_header) (line method r1 uri r2 : List Char)
    (hline : Riob_readline rp MAXLINE = (some line, rp1))
    (h1 : scan_s (cstr line) = some (method, r1)) (h2 : scan_s r1 = some (uri, r2))
    (hm : method.length < 100) (hfit : (spec_path uri).length + 10 < MAXLINE) :
    ∃ reqhead1, read_request_line MAXLINE fr rp reqhead = .ok (0, reqhead1, rp1) ∧
      cstr reqhead1.cgiargs = spec_query uri ∧
      (reqhead1.filename = ROOT_PATH ++ spec_path uri ∨
        reqhead1.filename = ROOT_PATH ++ spec_path uri ++ DEFAULT_FILE) := by
  refine ⟨_, read_request_line_fits MAXLINE fr rp rp1 reqhead line method r1 uri r2 hline h1 h2
    hm hfit, ?_, ?_⟩
  · have hnul : '\x00' ∉ uri :=
      (scan_s_no_nul _ _ _ (scan_s_no_nul _ _ _ (cstr_no_nul line) h1).2 h2).1
    have hq : '\x00' ∉ spec_query uri := fun e =>
      hnul ((List.dropWhile_sublist _).subset ((List.drop_sublist _ _).subset e))
    exact cstr_append_nul _ _ hq
  · show (ROOT_PATH ++ spec_path uri ++ _ = _) ∨ _
    split
    · right; rfl
    · left; simp

/-- C5, the code at the failing input: for the request line `GET ?x HTTP/1.0` the
path part is empty, and the file name is `.home.html` when the cell before `uri`
holds a slash, `.` otherwise. -/
theorem C5_empty_path_reads_before_uri :
    Riob_readline { unread := "GET ?x HTTP/1.0\r\n\r\n".toList } 8192 =
      (some "GET ?x HTTP/1.0\r\n".toList, { unread := "\r\n".toList }) ∧
    (read_request_line 8192 slash_frame { unread := "GET ?x HTTP/1.0\r\n\r\n".toList }
      blank_request).map (fun r => r.2.1.filename) = .ok ".home.html".toList ∧
    (read_request_line 8192 quiet_frame { unread := "GET ?x HTTP/1.0\r\n\r\n".toList }
      blank_request).map (fun r => r.2.1.filename) = .ok ".".toList := by
  decide

theorem strneq_cgi_bin (path : List Char) :
    strneq path "/cgi-bin/".toList 9 1 = true ↔ "/cgi-bin/".toList <+: path := by
  have hk : "/cgi-bin/".toList.take 9 = "/cgi-bin/".toList := by decide
  have hl : "/cgi-bin/".toList.length = 9 := by decide
  rw [List.prefix_iff_eq_take, hl]
  simp only [strneq, streq, hk, beq_iff_eq]
  exact eq_comm

theorem toSize_pred (n : Nat) (h0 : 0 < n) (h : n < 2 ^ 64) :
    toSize ((n : Int) - 1) = n - 1 := by
  unfold toSize
  omega

theorem toSize_of_nonneg (z : Int) (h0 : 0 ≤ z) (h : z < 2 ^ 64) : toSize z = z.toNat := by
  unfold toSize
  omega

theorem peek_last (before : Char) (s : List Char) (hne : s ≠ []) (hlen : s.length < 2 ^ 64) :
    peek before s (toSize ((s.length : Int) - 1)) = s.getLast hne := by
  have hpos : 0 < s.length := List.length_pos.mpr hne
  rw [toSize_pred _ hpos hlen]
  unfold peek
  have h1 : s.length - 1 ≠ 2 ^ 64 - 1 := by omega
  rw [if_neg h1, List.getLast_eq_getElem]
  simp [List.getD_eq_getElem?_getD, List.getElem?_eq_getElem (show s.length - 1 < s.length by omega)]

theorem toInt32_range (z : Int) : -(2 ^ 31) ≤ toInt32 z ∧ toInt32 z < 2 ^ 31 := by
  unfold toInt32
  omega

theorem scan_d_range (s : List Char) (v : Int) (h : scan_d s = some v) :
    -(2 ^ 31) ≤ v ∧ v < 2 ^ 31 := by
  unfold scan_d at h
  simp only at h
  split at h
  · cases h
  · simp only [Option.some.injEq] at h
    rw [← h]
    exact toInt32_range _

theorem read_headers_loop_range (MAXLINE : Nat) (fuel : Nat) :
    ∀ (rp : rio_t) (cl : Int), -(2 ^ 31) ≤ cl ∧ cl < 2 ^ 31 →
      -(2 ^ 31) ≤ (read_headers_loop MAXLINE fuel rp cl).1 ∧
        (read_headers_loop MAXLINE fuel rp cl).1 < 2 ^ 31 := by
  induction fuel with
  | zero => intro rp cl h; simpa [read_headers_loop] using h
  | succ n ih =>
    intro rp cl h
    unfold read_headers_loop
    cases hl : Riob_readline rp MAXLINE with
    | mk o rp1 =>
      cases o with
      | none => simpa using h
      | some line =>
        simp only
        have hcl : -(2 ^ 31) ≤ (if strneq (cstr line) "Content-Length:".toList 15 0 = true then
              (scan_d ((cstr line).drop 15)).getD cl else cl) ∧
            (if strneq (cstr line) "Content-Length:".toList 15 0 = true then
              (scan_d ((cstr line).drop 15)).getD cl else cl) < 2 ^ 31 := by
          split
          · cases hd : scan_d ((cstr line).drop 15) with
            | none => simpa using h
            | some v => simpa using scan_d_range _ _ hd
          · exact h
        split
        · exact hcl
        · exact ih _ _ hcl

theorem poke_append (body rest : List Char) :
    poke (body ++ rest) (body.length : Int) '\x00' = body ++ '\x00' :: rest.drop 1 := by
  unfold poke
  have h0 : ¬ ((body.length : Int) < 0) := by omega
  rw [if_neg h0]
  simp only [Int.toNat_ofNat, List.length_append]
  cases rest with
  | nil => simp
  | cons x xs => simp [List.set_append_right]

theorem read_request_headers_range (MAXLINE : Nat) (rp : rio_t) (reqhead : request_header) :
    -(2 ^ 31) ≤ (read_request_headers MAXLINE rp reqhead).1.content_length ∧
      (read_request_headers MAXLINE rp reqhead).1.content_length < 2 ^ 31 :=
  read_headers_loop_range MAXLINE _ rp 0 (by decide)

theorem store_ok (cap : Nat) (a : List Char) (i : Int) (c : Char) (h0 : 0 ≤ i)
    (h : i < (cap : Int)) : store cap a i c = .ok (poke a i c) := by
  unfold store
  rw [if_pos ⟨h0, h⟩]

theorem store_overflow (cap : Nat) (a : List Char) (i : Int) (c : Char)
    (h : i < 0 ∨ (cap : Int) ≤ i) : store cap a i c = .error .overflow := by
  unfold store
  rw [if_neg (by omega)]

theorem post_body_becomes_cgiargs (MAXLINE : Nat) (fr : Frame) (rp rp1 rp2 : rio_t)
    (reqhead reqhead1 reqhead2 : request_header)
    (hl : read_request_line MAXLINE fr rp reqhead = .ok (0, reqhead1, rp1))
    (hh : read_request_headers MAXLINE rp1 reqhead1 = (reqhead2, rp2))
    (hm : reqhead2.method = "POST".toList)
    (h0 : 0 ≤ reqhead2.content_length)
    (hmax : reqhead2.content_length < (MAXLINE : Int))
    (hb : reqhead2.content_length.toNat ≤ rp2.unread.length) :
    serve_request MAXLINE fr rp reqhead =
      .ok (some ({ reqhead2 with
              cgiargs := rp2.unread.take reqhead2.content_length.toNat ++
                '\x00' :: reqhead2.cgiargs.drop (reqhead2.content_length.toNat + 1) },
            { unread := rp2.unread.drop reqhead2.content_length.toNat })) := by
  have hr := read_request_headers_range MAXLINE rp1 reqhead1
  rw [hh] at hr
  simp only at hr
  have hsz : toSize reqhead2.content_length = reqhead2.content_length.toNat :=
    toSize_of_nonneg _ h0 (by omega)
  have hpost : streq reqhead2.method "POST".toList 0 = true := by rw [hm]; decide
  have hlen : (rp2.unread.take reqhead2.content_length.toNat).length =
      reqhead2.content_length.toNat := by
    simp [hb]
  have hcl : reqhead2.content_length =
      ((rp2.unread.take reqhead2.content_length.toNat).length : Int) := by
    rw [hlen]; omega
  have hpoke := poke_append (rp2.unread.take reqhead2.content_length.toNat)
    (reqhead2.cgiargs.drop (rp2.unread.take reqhead2.content_length.toNat).length)
  rw [← hcl] at hpoke
  have hnot : ¬ (MAXLINE < (rp2.unread.take reqhead2.content_length.toNat).length) := by
    rw [hlen]; omega
  simp only [serve_request, hl, hh, hpost, hsz, Riob_read, ne_eq, not_true_eq_false, if_false,
    if_true, bind, Except.bind, pure, Except.pure, hnot, store_ok _ _ _ _ h0 hmax, hpoke]
  simp [hlen, Nat.add_comm]

theorem strrchr_eq_none (l : List Char) (c : Char) : strrchr l c = none ↔ c ∉ l := by
  induction l with
  | nil => simp [strrchr]
  | cons x xs ih =>
    unfold strrchr
    cases h : strrchr xs c with
    | some i =>
      have : c ∈ xs := by
        by_contra hc
        rw [ih.2 hc] at h
        cases h
      simp [this]
    | none =>
      have hxs : c ∉ xs := ih.1 h
      by_cases hx : x = c
      · simp [hx]
      · have : ¬ c = x := fun e => hx e.symm
        simp [hx, hxs, this]

theorem strrchr_eq_some (l : List Char) (c : Char) (i : Nat) (h : strrchr l c = some i) :
    ∃ pre suf, l = pre ++ c :: suf ∧ c ∉ suf ∧ pre.length = i := by
  induction l generalizing i with
  | nil => simp [strrchr] at h
  | cons x xs ih =>
    unfold strrchr at h
    cases hs : strrchr xs c with
    | some j =>
      rw [hs] at h
      simp only [Option.some.injEq] at h
      obtain ⟨pre, suf, e, hn, hl⟩ := ih j hs
      exact ⟨x :: pre, suf, by rw [e]; rfl, hn, by simp [hl, h]⟩
    | none =>
      rw [hs] at h
      simp only at h
      split at h
      · next hx =>
        simp only [Option.some.injEq] at h
        exact ⟨[], xs, by simp [hx], (strrchr_eq_none xs c).1 hs, by simp [← h]⟩
      · cases h

theorem mime_of_ext_eq_lookup (ext : List Char) :
    (if streq ext "html".toList 0 then "text/html".toList
      else if streq ext "css".toList 0 then "text/css".toList
      else if streq ext "js".toList 0 then "text/javascript".toList
      else if streq ext "pdf".toList 0 then "application/pdf".toList
      else if streq ext "gif".toList 0 then "image/gif".toList
      else if streq ext "png".toList 0 then "image/png".toList
      else if streq ext "jpg".toList 0 then "image/jpeg".toList
      else if streq ext "ico".toList 0 then "image/vnd.microsoft.icon".toList
      else if streq ext "mpg".toList 0 then "video/mpeg".toList
      else if streq ext "mpeg".toList 0 then "video/mpeg".toList
      else if streq ext "mp4".toList 0 then "video/mp4".toList
      else "text/plain".toList) =
    (spec_mime_table.lookup ext).getD "text/plain".toList := by
  simp only [streq_zero, spec_mime_table, List.lookup]
  generalize (ext == "html".toList) = b0
  generalize (ext == "css".toList) = b1
  generalize (ext == "js".toList) = b2
  generalize (ext == "pdf".toList) = b3
  generalize (ext == "gif".toList) = b4
  generalize (ext == "png".toList) = b5
  generalize (ext == "jpg".toList) = b6
  generalize (ext == "ico".toList) = b7
  generalize (ext == "mpg".toList) = b8
  generalize (ext == "mpeg".toList) = b9
  generalize (ext == "mp4".toList) = b10
  cases b0
  swap
  · rfl
  cases b1
  swap
  · rfl
  cases b2
  swap
  · rfl
  cases b3
  swap
  · rfl
  cases b4
  swap
  · rfl
  cases b5
  swap
  · rfl
  cases b6
  swap
  · rfl
  cases b7
  swap
  · rfl
  cases b8
  swap
  · rfl
  cases b9
  swap
  · rfl
  cases b10
  swap
  · rfl
  rfl

theorem mime_type_amended (filename : List Char) :
    mime_type filename =
      if only_leading_dot filename then "text/plain".toList else spec_mime_type filename := by
  have hm : mime_type filename = (spec_mime_table.lookup (file_ext filename)).getD
      "text/plain".toList := by
    rw [← mime_of_ext_eq_lookup]; rfl
  rw [hm]
  cases hs : strrchr filename '.' with
  | none =>
    have hno : '.' ∉ filename := (strrchr_eq_none _ _).1 hs
    have hold : only_leading_dot filename = false := by
      unfold only_leading_dot
      split
      · next rest => exact absurd (List.mem_cons_self _ _) hno
      · rfl
    simp only [file_ext, hs, hold, spec_mime_type, spec_extension, hno, if_false,
      Bool.false_eq_true]
    rfl
  | some i =>
    obtain ⟨pre, suf, e, hn, hl⟩ := strrchr_eq_some _ _ _ hs
    have hin : '.' ∈ filename := by rw [e]; simp
    have hext : spec_extension filename = some suf := by
      have hsuf : ∀ a ∈ suf.reverse, (fun c : Char => c != '.') a = true := by
        intro a ha
        have : a ≠ '.' := fun e2 => hn (by rw [← e2]; exact List.mem_reverse.mp ha)
        simpa using this
      simp only [spec_extension, hin, if_true, e, List.reverse_append, List.reverse_cons,
        List.append_assoc, List.singleton_append]
      rw [List.takeWhile_append_of_pos hsuf]
      simp
    by_cases hi : i = 0
    · subst hi
      have hpre : pre = [] := List.length_eq_zero.mp hl
      subst hpre
      have hold : only_leading_dot filename = true := by
        rw [e]
        simp [only_leading_dot, hn]
      simp only [file_ext, hs, hold, if_true]
      rfl
    · have hold : only_leading_dot filename = false := by
        rw [e]
        cases pre with
        | nil => simp at hl; exact absurd hl.symm hi
        | cons x xs =>
          unfold only_leading_dot
          simp only [List.cons_append]
          split
          · next rest heq =>
            simp only [List.cons.injEq] at heq
            simp [← heq.2]
          · rfl
      have hdrop : filename.drop (i + 1) = suf := by
        rw [e, ← hl]; simp
      simp only [file_ext, hs, hi, if_false, hold, Bool.false_eq_true, spec_mime_type, hext,
        hdrop]

/-- C9, counterexample: for the file name `.html` the text after the last dot is
`html`, for which the table gives `text/html`, and `mime_type` returns
`text/plain`. -/
theorem C9_dotfile_extension_ignored :
    mime_type ".html".toList = "text/plain".toList ∧
      spec_extension ".html".toList = some "html".toList ∧
      spec_mime_type ".html".toList = "text/html".toList := by
  decide

theorem http_body_blank_line (l body : List Char) (hl : '\r' ∉ l) :
    http_body (l ++ "\r\n\r\n".toList ++ body) = body := by
  have h := http_body_line l ("\r\n".toList ++ body) hl
  simpa [List.isPrefixOf] using h

theorem error_response_fresh_body (method cause : List Char) (httpcode : Int) (msg : List Char)
    (hm : method ≠ "HEAD".toList) :
    http_body (error_response { sent := [], fails := [] } method cause httpcode msg).sent =
      error_body cause httpcode msg := by
  rw [error_response_sent _ _ _ _ _ hm rfl]
  have n1 : '\r' ∉ "HTTP/1.0 ".toList ++ fmt_d httpcode ++ " ".toList ++ http_status httpcode := by
    simp only [List.mem_append, not_or]
    exact ⟨⟨⟨by decide, fmt_d_no_cr _⟩, by decide⟩, http_status_no_cr _⟩
  have n3 : '\r' ∉ "Content-length: ".toList ++
      fmt_d (toInt32 ((error_body cause httpcode msg).length : Int)) := by
    simp only [List.mem_append, not_or]
    exact ⟨by decide, fmt_d_no_cr _⟩
  have e : ([] : List Char) ++ ("HTTP/1.0 ".toList ++ fmt_d httpcode ++ " ".toList ++
        http_status httpcode ++ "\r\n".toList) ++
        "Content-type: text/html\r\n".toList ++
        ("Content-length: ".toList ++
          fmt_d (toInt32 ((error_body cause httpcode msg).length : Int)) ++ "\r\n\r\n".toList) ++
        error_body cause httpcode msg =
      (("HTTP/1.0 ".toList ++ fmt_d httpcode ++ " ".toList ++ http_status httpcode) ++
        "\r\n".toList) ++
      (("Content-type: text/html".toList ++ "\r\n".toList) ++
      (("Content-length: ".toList ++
          fmt_d (toInt32 ((error_body cause httpcode msg).length : Int))) ++
        "\r\n\r\n".toList ++ error_body cause httpcode msg)) := by
    have e2 : "Content-type: text/html\r\n".toList = "Content-type: text/html".toList ++
        "\r\n".toList := by decide
    rw [e2]
    simp only [List.append_assoc, List.nil_append]
  rw [e, http_body_after_line _ _ n1 (by simp [List.isPrefixOf]),
    http_body_after_line _ _ (by decide) (by simp [List.isPrefixOf]),
    http_body_blank_line _ _ n3]

theorem error_body_not_implemented (cause msg : List Char) :
    "not implemented".toList <:+: (error_body cause 501 msg).map Char.toLower := by
  refine ⟨("<html><title>Tiny Error</title>".toList ++ "<body bgcolor=ffffff>\r\n".toList ++
      fmt_d 501 ++ ": ".toList).map Char.toLower,
    ("\r\n".toList ++ ("<p>".toList ++ msg ++ ": ".toList ++ cause ++ "\r\n".toList) ++
      "<hr><em>The Tiny Web server</em></body></html>\r\n".toList).map Char.toLower, ?_⟩
  have h1 : "not implemented".toList = (http_status 501).map Char.toLower := by decide
  rw [h1, ← List.map_append, ← List.map_append]
  congr 1

theorem write_response_unknown_method (w : World) (reqhead : request_header)
    (h1 : reqhead.method ≠ "GET".toList) (h2 : reqhead.method ≠ "POST".toList)
    (h3 : reqhead.method ≠ "HEAD".toList) :
    write_response w reqhead =
      (501, { w with conn := (error_response w.conn reqhead.method reqhead.method 501
        "Tiny does not implement this method".toList) }) := by
  have hm : check_method reqhead.method = false := by
    cases h : check_method reqhead.method with
    | false => rfl
    | true =>
      have := (check_method_eq_true_iff _).1 h
      simp only [List.mem_cons, List.mem_singleton, List.not_mem_nil, or_false] at this
      rcases this with e | e | e
      · exact absurd e h1
      · exact absurd e h3
      · exact absurd e h2
  unfold write_response
  simp only [hm, Bool.not_false, if_true]

theorem parse_uri_overflow (MAXLINE : Nat) (fr : Frame) (reqhead : request_header)
    (uri path : List Char) (hp : spec_path uri = path) (hne : path ≠ [])
    (hlast : path.getLast hne = '/')
    (hlen : MAXLINE ≤ path.length + 10)
    (h64 : path.length < 2 ^ 64) :
    parse_uri MAXLINE fr reqhead uri = .error .overflow := by
  subst hp
  refine not_ok_eq_overflow _ (fun r h => ?_)
  have hpath : (match index uri '?' with
      | some i => uri.take i
      | none => uri) = spec_path uri := by
    have := index_question uri
    cases hi : index uri '?' with
    | none => rw [hi] at this; exact this.1.symm
    | some i => rw [hi] at this; exact this.1
  have hslash : peek fr.before_uri (spec_path uri)
      (toSize (((spec_path uri).length : Int) - 1)) = '/' := by
    rw [peek_last _ _ hne h64, hlast]
  have hrl : ROOT_PATH.length = 1 := rfl
  have hdl : DEFAULT_FILE.length = 9 := rfl
  have tail : ∀ v1 v2 v3 : List Char,
      Except.map cstr (strcpy MAXLINE reqhead.filename ROOT_PATH) = .ok v1 →
      strcat MAXLINE v1 (spec_path uri) = .ok v2 →
      strcat MAXLINE v2 DEFAULT_FILE = .ok v3 → False := by
    intro v1 v2 v3 h1 h2 h3
    have hv1 : v1 = ROOT_PATH := by
      unfold strcpy at h1
      split at h1
      · simp only [Except.map] at h1
        rw [← Except.ok.inj h1]
        exact cstr_append_nul _ _ (by decide)
      · cases h1
    obtain ⟨e1, _⟩ := strcat_eq_ok _ _ _ _ h2
    obtain ⟨_, e2⟩ := strcat_eq_ok _ _ _ _ h3
    rw [e1, hv1, List.length_append, hrl, hdl] at e2
    omega
  unfold parse_uri at h
  simp only [bind, Except.bind, pure, Except.pure, hpath, hslash, if_true] at h
  split at h
  · cases h
  · split at h
    · split at h
      · cases h
      · split at h
        · cases h
        · rename_i v1 hv1
          split at h
          · cases h
          · rename_i v2 hv2
            split at h
            · cases h
            · rename_i v3 hv3
              exact tail v1 v2 v3 hv1 hv2 hv3
    · split at h
      · cases h
      · rename_i v1 hv1
        split at h
        · cases h
        · rename_i v2 hv2
          split at h
          · cases h
          · rename_i v3 hv3
            exact tail v1 v2 v3 hv1 hv2 hv3

theorem cstr_of_no_nul (l : List Char) (h : '\x00' ∉ l) : cstr l = l := by
  unfold cstr
  rw [List.takeWhile_eq_self_iff]
  intro a ha
  have : a ≠ '\x00' := fun e => h (e ▸ ha)
  simpa using this

theorem scan_s_skip (c : Char) (s : List Char) (h : isspace c = true) :
    scan_s (c :: s) = scan_s s := by
  unfold scan_s
  simp only [List.dropWhile_cons, h, if_true]

theorem scan_s_token (tok rest : List Char) (hne : tok ≠ [])
    (htok : ∀ c ∈ tok, isspace c = false)
    (hrest : rest = [] ∨ ∃ c r, rest = c :: r ∧ isspace c = true) :
    scan_s (tok ++ rest) = some (tok, rest) := by
  have hneg : ∀ c ∈ tok, (fun c => !isspace c) c = true := fun c hc => by simp [htok c hc]
  have hd : (tok ++ rest).dropWhile isspace = tok ++ rest := by
    cases tok with
    | nil => exact absurd rfl hne
    | cons x xs =>
      have hx := htok x (List.mem_cons_self _ _)
      simp only [List.cons_append, List.dropWhile_cons, hx, Bool.false_eq_true, if_false]
  have ht : (tok ++ rest).takeWhile (fun c => !isspace c) = tok := by
    rw [List.takeWhile_append_of_pos hneg]
    rcases hrest with e | ⟨c, r, e, hc⟩
    · subst e; simp
    · subst e; simp [List.takeWhile_cons, hc]
  have hdr : (tok ++ rest).dropWhile (fun c => !isspace c) = rest := by
    rw [List.dropWhile_append_of_pos hneg]
    rcases hrest with e | ⟨c, r, e, hc⟩
    · subst e; simp
    · subst e; simp [List.dropWhile_cons, hc]
  have hnn : tok ++ rest ≠ [] := by
    cases tok with
    | nil => exact absurd rfl hne
    | cons x xs => simp
  unfold scan_s
  simp only [hd, hnn, if_false, ht, hdr]

theorem long_path_length : long_path.length = 8182 := by
  simp only [long_path, List.length_cons, List.length_append, List.length_replicate,
    List.length_nil]

theorem long_path_chars (c : Char) (h : c ∈ long_path) : c = '/' ∨ c = 'a' := by
  simp only [long_path, List.mem_cons, List.mem_append, List.mem_replicate,
    List.not_mem_nil, or_false] at h
  rcases h with e | ⟨_, e⟩ | e
  · exact Or.inl e
  · exact Or.inr e
  · exact Or.inl e

theorem long_path_ne_nil : long_path ≠ [] := by
  simp only [long_path, ne_eq, not_false_eq_true, reduceCtorEq]

theorem long_path_getLast : long_path.getLast long_path_ne_nil = '/' := by
  have h : long_path = ('/' :: List.replicate 8180 'a') ++ ['/'] := rfl
  simp only [h, List.getLast_append_singleton]

/-- C1: `write_response` follows the decision table of section 4.3, first matching
row winning: 501 for a method other than GET, HEAD, POST; else 404 when the path
does not exist; else 403 when it is not a regular file; else 403 for a dynamic
request without execute permission; else 403 for a static request without read
permission; and only otherwise the dispatch to `serve_dynamic` or
`serve_static`.  The error rows write their page with `error_response`. -/
theorem C1_write_response_decision_table (w : World) (reqhead : request_header) :
    match spec_decision_table reqhead.method (metadata w reqhead.filename)
      reqhead.is_dynamic with
    | Decision.status code =>
      (write_response w reqhead).1 = code ∧
        ∃ cause msg, (write_response w reqhead).2 =
          { w with conn := error_response w.conn reqhead.method cause code msg }
    | Decision.dispatch_dynamic => write_response w reqhead = serve_dynamic w reqhead
    | Decision.dispatch_static =>
      write_response w reqhead =
        serve_static w reqhead (toInt32 (metadata w reqhead.filename).size) :=
  write_response_table w reqhead

theorem long_path_no_char (c : Char) (h1 : c ≠ '/') (h2 : c ≠ 'a') : c ∉ long_path :=
  fun h => (long_path_chars c h).elim h1 h2

theorem long_path_input_line :
    Riob_readline { unread := long_path_input } 8192 =
      (some long_path_input, { unread := [] }) := by
  have hnl : '\n' ∉ 'G' :: 'E' :: 'T' :: ' ' :: (long_path ++ ['?', 'x', '\r']) := by
    intro h
    simp only [List.mem_cons, List.mem_append, List.not_mem_nil, or_false] at h
    rcases h with h | h | h | h | h | h | h | h
    · exact absurd h (by decide)
    · exact absurd h (by decide)
    · exact absurd h (by decide)
    · exact absurd h (by decide)
    · exact long_path_no_char '\n' (by decide) (by decide) h
    · exact absurd h (by decide)
    · exact absurd h (by decide)
    · exact absurd h (by decide)
  have h := Riob_readline_line ('G' :: 'E' :: 'T' :: ' ' :: (long_path ++ ['?', 'x', '\r'])) []
    8192 hnl (by
      simp only [List.length_cons, List.length_append, long_path_length, List.length_nil]
      decide)
  have e : 'G' :: 'E' :: 'T' :: ' ' :: (long_path ++ ['?', 'x', '\r']) ++ ['\n'] =
      long_path_input := by
    simp [long_path_input]
  rw [e] at h
  exact h

theorem long_path_input_method :
    scan_s (cstr long_path_input) =
      some ("GET".toList, ' ' :: (long_path ++ ['?', 'x', '\r', '\n'])) := by
  have hnul : '\x00' ∉ long_path_input := by
    intro h
    simp only [long_path_input, List.mem_cons, List.mem_append, List.not_mem_nil,
      or_false] at h
    rcases h with h | h | h | h | h | h | h | h | h
    · exact absurd h (by decide)
    · exact absurd h (by decide)
    · exact absurd h (by decide)
    · exact absurd h (by decide)
    · exact long_path_no_char '\x00' (by decide) (by decide) h
    · exact absurd h (by decide)
    · exact absurd h (by decide)
    · exact absurd h (by decide)
    · exact absurd h (by decide)
  rw [cstr_of_no_nul _ hnul]
  exact scan_s_token "GET".toList (' ' :: (long_path ++ ['?', 'x', '\r', '\n'])) (by decide)
    (by decide) (Or.inr ⟨' ', _, rfl, by decide⟩)

theorem long_path_input_uri :
    scan_s (' ' :: (long_path ++ ['?', 'x', '\r', '\n'])) =
      some (long_path ++ ['?', 'x'], ['\r', '\n']) := by
  rw [scan_s_skip ' ' _ (by decide)]
  have e : long_path ++ ['?', 'x', '\r', '\n'] = (long_path ++ ['?', 'x']) ++ ['\r', '\n'] := by
    simp
  rw [e]
  refine scan_s_token _ _ (by simp) ?_ (Or.inr ⟨'\r', _, rfl, by decide⟩)
  intro c hc
  simp only [List.mem_append, List.mem_cons, List.not_mem_nil, or_false] at hc
  rcases hc with h | h | h
  · rcases long_path_chars c h with e | e <;> · rw [e]; decide
  · rw [h]; decide
  · rw [h]; decide

/-- C4, the code at the failing input: the request line `GET <path>?x`, where
`<path>` has 8182 characters and ends in a slash, has 8190 characters and is read
whole with `MAXLINE` 8192; its tokens are `GET` and the URI `<path>?x`, whose path
is `<path>` and whose query string is `x`.  The file name `.<path>home.html`
needs 8193 cells with its terminator, so `strcat` stores past the end of
`filename[MAXLINE]`, and `read_request_line` does not leave the query string `x`
in `cgiargs`. -/
theorem C4_long_path_overflows_filename :
    Riob_readline { unread := long_path_input } 8192 =
      (some long_path_input, { unread := [] }) ∧
    scan_s (cstr long_path_input) =
      some ("GET".toList, ' ' :: (long_path ++ ['?', 'x', '\r', '\n'])) ∧
    scan_s (' ' :: (long_path ++ ['?', 'x', '\r', '\n'])) =
      some (long_path ++ ['?', 'x'], ['\r', '\n']) ∧
    spec_path (long_path ++ ['?', 'x']) = long_path ∧
    spec_query (long_path ++ ['?', 'x']) = ['x'] ∧
    long_path.length = 8182 ∧
    read_request_line 8192 quiet_frame { unread := long_path_input } blank_request =
      .error .overflow := by
  have hq : '?' ∉ long_path := long_path_no_char '?' (by decide) (by decide)
  have hs := spec_path_of_split long_path ['x'] hq
  refine ⟨long_path_input_line, long_path_input_method, long_path_input_uri, hs.1, hs.2,
    long_path_length, ?_⟩
  rw [read_request_line_tokens 8192 quiet_frame _ _ blank_request _ _ _ _ _ long_path_input_line
    long_path_input_method long_path_input_uri (by decide),
    parse_uri_overflow 8192 quiet_frame _ _ long_path hs.1 long_path_ne_nil long_path_getLast
      (by rw [long_path_length]) (by rw [long_path_length]; decide)]
  rfl

/-- C6: when the request line has a method token and a URI token,
`read_request_line`, whenever it returns, has set `is_dynamic` to true if and only
if the path part of the URI, the text before its first `?`, begins with
`/cgi-bin/`; and it returns whenever the method and the file name fit their
arrays. -/
theorem C6_is_dynamic_iff_path_begins_with_cgi_bin (MAXLINE : Nat) (fr : Frame)
    (rp rp1 : rio_t) (reqhead : request_header) (line method r1 uri r2 : List Char)
    (hline : Riob_readline rp MAXLINE = (some line, rp1))
    (h1 : scan_s (cstr line) = some (method, r1)) (h2 : scan_s r1 = some (uri, r2)) :
    (∀ r, read_request_line MAXLINE fr rp reqhead = .ok r →
      (r.2.1.is_dynamic = true ↔ "/cgi-bin/".toList <+: spec_path uri)) ∧
    (method.length < 100 → (spec_path uri).length + 10 < MAXLINE →
      ∃ reqhead1, read_request_line MAXLINE fr rp reqhead = .ok (0, reqhead1, rp1) ∧
        (reqhead1.is_dynamic = true ↔ "/cgi-bin/".toList <+: spec_path uri)) := by
  constructor
  · intro r h
    rw [(read_request_line_eq_ok MAXLINE fr rp rp1 reqhead line method r1 uri r2 r hline h1 h2
      h).2]
    exact strneq_cgi_bin (spec_path uri)
  · intro hm hfit
    exact ⟨_, read_request_line_fits MAXLINE fr rp rp1 reqhead line method r1 uri r2 hline h1 h2
      hm hfit, strneq_cgi_bin (spec_path uri)⟩

/-- Witness of C6: the request line `GET /cgi-bin/adder?1&2 HTTP/1.0`. -/
theorem C6_is_dynamic_iff_path_begins_with_cgi_bin_witness :
    Riob_readline { unread := "GET /cgi-bin/adder?1&2 HTTP/1.0\r\n".toList } 8192 =
      (some "GET /cgi-bin/adder?1&2 HTTP/1.0\r\n".toList, { unread := [] }) ∧
    scan_s (cstr "GET /cgi-bin/adder?1&2 HTTP/1.0\r\n".toList) =
      some ("GET".toList, " /cgi-bin/adder?1&2 HTTP/1.0\r\n".toList) ∧
    scan_s " /cgi-bin/adder?1&2 HTTP/1.0\r\n".toList =
      some ("/cgi-bin/adder?1&2".toList, " HTTP/1.0\r\n".toList) ∧
    (∀ r, read_request_line 8192 quiet_frame
        { unread := "GET /cgi-bin/adder?1&2 HTTP/1.0\r\n".toList } blank_request = .ok r →
      (r.2.1.is_dynamic = true ↔
        "/cgi-bin/".toList <+: spec_path "/cgi-bin/adder?1&2".toList)) ∧
    "GET".toList.length < 100 ∧
    (spec_path "/cgi-bin/adder?1&2".toList).length + 10 < 8192 ∧
    (∃ reqhead1, read_request_line 8192 quiet_frame
          { unread := "GET /cgi-bin/adder?1&2 HTTP/1.0\r\n".toList } blank_request =
            .ok (0, reqhead1, { unread := [] }) ∧
        (reqhead1.is_dynamic = true ↔
          "/cgi-bin/".toList <+: spec_path "/cgi-bin/adder?1&2".toList)) :=
  ⟨by decide, by decide, by decide,
    (C6_is_dynamic_iff_path_begins_with_cgi_bin 8192 quiet_frame
      { unread := "GET /cgi-bin/adder?1&2 HTTP/1.0\r\n".toList } { unread := [] } blank_request
      "GET /cgi-bin/adder?1&2 HTTP/1.0\r\n".toList "GET".toList
      " /cgi-bin/adder?1&2 HTTP/1.0\r\n".toList "/cgi-bin/adder?1&2".toList
      " HTTP/1.0\r\n".toList (by decide) (by decide) (by decide)).1,
    by decide, by decide,
    (C6_is_dynamic_iff_path_begins_with_cgi_bin 8192 quiet_frame
      { unread := "GET /cgi-bin/adder?1&2 HTTP/1.0\r\n".toList } { unread := [] } blank_request
      "GET /cgi-bin/adder?1&2 HTTP/1.0\r\n".toList "GET".toList
      " /cgi-bin/adder?1&2 HTTP/1.0\r\n".toList "/cgi-bin/adder?1&2".toList
      " HTTP/1.0\r\n".toList (by decide) (by decide) (by decide)).2 (by decide) (by decide)⟩

theorem read_request_headers_one_field (MAXLINE : Nat) (l1 body : List Char)
    (reqhead : request_header) (hnl : '\n' ∉ l1) (hlen : l1.length + 1 < MAXLINE)
    (h3 : 3 < MAXLINE) (hne : cstr (l1 ++ ['\n']) ≠ "\r\n".toList) :
    read_request_headers MAXLINE { unread := l1 ++ '\n' :: '\r' :: '\n' :: body } reqhead =
      ({ reqhead with
          content_length :=
            if strneq (cstr (l1 ++ ['\n'])) "Content-Length:".toList 15 0 then
              (scan_d ((cstr (l1 ++ ['\n'])).drop 15)).getD 0
            else 0 },
        { unread := body }) := by
  have hl1 := Riob_readline_line l1 ('\r' :: '\n' :: body) MAXLINE hnl hlen
  have hl2 : Riob_readline { unread := '\r' :: '\n' :: body } MAXLINE =
      (some "\r\n".toList, { unread := body }) :=
    Riob_readline_line ['\r'] body MAXLINE (by decide) (by simp; omega)
  obtain ⟨n, hn⟩ : ∃ n, (l1 ++ '\n' :: '\r' :: '\n' :: body).length = n + 1 :=
    ⟨(l1 ++ '\n' :: '\r' :: '\n' :: body).length - 1, by simp; omega⟩
  have hblank : cstr "\r\n".toList = "\r\n".toList := by decide
  have hno : strneq "\r\n".toList "Content-Length:".toList 15 0 = false := by decide
  simp only [read_request_headers, hn, read_headers_loop, hl1, hne, if_false, hl2, hblank, hno,
    Bool.false_eq_true, if_true]

theorem serve_request_post_overflow (MAXLINE : Nat) (fr : Frame) (rp rp1 rp2 : rio_t)
    (reqhead reqhead1 reqhead2 : request_header)
    (hl : read_request_line MAXLINE fr rp reqhead = .ok (0, reqhead1, rp1))
    (hh : read_request_headers MAXLINE rp1 reqhead1 = (reqhead2, rp2))
    (hm : reqhead2.method = "POST".toList)
    (hbad : reqhead2.content_length < 0 ∨ (MAXLINE : Int) ≤ reqhead2.content_length) :
    serve_request MAXLINE fr rp reqhead = .error .overflow := by
  have hpost : streq reqhead2.method "POST".toList 0 = true := by rw [hm]; decide
  simp only [serve_request, hl, hh, hpost, Riob_read, ne_eq, not_true_eq_false, if_false,
    if_true, bind, Except.bind, pure, Except.pure, store_overflow _ _ _ _ hbad]
  split <;> rfl

/-- C7, the code at the failing input: a POST request whose header announces
`Content-Length: 8192` and whose body has 8192 bytes.  With `MAXLINE` 8192 the
request line and the header block are read as for any other request, the body
fills the 8192 cells of `cgiargs`, and the terminator is stored at index 8192,
past the end of the array: `cgiargs` does not come to hold the body as a
string. -/
theorem C7_body_of_maxline_bytes_overflows_cgiargs :
    long_body.length = 8192 ∧
    read_request_line 8192 quiet_frame { unread := post_body_input } blank_request =
      .ok (0, post_body_after_line,
        { unread := "Content-Length: 8192\r".toList ++ '\n' :: '\r' :: '\n' :: long_body }) ∧
    read_request_headers 8192
        { unread := "Content-Length: 8192\r".toList ++ '\n' :: '\r' :: '\n' :: long_body }
        post_body_after_line =
      ({ post_body_after_line with content_length := 8192 }, { unread := long_body }) ∧
    serve_request 8192 quiet_frame { unread := post_body_input } blank_request =
      .error .overflow := by
  have hline := Riob_readline_line "POST /cgi-bin/adder HTTP/1.0\r".toList
    ("Content-Length: 8192\r".toList ++ '\n' :: '\r' :: '\n' :: long_body) 8192 (by decide)
    (by decide)
  have hl : read_request_line 8192 quiet_frame { unread := post_body_input } blank_request =
      .ok (0, post_body_after_line,
        { unread := "Content-Length: 8192\r".toList ++ '\n' :: '\r' :: '\n' :: long_body }) := by
    rw [show post_body_input = "POST /cgi-bin/adder HTTP/1.0\r".toList ++ '\n' ::
      ("Content-Length: 8192\r".toList ++ '\n' :: '\r' :: '\n' :: long_body) from rfl,
      read_request_line_fits 8192 quiet_frame _ _ blank_request
        ("POST /cgi-bin/adder HTTP/1.0\r".toList ++ ['\n']) "POST".toList
        " /cgi-bin/adder HTTP/1.0\r\n".toList "/cgi-bin/adder".toList " HTTP/1.0\r\n".toList
        hline (by decide) (by decide) (by decide) (by decide)]
    exact congrArg Except.ok (Prod.ext rfl (Prod.ext (by decide) rfl))
  have hh : read_request_headers 8192
      { unread := "Content-Length: 8192\r".toList ++ '\n' :: '\r' :: '\n' :: long_body }
      post_body_after_line =
      ({ post_body_after_line with content_length := 8192 }, { unread := long_body }) := by
    rw [read_request_headers_one_field 8192 "Content-Length: 8192\r".toList long_body
      post_body_after_line (by decide) (by decide) (by decide) (by decide)]
    exact Prod.ext (by decide) rfl
  refine ⟨by simp only [long_body, List.length_replicate], hl, hh, ?_⟩
  exact serve_request_post_overflow 8192 quiet_frame _ _ _ blank_request _ _ hl hh rfl
    (Or.inr (by decide))

/-- C9, as amended: `mime_type` returns the type that the table of section 4.4
gives for the text after the last dot of the file name, and `text/plain` for any
other extension and for a name without a dot, except that a name whose only dot
is its first character, such as `.html`, has no extension and gets
`text/plain`. -/
theorem C9_mime_type_by_extension (filename : List Char) :
    mime_type filename =
      if only_leading_dot filename then "text/plain".toList else spec_mime_type filename :=
  mime_type_amended filename

/-- C10: for a request whose method is none of GET, POST, HEAD, whatever the path
and the file system, `write_response` returns 501 and answers with the error
page of `error_response`, whose body contains "not implemented" when letter case
is ignored; on a fresh connection that takes the writes this body is what
follows the blank line. -/
theorem C10_unknown_method_not_implemented (w : World) (reqhead : request_header)
    (h1 : reqhead.method ≠ "GET".toList) (h2 : reqhead.method ≠ "POST".toList)
    (h3 : reqhead.method ≠ "HEAD".toList) :
    (write_response w reqhead).1 = 501 ∧
    (write_response w reqhead).2.conn = error_response w.conn reqhead.method reqhead.method 501
      "Tiny does not implement this method".toList ∧
    "not implemented".toList <:+:
      (error_body reqhead.method 501 "Tiny does not implement this method".toList).map
        Char.toLower ∧
    (w.conn = { sent := [], fails := [] } →
      http_body (write_response w reqhead).2.conn.sent =
        error_body reqhead.method 501 "Tiny does not implement this method".toList) := by
  rw [write_response_unknown_method w reqhead h1 h2 h3]
  refine ⟨rfl, rfl, error_body_not_implemented _ _, fun hc => ?_⟩
  simp only [hc]
  exact error_response_fresh_body _ _ _ _ h3

/-- Witness of C10: a PUT request in an empty root. -/
theorem C10_unknown_method_not_implemented_witness :
    put_request.method ≠ "GET".toList ∧ put_request.method ≠ "POST".toList ∧
    put_request.method ≠ "HEAD".toList ∧
    (write_response empty_world put_request).1 = 501 ∧
    (write_response empty_world put_request).2.conn =
      error_response empty_world.conn put_request.method put_request.method 501
        "Tiny does not implement this method".toList ∧
    "not implemented".toList <:+:
      (error_body put_request.method 501 "Tiny does not implement this method".toList).map
        Char.toLower ∧
    (empty_world.conn = { sent := [], fails := [] } →
      http_body (write_response empty_world put_request).2.conn.sent =
        error_body put_request.method 501 "Tiny does not implement this method".toList) :=
  ⟨by decide, by decide, by decide,
    C10_unknown_method_not_implemented empty_world put_request (by decide) (by decide)
      (by decide)⟩

theorem stays_below_of_no_dotdot (segs : List (List Char)) :
    ∀ depth : Nat, "..".toList ∉ segs → spec_stays_below depth segs = true := by
  induction segs with
  | nil => intro depth _; rfl
  | cons seg rest ih =>
    intro depth h
    have h1 : seg ≠ "..".toList := fun e => h (e ▸ List.mem_cons_self _ _)
    have h2 : "..".toList ∉ rest := fun e => h (List.mem_cons_of_mem _ e)
    unfold spec_stays_below
    by_cases hs : seg = [] ∨ seg = ".".toList
    · rw [if_pos hs]; exact ih depth h2
    · rw [if_neg hs, if_neg h1]; exact ih (depth + 1) h2

/-- C11, counterexample: a PUT request for a path that does not exist gets the
status 501, not 404. -/
theorem C11_unknown_method_on_missing_path :
    empty_world.stat put_request.filename = none ∧
      (write_response empty_world put_request).1 = 501 := by
  decide

/-- C11, as amended: for every request with one of the methods GET, HEAD, POST
whose resolved target path does not exist, `write_response` returns 404. -/
theorem C11_missing_path_is_404 (w : World) (reqhead : request_header)
    (hm : reqhead.method ∈ ["GET".toList, "HEAD".toList, "POST".toList])
    (hf : w.stat reqhead.filename = none) :
    (write_response w reqhead).1 = 404 := by
  have hc : check_method reqhead.method = true := (check_method_eq_true_iff _).2 hm
  unfold write_response
  simp only [hc, hf, Bool.not_true, Bool.false_eq_true, if_false]

/-- Witness of C11: a HEAD request for a missing file in an empty root. -/
theorem C11_missing_path_is_404_witness :
    head_request.method ∈ ["GET".toList, "HEAD".toList, "POST".toList] ∧
      empty_world.stat head_request.filename = none ∧
      (write_response empty_world head_request).1 = 404 :=
  ⟨by decide, by decide, C11_missing_path_is_404 empty_world head_request (by decide) (by decide)⟩

/-- C12, counterexample: the URI `/../etc/passwd` is resolved to the target path
`./../etc/passwd`, which lies outside the serving root. -/
theorem C12_dotdot_leaves_root :
    (read_request_line 8192 quiet_frame { unread := "GET /../etc/passwd HTTP/1.0\r\n".toList }
      blank_request).map (fun r => r.2.1.filename) = .ok "./../etc/passwd".toList ∧
    spec_confined "./../etc/passwd".toList = false := by
  decide

/-- C12, as amended: when the request line has a method token and a URI token,
the target path that `read_request_line` produces, whenever it returns, is the
serving root `.` followed by the path part of the URI as it was sent, then
`home.html` when that path ends in a slash: no segment is resolved or rejected.
Read as a path, it stays inside the serving root whenever none of its segments
is `..`.  `read_request_line` returns whenever the method and the file name fit
their arrays. -/
theorem C12_target_path_is_root_then_uri_path (MAXLINE : Nat) (fr : Frame)
    (rp rp1 : rio_t) (reqhead : request_header) (line method r1 uri r2 : List Char)
    (hline : Riob_readline rp MAXLINE = (some line, rp1))
    (h1 : scan_s (cstr line) = some (method, r1)) (h2 : scan_s r1 = some (uri, r2))
    (hM : MAXLINE ≤ 2 ^ 64) :
    (∀ r, read_request_line MAXLINE fr rp reqhead = .ok r →
      (r.2.1.filename = ROOT_PATH ++ spec_path uri ∨
        r.2.1.filename = ROOT_PATH ++ spec_path uri ++ DEFAULT_FILE) ∧
      (∀ hne : spec_path uri ≠ [],
        r.2.1.filename = ROOT_PATH ++ spec_path uri ++
          (if (spec_path uri).getLast hne = '/' then DEFAULT_FILE else [])) ∧
      ("..".toList ∉ spec_segments r.2.1.filename → spec_confined r.2.1.filename = true)) ∧
    (method.length < 100 → (spec_path uri).length + 10 < MAXLINE →
      ∃ reqhead1, read_request_line MAXLINE fr rp reqhead = .ok (0, reqhead1, rp1)) := by
  constructor
  · intro r h
    obtain ⟨hlen, hr⟩ := read_request_line_eq_ok MAXLINE fr rp rp1 reqhead line method r1 uri r2
      r hline h1 h2 h
    refine ⟨?_, ?_, fun hd => stays_below_of_no_dotdot _ 0 hd⟩
    · rw [hr]
      show (ROOT_PATH ++ spec_path uri ++ _ = _) ∨ _
      split
      · right; rfl
      · left; simp
    · intro hne
      rw [hr]
      show ROOT_PATH ++ spec_path uri ++ _ = _
      unfold slash_test_index
      rw [peek_last _ _ hne (by omega)]
  · intro hm hfit
    exact ⟨_, read_request_line_fits MAXLINE fr rp rp1 reqhead line method r1 uri r2 hline h1 h2
      hm hfit⟩

/-- Witness of C12: the request line `GET /a/b/ HTTP/1.0`. -/
theorem C12_target_path_is_root_then_uri_path_witness :
    Riob_readline { unread := "GET /a/b/ HTTP/1.0\r\n".toList } 8192 =
      (some "GET /a/b/ HTTP/1.0\r\n".toList, { unread := [] }) ∧
    scan_s (cstr "GET /a/b/ HTTP/1.0\r\n".toList) =
      some ("GET".toList, " /a/b/ HTTP/1.0\r\n".toList) ∧
    scan_s " /a/b/ HTTP/1.0\r\n".toList = some ("/a/b/".toList, " HTTP/1.0\r\n".toList) ∧
    8192 ≤ 2 ^ 64 ∧
    (∀ r, read_request_line 8192 quiet_frame { unread := "GET /a/b/ HTTP/1.0\r\n".toList }
        blank_request = .ok r →
      (r.2.1.filename = ROOT_PATH ++ spec_path "/a/b/".toList ∨
        r.2.1.filename = ROOT_PATH ++ spec_path "/a/b/".toList ++ DEFAULT_FILE) ∧
      (∀ hne : spec_path "/a/b/".toList ≠ [],
        r.2.1.filename = ROOT_PATH ++ spec_path "/a/b/".toList ++
          (if (spec_path "/a/b/".toList).getLast hne = '/' then DEFAULT_FILE else [])) ∧
      ("..".toList ∉ spec_segments r.2.1.filename → spec_confined r.2.1.filename = true)) ∧
    "GET".toList.length < 100 ∧
    (spec_path "/a/b/".toList).length + 10 < 8192 ∧
    (∃ reqhead1, read_request_line 8192 quiet_frame
        { unread := "GET /a/b/ HTTP/1.0\r\n".toList } blank_request =
          .ok (0, reqhead1, { unread := [] })) :=
  ⟨by decide, by decide, by decide, by decide,
    (C12_target_path_is_root_then_uri_path 8192 quiet_frame
      { unread := "GET /a/b/ HTTP/1.0\r\n".toList } { unread := [] } blank_request
      "GET /a/b/ HTTP/1.0\r\n".toList "GET".toList " /a/b/ HTTP/1.0\r\n".toList
      "/a/b/".toList " HTTP/1.0\r\n".toList (by decide) (by decide) (by decide) (by decide)).1,
    by decide, by decide,
    (C12_target_path_is_root_then_uri_path 8192 quiet_frame
      { unread := "GET /a/b/ HTTP/1.0\r\n".toList } { unread := [] } blank_request
      "GET /a/b/ HTTP/1.0\r\n".toList "GET".toList " /a/b/ HTTP/1.0\r\n".toList
      "/a/b/".toList " HTTP/1.0\r\n".toList (by decide) (by decide) (by decide) (by decide)).2
      (by decide) (by decide)⟩

/-- C13, the code at the failing input: after the header block
`Content-Length: -5` the request holds the content length -5. -/
theorem C13_negative_content_length :
    (read_request_headers 8192 { unread := "Content-Length: -5\r\n\r\n".toList }
      blank_request).1.content_length = -5 := by
  decide

/-- C14, counterexample: for `POST /cgi-bin/adder?15&20` with an empty body the
program is handed the empty query string, not `15&20`. -/
theorem C14_post_empty_body_drops_query :
    (serve 8192 quiet_frame blank_request
      "POST /cgi-bin/adder?15&20 HTTP/1.0\r\nContent-Length: 0\r\n\r\n".toList
      echo_world).map (fun w => w.conn.sent) =
      .ok "HTTP/1.0 200 OK\r\nServer: Tiny Web Server\r\nQUERY_STRING=".toList ∧
    (serve 8192 quiet_frame blank_request
      "POST /cgi-bin/adder?15&20 HTTP/1.0\r\nContent-Length: 0\r\n\r\n".toList
      echo_world).map (fun w => w.conn.sent) ≠
      .ok "HTTP/1.0 200 OK\r\nServer: Tiny Web Server\r\nQUERY_STRING=15&20".toList := by
  decide

theorem serve_dynamic_ok (w : World) (reqhead : request_header) (hf : w.fork_ok = true)
    (hc : w.conn.fails = []) :
    (serve_dynamic w reqhead).2.conn.sent =
      w.conn.sent ++ "HTTP/1.0 200 OK\r\n".toList ++ "Server: Tiny Web Server\r\n".toList ++
        w.exec reqhead.filename (cstr reqhead.cgiargs) reqhead.method := by
  unfold serve_dynamic
  simp only [Rio_writef, Rio_write_ok _ _ hc]
  have hnn : ¬ ((("HTTP/1.0 200 OK\r\n".toList).length : Int) < 0) := by decide
  rw [if_neg hnn]
  simp only [hf, if_true]
  rw [Rio_write_ok _ _ (by exact hc)]

theorem read_request_line_ok_maxline (MAXLINE : Nat) (fr : Frame) (rp rp1 : rio_t)
    (reqhead reqhead1 : request_header)
    (hl : read_request_line MAXLINE fr rp reqhead = .ok (0, reqhead1, rp1)) : 0 < MAXLINE := by
  unfold read_request_line at hl
  cases hr : Riob_readline rp MAXLINE with
  | mk o rp2 =>
    cases o with
    | none =>
      rw [hr] at hl
      have := congrArg (fun x => x.map (fun r => r.1)) hl
      simp [pure, Except.pure, Except.map] at this
    | some line =>
      have := Riob_readline_length rp rp2 MAXLINE line hr
      omega

/-- C14, as amended: for a POST request whose header block leaves the content
length 0, the query string of the URI is dropped: `cgiargs` is the empty string,
and a dynamic dispatch on a connection that takes the writes hands the spawned
program the empty `QUERY_STRING`. -/
theorem C14_post_empty_body_query_string (MAXLINE : Nat) (fr : Frame) (rp rp1 rp2 : rio_t)
    (reqhead reqhead1 reqhead2 : request_header)
    (hl : read_request_line MAXLINE fr rp reqhead = .ok (0, reqhead1, rp1))
    (hh : read_request_headers MAXLINE rp1 reqhead1 = (reqhead2, rp2))
    (hm : reqhead2.method = "POST".toList)
    (hcl : reqhead2.content_length = 0) :
    ∃ reqhead3, serve_request MAXLINE fr rp reqhead = .ok (some (reqhead3, rp2)) ∧
      cstr reqhead3.cgiargs = [] ∧
      reqhead3.filename = reqhead2.filename ∧
      ∀ w : World, w.fork_ok = true → w.conn.fails = [] →
        (serve_dynamic w reqhead3).2.conn.sent =
          w.conn.sent ++ "HTTP/1.0 200 OK\r\n".toList ++ "Server: Tiny Web Server\r\n".toList ++
            w.exec reqhead3.filename [] reqhead3.method := by
  have hpos := read_request_line_ok_maxline MAXLINE fr rp rp1 reqhead reqhead1 hl
  have h := post_body_becomes_cgiargs MAXLINE fr rp rp1 rp2 reqhead reqhead1 reqhead2 hl hh hm
    (by rw [hcl]) (by rw [hcl]; exact_mod_cast hpos) (by rw [hcl]; simp)
  rw [hcl] at h
  simp only [Int.toNat_zero, List.take_zero, List.drop_zero, List.nil_append, Nat.zero_add] at h
  have hrp : ({ unread := rp2.unread } : rio_t) = rp2 := rfl
  rw [hrp] at h
  refine ⟨_, h, by simp [cstr], rfl, fun w hf hc => ?_⟩
  have hd := serve_dynamic_ok w { reqhead2 with cgiargs := '\x00' :: reqhead2.cgiargs.drop 1 } hf hc
  simpa [cstr] using hd

/-- C15, the code at the failing input: when the first write of the response
header fails, `write_response` returns -1, which is none of 200, 403, 404, 501. -/
theorem C15_failed_write_returns_minus_one :
    (write_response broken_pipe_world home_request).1 = -1 ∧
      (write_response broken_pipe_world home_request).1 ∉ [(200 : Int), 403, 404, 501] := by
  decide

/-- C17, the code at the failing input: for the URI `?x` the path part is empty,
the trailing-slash test reads index `2 ^ 64 - 1`, which is no index of the path,
and the file name depends on the byte found before the array, for every size of
the arrays from 11 cells on. -/
theorem C17_empty_path_index_out_of_bounds :
    slash_test_index [] = 2 ^ 64 - 1 ∧
    ¬ (slash_test_index [] < ([] : List Char).length) ∧
    (∀ (n : Nat) (fr : Frame) (reqhead : request_header),
      (parse_uri (n + 11) fr reqhead "?x".toList).map (fun r => r.filename) =
        .ok (if peek fr.before_uri [] (slash_test_index []) = '/' then ROOT_PATH ++ DEFAULT_FILE
          else ROOT_PATH)) ∧
    (∀ before : Char, peek before [] (slash_test_index []) = before) := by
  refine ⟨by decide, by decide, fun n fr reqhead => ?_, fun before => ?_⟩
  · have hp : spec_path "?x".toList = [] := by decide
    have hq : spec_query "?x".toList = "x".toList := by decide
    rw [parse_uri_fits (n + 11) fr reqhead "?x".toList (by rw [hq]; simp)
      (fits_of_lt _ _ _ (by rw [hp]; simp)), hp]
    simp only [Except.map, List.append_nil]
    split <;> rfl
  · simp +decide [peek, slash_test_index]

/-- Witness of C14: `POST /cgi-bin/adder?15&20` with `Content-Length: 0`. -/
theorem C14_post_empty_body_query_string_witness :
    read_request_line 8192 quiet_frame { unread := post_empty_input } blank_request =
      .ok (0, post_after_line, { unread := "Content-Length: 0\r\n\r\n".toList }) ∧
    read_request_headers 8192 { unread := "Content-Length: 0\r\n\r\n".toList } post_after_line =
      (post_after_line, { unread := [] }) ∧
    post_after_line.method = "POST".toList ∧
    post_after_line.content_length = 0 ∧
    ∃ reqhead3, serve_request 8192 quiet_frame { unread := post_empty_input } blank_request =
        .ok (some (reqhead3, { unread := [] })) ∧
      cstr reqhead3.cgiargs = [] ∧
      reqhead3.filename = post_after_line.filename ∧
      ∀ w : World, w.fork_ok = true → w.conn.fails = [] →
        (serve_dynamic w reqhead3).2.conn.sent =
          w.conn.sent ++ "HTTP/1.0 200 OK\r\n".toList ++ "Server: Tiny Web Server\r\n".toList ++
            w.exec reqhead3.filename [] reqhead3.method :=
  ⟨by decide, by decide, by decide, by decide,
    C14_post_empty_body_query_string 8192 quiet_frame { unread := post_empty_input }
      { unread := "Content-Length: 0\r\n\r\n".toList } { unread := [] } blank_request
      post_after_line post_after_line (by decide) (by decide) (by decide) (by decide)⟩

/-- C16, the code at the failing input: with `MAXLINE` 8192 the header
`Content-Length: 8192` leaves the content length 8192, which is not below
`MAXLINE`, and `serve` stores the terminator at index 8192 of `cgiargs`, which is
no index of an array of 8192 cells: the store overflows the array. -/
theorem C16_content_length_reaches_maxline :
    (read_request_headers 8192 { unread := "Content-Length: 8192\r\n\r\n".toList }
      blank_request).1.content_length = 8192 ∧
    ¬ ((read_request_headers 8192 { unread := "Content-Length: 8192\r\n\r\n".toList }
      blank_request).1.content_length < 8192) ∧
    read_request_line 8192 quiet_frame { unread := post_long_input } blank_request =
      .ok (0, post_long_after_line, { unread := "Content-Length: 8192\r\n\r\n".toList }) ∧
    store 8192 post_long_after_line.cgiargs 8192 '\x00' = .error .overflow ∧
    serve_request 8192 quiet_frame { unread := post_long_input } blank_request =
      .error .overflow := by
  have hl : read_request_line 8192 quiet_frame { unread := post_long_input } blank_request =
      .ok (0, post_long_after_line, { unread := "Content-Length: 8192\r\n\r\n".toList }) := by
    decide
  have hh : read_request_headers 8192 { unread := "Content-Length: 8192\r\n\r\n".toList }
      post_long_after_line =
      ({ post_long_after_line with content_length := 8192 }, { unread := [] }) := by
    decide
  exact ⟨by decide, by decide, hl, by decide,
    serve_request_post_overflow 8192 quiet_frame _ _ _ blank_request _ _ hl hh rfl
      (Or.inr (by decide))⟩

end Tiny

namespace Dsa

variable {T : Type}

/-! ## Properties of the doubly linked list -/

/-! ### Helper lemmas -/

theorem hd_append (l1 l2 : List (Nat × T)) (n : Ptr) : hd (l1 ++ l2) n = hd l1 (hd l2 n) := by
  cases l1 <;> rfl

theorem lst_append (l1 l2 : List (Nat × T)) (p : Ptr) : lst (l1 ++ l2) p = lst l2 (lst l1 p) := by
  induction l1 generalizing p with
  | nil => rfl
  | cons c rest ih => simp [lst, ih]

theorem hd_of_ne_nil (cs : List (Nat × T)) (h : cs ≠ []) (n : Ptr) :
    ∃ a, hd cs n = some a ∧ a ∈ addrs cs := by
  cases cs with
  | nil => exact absurd rfl h
  | cons c rest => exact ⟨c.1, rfl, by simp [addrs]⟩

theorem lst_of_ne_nil (cs : List (Nat × T)) (h : cs ≠ []) (p : Ptr) :
    ∃ a, lst cs p = some a ∧ a ∈ addrs cs := by
  induction cs generalizing p with
  | nil => exact absurd rfl h
  | cons c rest ih =>
    by_cases hr : rest = []
    · subst hr; exact ⟨c.1, rfl, by simp [addrs]⟩
    · obtain ⟨a, ha, hm⟩ := ih hr (some c.1)
      exact ⟨a, ha, by simp only [addrs, List.map_cons, List.mem_cons]; right; exact hm⟩

theorem seg_congr (s s1 : Store T) (cs : List (Nat × T)) :
    ∀ (p n : Ptr), (∀ a ∈ addrs cs, s1 a = s a) → Seg s p cs n → Seg s1 p cs n := by
  induction cs with
  | nil => intro p n _ _; trivial
  | cons c rest ih =>
    intro p n hag h
    refine ⟨?_, ih _ _ (fun a ha => hag a (by simp only [addrs, List.map_cons, List.mem_cons]; right; exact ha)) h.2⟩
    rw [hag c.1 (by simp [addrs])]
    exact h.1

theorem seg_append (s : Store T) (l1 l2 : List (Nat × T)) :
    ∀ (p n : Ptr), Seg s p (l1 ++ l2) n ↔ Seg s p l1 (hd l2 n) ∧ Seg s (lst l1 p) l2 n := by
  induction l1 with
  | nil => intro p n; simp [Seg, lst]
  | cons c rest ih =>
    intro p n
    show (s c.1 = some { value := c.2, next := hd (rest ++ l2) n, prev := p } ∧
      Seg s (some c.1) (rest ++ l2) n) ↔ _
    rw [ih, hd_append]
    simp only [Seg, lst, and_assoc]

theorem seg_mid (s : Store T) (l1 l2 : List (Nat × T)) (c : Nat × T) (p n : Ptr) :
    Seg s p (l1 ++ c :: l2) n ↔
      Seg s p l1 (some c.1) ∧
        s c.1 = some { value := c.2, next := hd l2 n, prev := lst l1 p } ∧
        Seg s (some c.1) l2 n := by
  rw [seg_append]
  simp only [Seg, hd]

theorem set_prev_seg (s : Store T) (cs : List (Nat × T)) (q q1 : Ptr)
    (h : Seg s q cs none) (hn : (addrs cs).Nodup) :
    ∃ s1, set_prev s (hd cs none) q1 = some s1 ∧ Seg s1 q1 cs none ∧
      ∀ a ∉ addrs cs, s1 a = s a := by
  cases cs with
  | nil => exact ⟨s, rfl, trivial, fun _ _ => rfl⟩
  | cons c rest =>
    obtain ⟨hc, hrest⟩ := h
    have hnot : c.1 ∉ addrs rest := by
      simp only [addrs, List.map_cons, List.nodup_cons] at hn
      exact hn.1
    refine ⟨Function.update s c.1 (some { value := c.2, next := hd rest none, prev := q1 }),
      by simp [set_prev, hd, hc], ⟨by simp, ?_⟩, ?_⟩
    · exact seg_congr s _ rest _ _ (fun a ha => by
        have : a ≠ c.1 := fun e => hnot (e ▸ ha)
        simp [Function.update, this]) hrest
    · intro a ha
      have : a ≠ c.1 := fun e => ha (by simp [addrs, e])
      simp [Function.update, this]

theorem set_next_seg (s : Store T) (cs : List (Nat × T)) (p m m1 : Ptr)
    (h : Seg s p cs m) (hn : (addrs cs).Nodup) (hp : cs = [] → p = none) :
    ∃ s1, set_next s (lst cs p) m1 = some s1 ∧ Seg s1 p cs m1 ∧
      ∀ a ∉ addrs cs, s1 a = s a := by
  induction cs using List.reverseRecOn with
  | nil =>
    rw [hp rfl]
    exact ⟨s, rfl, trivial, fun _ _ => rfl⟩
  | append_singleton rest c _ =>
    rw [show rest ++ [c] = rest ++ c :: [] from rfl] at h hn ⊢
    obtain ⟨h1, hc, _⟩ := (seg_mid s rest [] c p m).1 h
    have hnot : c.1 ∉ addrs rest := by
      simp only [addrs, List.map_append, List.map_cons, List.map_nil] at hn
      have := List.disjoint_of_nodup_append hn
      intro hm
      exact this hm (by simp)
    refine ⟨Function.update s c.1 (some { value := c.2, next := m1, prev := lst rest p }),
      ?_, ?_, ?_⟩
    · simp only [lst_append, lst, set_next, hc]
    · refine (seg_mid _ rest [] c p m1).2 ⟨?_, by simp [hd], trivial⟩
      exact seg_congr s _ rest _ _ (fun a ha => by
        have : a ≠ c.1 := fun e => hnot (e ▸ ha)
        simp [Function.update, this]) h1
    · intro a ha
      have : a ≠ c.1 := fun e => ha (by simp [addrs, e])
      simp [Function.update, this]

theorem lst_indep (cs : List (Nat × T)) (h : cs ≠ []) (p q : Ptr) : lst cs p = lst cs q := by
  cases cs with
  | nil => exact absurd rfl h
  | cons c rest => rfl

theorem addrs_append (l1 l2 : List (Nat × T)) : addrs (l1 ++ l2) = addrs l1 ++ addrs l2 := by
  simp [addrs]

theorem addrs_cons (c : Nat × T) (l : List (Nat × T)) : addrs (c :: l) = c.1 :: addrs l := rfl

theorem create_node_wf (l : DLList T) (l1 l2 : List (Nat × T)) (v : T)
    (h : WF l (l1 ++ l2)) :
    ∃ l', create_node l v (hd l2 none) (lst l1 none) = (.ok l.brk, l') ∧
      WF l' (l1 ++ (l.brk, v) :: l2) ∧ l'.brk = l.brk + 1 := by
  obtain ⟨hnd, hseg, hhead, htail, hlen, hbel⟩ := h
  rw [addrs_append] at hnd hbel
  have hd1 : (addrs l1).Nodup := (List.nodup_append.1 hnd).1
  have hd2 : (addrs l2).Nodup := (List.nodup_append.1 hnd).2.1
  have hdis : ∀ a, a ∈ addrs l1 → a ∈ addrs l2 → False := fun a h1 h2 =>
    (List.nodup_append.1 hnd).2.2 h1 h2
  have hb1 : l.brk ∉ addrs l1 := fun hm =>
    absurd (hbel _ (List.mem_append_left _ hm)) (Nat.lt_irrefl _)
  have hb2 : l.brk ∉ addrs l2 := fun hm =>
    absurd (hbel _ (List.mem_append_right _ hm)) (Nat.lt_irrefl _)
  obtain ⟨hs1, hs2⟩ := (seg_append l.store l1 l2 none none).1 hseg
  have hs0 : ∀ a, a ≠ l.brk →
      Function.update l.store l.brk
        (some { value := v, next := hd l2 none, prev := lst l1 none }) a = l.store a :=
    fun a ha => by simp [Function.update, ha]
  have hs2' := seg_congr l.store
    (Function.update l.store l.brk (some { value := v, next := hd l2 none, prev := lst l1 none }))
    l2 (lst l1 none) none (fun a ha => hs0 a (fun e => hb2 (e ▸ ha))) hs2
  obtain ⟨s1, hset1, hseg1, hag1⟩ := set_prev_seg _ l2 (lst l1 none) (some l.brk) hs2' hd2
  have hs1' : Seg s1 none l1 (hd l2 none) :=
    seg_congr l.store s1 l1 none _ (fun a ha => by
      rw [hag1 a (fun h2 => hdis a ha h2), hs0 a (fun e => hb1 (e ▸ ha))]) hs1
  obtain ⟨s2, hset2, hseg2, hag2⟩ := set_next_seg s1 l1 none (hd l2 none) (some l.brk) hs1' hd1
    (fun _ => rfl)
  refine ⟨⟨s2, l.brk + 1, if hd l2 none = l.head then some l.brk else l.head,
      if lst l1 none = l.tail then some l.brk else l.tail, (l.length + 1) % 2 ^ 32⟩,
    by simp only [create_node, hset1, hset2], ?_, rfl⟩
  refine ⟨?_, ?_, ?_, ?_, ?_, ?_⟩
  · rw [addrs_append, addrs_cons]
    refine List.nodup_append.2 ⟨hd1, List.nodup_cons.2 ⟨hb2, hd2⟩, ?_⟩
    intro a h1 h2
    rcases List.mem_cons.1 h2 with e | h2
    · exact hb1 (by rw [e] at h1; exact h1)
    · exact hdis a h1 h2
  · refine (seg_mid s2 l1 l2 (l.brk, v) none none).2 ⟨hseg2, ?_, ?_⟩
    · rw [hag2 _ hb1, hag1 _ hb2]
      simp
    · exact seg_congr s1 s2 l2 _ _ (fun a ha => hag2 a (fun h1 => hdis a h1 ha)) hseg1
  · show (if hd l2 none = l.head then some l.brk else l.head) = _
    rw [hhead, hd_append, hd_append]
    cases l1 with
    | nil => simp [hd]
    | cons c rest =>
      have : hd l2 none ≠ some c.1 := by
        intro e
        cases l2 with
        | nil => simp [hd] at e
        | cons d r2 =>
          simp only [hd, Option.some.injEq] at e
          exact hdis c.1 (by simp [addrs]) (by simp [addrs, ← e])
      show (if hd l2 none = some c.1 then some l.brk else some c.1) = some c.1
      rw [if_neg this]
  · show (if lst l1 none = l.tail then some l.brk else l.tail) = _
    rw [htail, lst_append, lst_append]
    by_cases h2 : l2 = []
    · subst h2; simp [lst]
    · obtain ⟨t, ht, htm⟩ := lst_of_ne_nil l2 h2 (lst l1 none)
      have hne : lst l1 none ≠ lst l2 (lst l1 none) := by
        rw [ht]
        by_cases h1 : l1 = []
        · subst h1; simp [lst]
        · obtain ⟨a, ha, ham⟩ := lst_of_ne_nil l1 h1 none
          rw [ha]
          intro e
          simp only [Option.some.injEq] at e
          exact hdis a ham (e ▸ htm)
      rw [if_neg hne]
      show _ = lst l2 (some l.brk)
      exact lst_indep l2 h2 _ _
  · show (l.length + 1) % 2 ^ 32 = _
    rw [hlen]
    simp only [List.length_append, List.length_cons]
    omega
  · intro a ha
    show a < l.brk + 1
    rw [addrs_append, addrs_cons] at ha
    rcases List.mem_append.1 ha with h1 | h1
    · exact Nat.lt_succ_of_lt (hbel a (List.mem_append_left _ h1))
    · rcases List.mem_cons.1 h1 with e | h2
      · omega
      · exact Nat.lt_succ_of_lt (hbel a (List.mem_append_right _ h2))

theorem remove_node_wf (l : DLList T) (l1 l2 : List (Nat × T)) (c : Nat × T)
    (h : WF l (l1 ++ c :: l2)) :
    ∃ l', remove_node l (some c.1) = (.ok c.2, l') ∧ WF l' (l1 ++ l2) ∧ l'.brk = l.brk := by
  obtain ⟨hnd, hseg, hhead, htail, hlen, hbel⟩ := h
  rw [addrs_append, addrs_cons] at hnd hbel
  have hd1 : (addrs l1).Nodup := (List.nodup_append.1 hnd).1
  have hdc : (c.1 :: addrs l2).Nodup := (List.nodup_append.1 hnd).2.1
  have hd2 : (addrs l2).Nodup := (List.nodup_cons.1 hdc).2
  have hc2 : c.1 ∉ addrs l2 := (List.nodup_cons.1 hdc).1
  have hc1 : c.1 ∉ addrs l1 := fun h1 =>
    (List.nodup_append.1 hnd).2.2 h1 (List.mem_cons_self _ _)
  have hdis : ∀ a, a ∈ addrs l1 → a ∈ addrs l2 → False := fun a h1 h2 =>
    (List.nodup_append.1 hnd).2.2 h1 (List.mem_cons_of_mem _ h2)
  obtain ⟨hs1, hc, hs2⟩ := (seg_mid l.store l1 l2 c none none).1 hseg
  obtain ⟨s1, hset1, hseg1, hag1⟩ := set_prev_seg l.store l2 (some c.1) (lst l1 none) hs2 hd2
  have hs1' : Seg s1 none l1 (some c.1) :=
    seg_congr l.store s1 l1 none _ (fun a ha => hag1 a (fun h2 => hdis a ha h2)) hs1
  obtain ⟨s2, hset2, hseg2, hag2⟩ := set_next_seg s1 l1 none (some c.1) (hd l2 none) hs1' hd1
    (fun _ => rfl)
  refine ⟨⟨Function.update s2 c.1 none, l.brk,
      if some c.1 = l.head then hd l2 none else l.head,
      if some c.1 = l.tail then lst l1 none else l.tail,
      (l.length + 2 ^ 32 - 1) % 2 ^ 32⟩,
    by simp only [remove_node, hc, hset1, hset2], ?_, rfl⟩
  have hupd : ∀ a, a ≠ c.1 → Function.update s2 c.1 none a = s2 a :=
    fun a ha => by simp [Function.update, ha]
  refine ⟨?_, ?_, ?_, ?_, ?_, ?_⟩
  · rw [addrs_append]
    exact List.nodup_append.2 ⟨hd1, hd2, fun a h1 h2 => hdis a h1 h2⟩
  · refine (seg_append _ l1 l2 none none).2 ⟨?_, ?_⟩
    · exact seg_congr s2 _ l1 _ _ (fun a ha => hupd a (fun e => hc1 (e ▸ ha))) hseg2
    · exact seg_congr s1 _ l2 _ _ (fun a ha =>
        (hupd a (fun e => hc2 (e ▸ ha))).trans (hag2 a (fun h1 => hdis a h1 ha))) hseg1
  · show (if some c.1 = l.head then hd l2 none else l.head) = _
    rw [hhead, hd_append, hd_append]
    cases l1 with
    | nil => simp [hd]
    | cons b rest =>
      have hne : (some c.1 : Ptr) ≠ some b.1 := by
        intro e
        simp only [Option.some.injEq] at e
        exact hc1 (by simp [addrs, e])
      show (if some c.1 = some b.1 then hd l2 none else some b.1) = some b.1
      rw [if_neg hne]
  · show (if some c.1 = l.tail then lst l1 none else l.tail) = _
    rw [htail, lst_append, lst_append]
    by_cases h2 : l2 = []
    · subst h2; simp [lst]
    · obtain ⟨t, ht, htm⟩ := lst_of_ne_nil l2 h2 (some c.1)
      have hne : (some c.1 : Ptr) ≠ lst (c :: l2) (lst l1 none) := by
        show _ ≠ lst l2 (some c.1)
        rw [ht]
        intro e
        simp only [Option.some.injEq] at e
        exact hc2 (e ▸ htm)
      rw [if_neg hne]
      exact lst_indep l2 h2 _ _
  · show (l.length + 2 ^ 32 - 1) % 2 ^ 32 = _
    rw [hlen]
    simp only [List.length_append, List.length_cons]
    omega
  · intro a ha
    rw [addrs_append] at ha
    rcases List.mem_append.1 ha with h1 | h1
    · exact hbel a (List.mem_append_left _ h1)
    · exact hbel a (List.mem_append_right _ (List.mem_cons_of_mem _ h1))

theorem wf_empty : WF (DLList.empty : DLList T) [] :=
  ⟨List.nodup_nil, trivial, rfl, rfl, rfl, fun _ h => absurd h (List.not_mem_nil _)⟩

theorem push_back_wf (l : DLList T) (cs : List (Nat × T)) (v : T) (h : WF l cs) :
    ∃ l', push_back l v = (.ok (), l') ∧ WF l' (cs ++ [(l.brk, v)]) ∧ l'.brk = l.brk + 1 := by
  have h0 : WF l (cs ++ []) := by rw [List.append_nil]; exact h
  obtain ⟨l', hc, hw, hb⟩ := create_node_wf l cs [] v h0
  refine ⟨l', ?_, hw, hb⟩
  have ht : l.tail = lst cs none := h.tail_eq
  simp only [push_back, ht]
  simp only [hd] at hc
  rw [hc]

theorem push_front_wf (l : DLList T) (cs : List (Nat × T)) (v : T) (h : WF l cs) :
    ∃ l', push_front l v = (.ok (), l') ∧ WF l' ((l.brk, v) :: cs) ∧ l'.brk = l.brk + 1 := by
  obtain ⟨l', hc, hw, hb⟩ := create_node_wf l [] cs v h
  refine ⟨l', ?_, hw, hb⟩
  have ht : l.head = hd cs none := h.head_eq
  simp only [push_front, ht]
  simp only [lst] at hc
  rw [hc]

theorem empty_iff (l : DLList T) (cs : List (Nat × T)) (h : WF l cs) :
    empty l = true ↔ cs = [] := by
  unfold empty
  rw [h.head_eq, h.tail_eq]
  cases cs with
  | nil => simp [hd, lst]
  | cons c rest =>
    obtain ⟨t, ht, _⟩ := lst_of_ne_nil (c :: rest) (List.cons_ne_nil _ _) none
    rw [ht]
    simp [hd]

theorem pop_back_wf (l : DLList T) (cs : List (Nat × T)) (c : Nat × T) (h : WF l (cs ++ [c])) :
    ∃ l', pop_back l = (.ok c.2, l') ∧ WF l' cs ∧ l'.brk = l.brk := by
  have hne : empty l = false := by
    cases he : empty l with
    | false => rfl
    | true => exact absurd ((empty_iff l _ h).1 he) (by simp)
  obtain ⟨l', hr, hw, hb⟩ := remove_node_wf l cs [] c h
  rw [List.append_nil] at hw
  refine ⟨l', ?_, hw, hb⟩
  have ht : l.tail = some c.1 := by rw [h.tail_eq, lst_append]; rfl
  simp only [pop_back, hne, ht, Bool.false_eq_true, if_false]
  exact hr

theorem pop_front_wf (l : DLList T) (cs : List (Nat × T)) (c : Nat × T) (h : WF l (c :: cs)) :
    ∃ l', pop_front l = (.ok c.2, l') ∧ WF l' cs ∧ l'.brk = l.brk := by
  have hne : empty l = false := by
    cases he : empty l with
    | false => rfl
    | true => exact absurd ((empty_iff l _ h).1 he) (by simp)
  obtain ⟨l', hr, hw, hb⟩ := remove_node_wf l [] cs c h
  refine ⟨l', ?_, hw, hb⟩
  have ht : l.head = some c.1 := h.head_eq
  simp only [pop_front, hne, ht, Bool.false_eq_true, if_false]
  exact hr

theorem pop_empty (l : DLList T) (h : WF l []) :
    pop_back l = (.error .runtime_error, l) ∧ pop_front l = (.error .runtime_error, l) := by
  have he : empty l = true := (empty_iff l [] h).2 rfl
  simp [pop_back, pop_front, he]

theorem walk_seg (s : Store T) (i : Nat) :
    ∀ (cs : List (Nat × T)) (p : Ptr), Seg s p cs none →
      walk s i (hd cs none) = .ok (hd (cs.drop i) none) := by
  induction i with
  | zero => intro cs p _; simp [walk]
  | succ i ih =>
    intro cs p h
    cases cs with
    | nil => simp [walk, hd]
    | cons c rest =>
      obtain ⟨hc, hrest⟩ := h
      simp only [hd, walk, hc, List.drop_succ_cons]
      exact ih rest _ hrest

theorem node_at_wf (l : DLList T) (cs : List (Nat × T)) (i : Nat) (h : WF l cs)
    (hi : i < size l) :
    node_at l i = .ok (hd (cs.drop i) none) := by
  unfold node_at
  rw [if_neg (by omega), h.head_eq]
  exact walk_seg l.store i cs none h.seg

theorem node_at_out_of_range (l : DLList T) (i : Nat) (hi : size l ≤ i) :
    node_at l i = .error .out_of_range := by
  unfold node_at
  rw [if_pos hi]

theorem size_le (l : DLList T) (cs : List (Nat × T)) (h : WF l cs) : size l ≤ cs.length := by
  unfold size
  rw [h.length_eq]
  exact Nat.mod_le _ _

theorem split_at (cs : List (Nat × T)) (i : Nat) (hi : i < cs.length) :
    cs = cs.take i ++ cs[i] :: cs.drop (i + 1) := by
  rw [← List.drop_eq_getElem_cons hi, List.take_append_drop]

theorem remove_wf (l : DLList T) (cs : List (Nat × T)) (i : Nat) (h : WF l cs)
    (hi : i < size l) :
    ∃ l' c, cs[i]? = some c ∧ remove l i = (.ok c.2, l') ∧
      WF l' (cs.take i ++ cs.drop (i + 1)) ∧ l'.brk = l.brk := by
  have hlt : i < cs.length := Nat.lt_of_lt_of_le hi (size_le l cs h)
  have hsplit := split_at cs i hlt
  have h' : WF l (cs.take i ++ cs[i] :: cs.drop (i + 1)) := by rw [← hsplit]; exact h
  obtain ⟨l', hr, hw, hb⟩ := remove_node_wf l _ _ _ h'
  refine ⟨l', cs[i], List.getElem?_eq_getElem hlt, ?_, hw, hb⟩
  unfold remove
  rw [node_at_wf l cs i h hi, List.drop_eq_getElem_cons hlt]
  exact hr

theorem remove_out_of_range (l : DLList T) (i : Nat) (hi : size l ≤ i) :
    remove l i = (.error .out_of_range, l) := by
  unfold remove
  rw [node_at_out_of_range l i hi]

theorem insert_front_wf (l : DLList T) (cs : List (Nat × T)) (v : T) (h : WF l cs) :
    ∃ l', insert l 0 v = (.ok (), l') ∧ WF l' ((l.brk, v) :: cs) ∧ l'.brk = l.brk + 1 := by
  obtain ⟨l', hp, hw, hb⟩ := push_front_wf l cs v h
  exact ⟨l', by simp only [insert, if_true, hp], hw, hb⟩

theorem insert_back_wf (l : DLList T) (cs : List (Nat × T)) (i : Nat) (v : T) (h : WF l cs)
    (h0 : i ≠ 0) (hi : i = size l) :
    ∃ l', insert l i v = (.ok (), l') ∧ WF l' (cs ++ [(l.brk, v)]) ∧ l'.brk = l.brk + 1 := by
  obtain ⟨l', hp, hw, hb⟩ := push_back_wf l cs v h
  subst hi
  exact ⟨l', by simp only [insert, h0, if_false, if_true, hp], hw, hb⟩

theorem insert_mid_wf (l : DLList T) (cs : List (Nat × T)) (i : Nat) (v : T) (h : WF l cs)
    (h0 : i ≠ 0) (hi : i < size l) :
    ∃ l', insert l i v = (.ok (), l') ∧
      WF l' (cs.take i ++ (l.brk, v) :: cs.drop i) ∧ l'.brk = l.brk + 1 := by
  obtain ⟨j, rfl⟩ : ∃ j, i = j + 1 := ⟨i - 1, by omega⟩
  have hlt : j + 1 < cs.length := Nat.lt_of_lt_of_le hi (size_le l cs h)
  have hj : j < cs.length := by omega
  have hsplit := split_at cs j hj
  have h' : WF l (cs.take (j + 1) ++ cs.drop (j + 1)) := by
    rw [List.take_append_drop]; exact h
  obtain ⟨l', hc, hw, hb⟩ := create_node_wf l _ _ v h'
  refine ⟨l', ?_, hw, hb⟩
  have hseg : Seg l.store none (cs.take j ++ cs[j] :: cs.drop (j + 1)) none := by
    rw [← hsplit]; exact h.seg
  obtain ⟨_, hnode, _⟩ := (seg_mid l.store _ _ _ none none).1 hseg
  have hlst : lst (cs.take (j + 1)) none = some cs[j].1 := by
    rw [List.take_succ, List.getElem?_eq_getElem hj, lst_append]
    rfl
  rw [hlst] at hc
  have hne : j + 1 ≠ size l := by omega
  simp only [insert, h0, hne, if_false, Nat.add_sub_cancel]
  rw [node_at_wf l cs j h (by omega), List.drop_eq_getElem_cons hj]
  simp only [hd, hnode]
  show (match create_node l v (hd (List.drop (j + 1) cs) none) (some cs[j].1) with
    | (Except.ok _, l1) => (Except.ok (), l1)
    | (Except.error e, l1) => (Except.error e, l1)) = _
  rw [hc]

theorem insert_out_of_range (l : DLList T) (i : Nat) (v : T) (hi : size l < i) :
    insert l i v = (.error .out_of_range, l) := by
  have h0 : i ≠ 0 := by omega
  have hne : i ≠ size l := by omega
  simp only [insert, h0, hne, if_false]
  rw [node_at_out_of_range l (i - 1) (by omega)]

theorem lst_reverse (cs : List (Nat × T)) (d : Ptr) : lst cs.reverse d = hd cs d := by
  cases cs with
  | nil => rfl
  | cons c rest => rw [List.reverse_cons, lst_append]; rfl

theorem hd_reverse (cs : List (Nat × T)) (d : Ptr) : hd cs.reverse d = lst cs d := by
  have h := lst_reverse cs.reverse d
  rw [List.reverse_reverse] at h
  exact h.symm

theorem length_le_brk (l : DLList T) (cs : List (Nat × T)) (h : WF l cs) :
    cs.length ≤ l.brk := by
  have hsub : addrs cs ⊆ List.range l.brk := fun a ha => List.mem_range.2 (h.below a ha)
  have := (List.subperm_of_subset h.nodup hsub).length_le
  simpa [addrs] using this

theorem reverse_loop_seg (cs : List (Nat × T)) :
    ∀ (p : Ptr) (s : Store T) (fuel : Nat), Seg s p cs none → (addrs cs).Nodup →
      cs.length ≤ fuel →
      ∃ s1, reverse_loop fuel s (hd cs none) = .ok s1 ∧ Seg s1 none cs.reverse p ∧
        ∀ a ∉ addrs cs, s1 a = s a := by
  induction cs with
  | nil =>
    intro p s fuel _ _ _
    refine ⟨s, ?_, trivial, fun _ _ => rfl⟩
    cases fuel <;> rfl
  | cons c rest ih =>
    intro p s fuel h hn hf
    obtain ⟨hc, hrest⟩ := h
    obtain ⟨f, rfl⟩ : ∃ f, fuel = f + 1 := ⟨fuel - 1, by simp at hf; omega⟩
    have hnot : c.1 ∉ addrs rest := (List.nodup_cons.1 hn).1
    have hnr : (addrs rest).Nodup := (List.nodup_cons.1 hn).2
    have hupd : ∀ a, a ≠ c.1 →
        Function.update s c.1 (some { value := c.2, next := p, prev := hd rest none }) a = s a :=
      fun a ha => by simp [Function.update, ha]
    have hrest' := seg_congr s _ rest (some c.1) none
      (fun a ha => hupd a (fun e => hnot (e ▸ ha))) hrest
    obtain ⟨s1, hl, hs1, hag⟩ := ih (some c.1) _ f hrest' hnr (by simp at hf; omega)
    refine ⟨s1, ?_, ?_, ?_⟩
    · simp only [hd, reverse_loop, hc]
      exact hl
    · rw [List.reverse_cons]
      refine (seg_mid s1 rest.reverse [] c none p).2 ⟨hs1, ?_, trivial⟩
      rw [hag c.1 hnot, lst_reverse]
      simp [hd]
    · intro a ha
      have hac : a ≠ c.1 := fun e => ha (by simp [addrs, e])
      have har : a ∉ addrs rest := fun e => ha (by
        simp only [addrs, List.map_cons, List.mem_cons]; right; exact e)
      rw [hag a har, hupd a hac]

theorem reverse_wf (l : DLList T) (cs : List (Nat × T)) (h : WF l cs) :
    ∃ l', reverse l = (.ok (), l') ∧ WF l' cs.reverse ∧ l'.brk = l.brk ∧
      l'.length = l.length := by
  obtain ⟨s1, hl, hs1, _⟩ := reverse_loop_seg cs none l.store l.brk h.seg h.nodup
    (length_le_brk l cs h)
  refine ⟨{ l with store := s1, head := l.tail, tail := l.head }, ?_, ?_, rfl, rfl⟩
  · simp only [reverse, h.head_eq, hl]
  · refine ⟨?_, hs1, ?_, ?_, ?_, ?_⟩
    · simp only [addrs, List.map_reverse, List.nodup_reverse]
      exact h.nodup
    · show l.tail = _
      rw [h.tail_eq, hd_reverse]
    · show l.head = _
      rw [h.head_eq, lst_reverse]
    · show l.length = _
      rw [h.length_eq, List.length_reverse]
    · intro a ha
      exact h.below a (by simpa [addrs] using ha)

theorem forward_seg (s : Store T) (cs : List (Nat × T)) :
    ∀ (p : Ptr) (fuel : Nat), Seg s p cs none → cs.length ≤ fuel →
      forward s fuel (hd cs none) = addrs cs := by
  induction cs with
  | nil => intro p fuel _ _; cases fuel <;> rfl
  | cons c rest ih =>
    intro p fuel h hf
    obtain ⟨hc, hrest⟩ := h
    obtain ⟨f, rfl⟩ : ∃ f, fuel = f + 1 := ⟨fuel - 1, by simp at hf; omega⟩
    simp only [hd, forward, hc, addrs, List.map_cons]
    exact congrArg _ (ih _ f hrest (by simp at hf; omega))

theorem to_list_seg (s : Store T) (cs : List (Nat × T)) :
    ∀ (p : Ptr) (fuel : Nat), Seg s p cs none → cs.length ≤ fuel →
      to_list s fuel (hd cs none) = vals cs := by
  induction cs with
  | nil => intro p fuel _ _; cases fuel <;> rfl
  | cons c rest ih =>
    intro p fuel h hf
    obtain ⟨hc, hrest⟩ := h
    obtain ⟨f, rfl⟩ : ∃ f, fuel = f + 1 := ⟨fuel - 1, by simp at hf; omega⟩
    simp only [hd, to_list, hc, vals, List.map_cons]
    exact congrArg _ (ih _ f hrest (by simp at hf; omega))

theorem backward_seg (s : Store T) (n : Nat) :
    ∀ (cs : List (Nat × T)) (q : Ptr) (fuel : Nat), cs.length = n → Seg s none cs q →
      cs.length ≤ fuel → backward s fuel (lst cs none) = (addrs cs).reverse := by
  induction n with
  | zero =>
    intro cs q fuel hn _ _
    have : cs = [] := List.length_eq_zero.1 hn
    subst this
    cases fuel <;> rfl
  | succ n ih =>
    intro cs q fuel hn h hf
    obtain ⟨init, c, rfl⟩ : ∃ init c, cs = init ++ [c] := by
      rcases List.eq_nil_or_concat cs with e | ⟨init, c, e⟩
      · subst e; simp at hn
      · exact ⟨init, c, by simpa using e⟩
    obtain ⟨f, rfl⟩ : ∃ f, fuel = f + 1 := ⟨fuel - 1, by simp at hf; omega⟩
    obtain ⟨hinit, hc, _⟩ := (seg_mid s init [] c none q).1 h
    have hlen : init.length = n := by simp at hn; omega
    rw [lst_append]
    simp only [lst, backward, hc, addrs, List.map_append, List.map_cons, List.map_nil,
      List.reverse_append, List.reverse_cons, List.reverse_nil, List.nil_append,
      List.singleton_append]
    exact congrArg _ (ih init _ f hlen hinit (by simp at hf; omega))

theorem forward_wf (l : DLList T) (cs : List (Nat × T)) (h : WF l cs) :
    forward l.store l.brk l.head = addrs cs := by
  rw [h.head_eq]
  exact forward_seg l.store cs none l.brk h.seg (length_le_brk l cs h)

theorem backward_wf (l : DLList T) (cs : List (Nat × T)) (h : WF l cs) :
    backward l.store l.brk l.tail = (addrs cs).reverse := by
  rw [h.tail_eq]
  exact backward_seg l.store cs.length cs none l.brk rfl h.seg (length_le_brk l cs h)

theorem elements_wf (l : DLList T) (cs : List (Nat × T)) (h : WF l cs) :
    elements l = vals cs := by
  unfold elements
  rw [h.head_eq]
  exact to_list_seg l.store cs none l.brk h.seg (length_le_brk l cs h)

theorem walk_end (l : DLList T) (cs : List (Nat × T)) (h : WF l cs) :
    walk l.store cs.length l.head = .ok none := by
  rw [h.head_eq, walk_seg l.store cs.length cs none h.seg, List.drop_length]
  rfl

theorem front_wf (l : DLList T) (cs : List (Nat × T)) (h : WF l cs) :
    front l = match (vals cs).head? with
      | none => .error .runtime_error
      | some v => .ok v := by
  cases cs with
  | nil =>
    have he : empty l = true := (empty_iff l [] h).2 rfl
    simp [front, he, vals]
  | cons c rest =>
    have he : empty l = false := by
      cases hb : empty l
      · rfl
      · exact absurd ((empty_iff l _ h).1 hb) (List.cons_ne_nil _ _)
    have hc := h.seg.1
    simp only [front, he, h.head_eq, hd, hc, vals, List.map_cons, List.head?_cons]
    rfl

theorem back_wf (l : DLList T) (cs : List (Nat × T)) (h : WF l cs) :
    back l = match (vals cs).getLast? with
      | none => .error .runtime_error
      | some v => .ok v := by
  rcases List.eq_nil_or_concat cs with e | ⟨init, c, e⟩
  · subst e
    have he : empty l = true := (empty_iff l [] h).2 rfl
    simp [back, he, vals]
  · have e2 : cs = init ++ [c] := by simpa using e
    subst e2
    have he : empty l = false := by
      cases hb : empty l
      · rfl
      · exact absurd ((empty_iff l _ h).1 hb) (by simp)
    obtain ⟨_, hc, _⟩ := (seg_mid l.store init [] c none none).1 h.seg
    have ht : l.tail = some c.1 := by rw [h.tail_eq, lst_append]; rfl
    simp only [back, he, ht, hc, vals, List.map_append, List.map_cons, List.map_nil,
      List.getLast?_append, List.getLast?_singleton]
    rfl

theorem filter_loop_wf (predicate : T → Bool) (todo : List (Nat × T)) :
    ∀ (kept : List (Nat × T)) (l : DLList T) (fuel : Nat), WF l (kept ++ todo) →
      todo.length ≤ fuel →
      ∃ l', filter_loop predicate fuel l (hd todo none) = (.ok (), l') ∧
        WF l' (kept ++ todo.filter (fun c => predicate c.2)) ∧ l'.brk = l.brk := by
  induction todo with
  | nil =>
    intro kept l fuel h _
    refine ⟨l, ?_, by simpa using h, rfl⟩
    cases fuel <;> rfl
  | cons c rest ih =>
    intro kept l fuel h hf
    obtain ⟨f, rfl⟩ : ∃ f, fuel = f + 1 := ⟨fuel - 1, by simp at hf; omega⟩
    have hf2 : rest.length ≤ f := by simp at hf; omega
    obtain ⟨_, hc, _⟩ := (seg_mid l.store kept rest c none none).1 h.seg
    cases hp : predicate c.2
    · obtain ⟨l1, hrm, hwf1, hb1⟩ := remove_node_wf l kept rest c h
      obtain ⟨l2, hl2, hwf2, hb2⟩ := ih kept l1 f hwf1 hf2
      refine ⟨l2, ?_, ?_, hb2.trans hb1⟩
      · simp only [hd, filter_loop, hc, hp, Bool.not_false, if_true, hrm]
        exact hl2
      · simpa [List.filter_cons, hp] using hwf2
    · have h2 : WF l ((kept ++ [c]) ++ rest) := by simpa using h
      obtain ⟨l2, hl2, hwf2, hb2⟩ := ih (kept ++ [c]) l f h2 hf2
      refine ⟨l2, ?_, ?_, hb2⟩
      · simp only [hd, filter_loop, hc, hp, Bool.not_true, Bool.false_eq_true, if_false]
        exact hl2
      · simpa [List.filter_cons, hp] using hwf2

theorem filter_self_wf (l : DLList T) (cs : List (Nat × T)) (predicate : T → Bool)
    (h : WF l cs) :
    ∃ l', filter_self l predicate = (.ok (), l') ∧
      WF l' (cs.filter (fun c => predicate c.2)) ∧ l'.brk = l.brk := by
  have := filter_loop_wf predicate cs [] l l.brk (by simpa using h) (length_le_brk l cs h)
  simpa [filter_self, h.head_eq] using this

theorem remove_first_loop_wf [DecidableEq T] (value : T) (todo : List (Nat × T)) :
    ∀ (kept : List (Nat × T)) (l : DLList T) (fuel : Nat), WF l (kept ++ todo) →
      todo.length ≤ fuel →
      ∃ l' cs', remove_first_loop value fuel l (hd todo none) = (.ok (), l') ∧
        WF l' cs' ∧ l'.brk = l.brk := by
  induction todo with
  | nil =>
    intro kept l fuel h _
    refine ⟨l, kept, ?_, by simpa using h, rfl⟩
    cases fuel <;> rfl
  | cons c rest ih =>
    intro kept l fuel h hf
    obtain ⟨f, rfl⟩ : ∃ f, fuel = f + 1 := ⟨fuel - 1, by simp at hf; omega⟩
    have hf2 : rest.length ≤ f := by simp at hf; omega
    obtain ⟨_, hc, _⟩ := (seg_mid l.store kept rest c none none).1 h.seg
    by_cases hp : c.2 = value
    · obtain ⟨l1, hrm, hwf1, hb1⟩ := remove_node_wf l kept rest c h
      refine ⟨l1, kept ++ rest, ?_, hwf1, hb1⟩
      simp only [hd, remove_first_loop, hc, hp, if_true, hrm]
    · have h2 : WF l ((kept ++ [c]) ++ rest) := by simpa using h
      obtain ⟨l2, cs2, hl2, hwf2, hb2⟩ := ih (kept ++ [c]) l f h2 hf2
      refine ⟨l2, cs2, ?_, hwf2, hb2⟩
      simp only [hd, remove_first_loop, hc, hp, if_false]
      exact hl2

theorem remove_last_loop_wf [DecidableEq T] (value : T) (n : Nat) :
    ∀ (todo kept : List (Nat × T)) (l : DLList T) (fuel : Nat), todo.length = n →
      WF l (todo ++ kept) → n ≤ fuel →
      ∃ l' cs', remove_last_loop value fuel l (lst todo none) = (.ok (), l') ∧
        WF l' cs' ∧ l'.brk = l.brk := by
  induction n with
  | zero =>
    intro todo kept l fuel hn h _
    have : todo = [] := List.length_eq_zero.1 hn
    subst this
    refine ⟨l, kept, ?_, by simpa using h, rfl⟩
    cases fuel <;> rfl
  | succ n ih =>
    intro todo kept l fuel hn h hf
    obtain ⟨init, c, rfl⟩ : ∃ init c, todo = init ++ [c] := by
      rcases List.eq_nil_or_concat todo with e | ⟨init, c, e⟩
      · subst e; simp at hn
      · exact ⟨init, c, by simpa using e⟩
    obtain ⟨f, rfl⟩ : ∃ f, fuel = f + 1 := ⟨fuel - 1, by omega⟩
    have hlen : init.length = n := by simp at hn; omega
    have h2 : WF l (init ++ c :: kept) := by simpa using h
    obtain ⟨_, hc, _⟩ := (seg_mid l.store init kept c none none).1 h2.seg
    have hl : lst (init ++ [c]) none = some c.1 := by rw [lst_append]; rfl
    by_cases hp : c.2 = value
    · obtain ⟨l1, hrm, hwf1, hb1⟩ := remove_node_wf l init kept c h2
      refine ⟨l1, init ++ kept, ?_, hwf1, hb1⟩
      simp only [hl, remove_last_loop, hc, hp, if_true, hrm]
    · obtain ⟨l2, cs2, hl2, hwf2, hb2⟩ := ih init (c :: kept) l f hlen h2 (by omega)
      refine ⟨l2, cs2, ?_, hwf2, hb2⟩
      simp only [hl, remove_last_loop, hc, hp, if_false]
      exact hl2

theorem seg_unique (s s1 : Store T) (cs : List (Nat × T)) :
    ∀ (p n : Ptr), Seg s p cs n → Seg s1 p cs n → ∀ a ∈ addrs cs, s1 a = s a := by
  induction cs with
  | nil => intro _ _ _ _ a ha; simp [addrs] at ha
  | cons c rest ih =>
    intro p n h h1 a ha
    simp only [addrs, List.map_cons, List.mem_cons] at ha
    rcases ha with e | e
    · rw [e, h.1, h1.1]
    · exact ih _ _ h.2 h1.2 a e

theorem reverse_twice (l : DLList T) (cs : List (Nat × T)) (h : WF l cs) :
    ∃ l1, reverse l = (.ok (), l1) ∧ WF l1 cs.reverse ∧ l1.length = l.length ∧
      reverse l1 = (.ok (), l) := by
  obtain ⟨s1, hl, hs1, hag1⟩ := reverse_loop_seg cs none l.store l.brk h.seg h.nodup
    (length_le_brk l cs h)
  obtain ⟨l1, hr, hwf1, hb1, hlen1⟩ := reverse_wf l cs h
  have hl' : reverse_loop l.brk l.store l.head = .ok s1 := by rw [h.head_eq]; exact hl
  have hrv : reverse l = (.ok (), ⟨s1, l.brk, l.tail, l.head, l.length⟩) := by
    simp only [reverse, hl']
  have hl1 : l1 = ⟨s1, l.brk, l.tail, l.head, l.length⟩ :=
    (Prod.mk.inj (hr.symm.trans hrv)).2
  refine ⟨l1, hr, hwf1, hlen1, ?_⟩
  have hn1 : (addrs cs.reverse).Nodup := hwf1.nodup
  obtain ⟨s2, hl2, hs2, hag2⟩ := reverse_loop_seg cs.reverse none s1 l.brk hs1 hn1
    (by rw [List.length_reverse]; exact length_le_brk l cs h)
  rw [List.reverse_reverse] at hs2
  have hstore : s2 = l.store := by
    funext a
    by_cases ha : a ∈ addrs cs
    · exact seg_unique l.store s2 cs none none h.seg hs2 a ha
    · have ha1 : a ∉ addrs cs.reverse := by simpa [addrs] using ha
      rw [hag2 a ha1, hag1 a ha]
  have hl2' : reverse_loop l.brk s1 l.tail = .ok s2 := by
    rw [h.tail_eq, ← hd_reverse]; exact hl2
  rw [hl1]
  simp only [reverse, hl2', hstore]

theorem lst_eq_getLast (cs : List (Nat × T)) : lst cs none = (addrs cs).getLast? := by
  rcases List.eq_nil_or_concat cs with e | ⟨init, c, e⟩
  · subst e; rfl
  · have e2 : cs = init ++ [c] := by simpa using e
    subst e2
    rw [lst_append]
    simp [lst, addrs]

theorem hd_eq_none (cs : List (Nat × T)) : hd cs none = none ↔ cs = [] := by
  cases cs <;> simp [hd]

theorem lst_eq_none (cs : List (Nat × T)) : lst cs none = none ↔ cs = [] := by
  rw [lst_eq_getLast]
  simp [addrs]

theorem wf_facts (l : DLList T) (cs : List (Nat × T)) (h : WF l cs) :
    size l = (forward l.store l.brk l.head).length % 2 ^ 32 ∧
    ((forward l.store l.brk l.head).length < 2 ^ 32 →
      size l = (forward l.store l.brk l.head).length ∧ (empty l = true ↔ size l = 0)) ∧
    walk l.store (forward l.store l.brk l.head).length l.head = .ok none ∧
    (l.head = none ↔ l.tail = none) ∧
    (l.tail = none ↔ forward l.store l.brk l.head = []) ∧
    (empty l = true ↔ forward l.store l.brk l.head = []) ∧
    l.tail = (forward l.store l.brk l.head).getLast? ∧
    backward l.store l.brk l.tail = (forward l.store l.brk l.head).reverse := by
  rw [forward_wf l cs h, backward_wf l cs h]
  have hlen : (addrs cs).length = cs.length := by simp [addrs]
  have hnil : addrs cs = [] ↔ cs = [] := by simp [addrs]
  have hsz : size l = cs.length % 2 ^ 32 := h.length_eq
  refine ⟨by rw [hlen]; exact hsz, ?_, ?_, ?_, ?_, ?_, ?_, rfl⟩
  · intro hlt
    rw [hlen] at hlt ⊢
    have hsz2 : size l = cs.length := by rw [hsz]; exact Nat.mod_eq_of_lt hlt
    refine ⟨hsz2, ?_⟩
    rw [empty_iff l cs h, hsz2]
    exact List.length_eq_zero.symm
  · rw [hlen]; exact walk_end l cs h
  · rw [h.head_eq, h.tail_eq, hd_eq_none, lst_eq_none]
  · rw [h.tail_eq, lst_eq_none, hnil]
  · rw [empty_iff l cs h, hnil]
  · rw [h.tail_eq]; exact lst_eq_getLast cs

theorem reachable_wf [DecidableEq T] (l : DLList T) (h : Reachable l) : ∃ cs, WF l cs := by
  induction h with
  | empty => exact ⟨[], wf_empty⟩
  | push_back l v _ ih =>
    obtain ⟨cs, hwf⟩ := ih
    obtain ⟨l1, he, hwf1, _⟩ := push_back_wf l cs v hwf
    exact ⟨_, by rw [he]; exact hwf1⟩
  | push_front l v _ ih =>
    obtain ⟨cs, hwf⟩ := ih
    obtain ⟨l1, he, hwf1, _⟩ := push_front_wf l cs v hwf
    exact ⟨_, by rw [he]; exact hwf1⟩
  | pop_back l _ ih =>
    obtain ⟨cs, hwf⟩ := ih
    rcases List.eq_nil_or_concat cs with e | ⟨init, c, e⟩
    · subst e
      exact ⟨[], by rw [(pop_empty l hwf).1]; exact hwf⟩
    · have e2 : cs = init ++ [c] := by simpa using e
      subst e2
      obtain ⟨l1, he, hwf1, _⟩ := pop_back_wf l init c hwf
      exact ⟨_, by rw [he]; exact hwf1⟩
  | pop_front l _ ih =>
    obtain ⟨cs, hwf⟩ := ih
    cases cs with
    | nil => exact ⟨[], by rw [(pop_empty l hwf).2]; exact hwf⟩
    | cons c rest =>
      obtain ⟨l1, he, hwf1, _⟩ := pop_front_wf l rest c hwf
      exact ⟨_, by rw [he]; exact hwf1⟩
  | insert l i v _ ih =>
    obtain ⟨cs, hwf⟩ := ih
    by_cases h0 : i = 0
    · subst h0
      obtain ⟨l1, he, hwf1, _⟩ := insert_front_wf l cs v hwf
      exact ⟨_, by rw [he]; exact hwf1⟩
    · rcases Nat.lt_trichotomy i (size l) with hlt | heq | hgt
      · obtain ⟨l1, he, hwf1, _⟩ := insert_mid_wf l cs i v hwf h0 hlt
        exact ⟨_, by rw [he]; exact hwf1⟩
      · obtain ⟨l1, he, hwf1, _⟩ := insert_back_wf l cs i v hwf h0 heq
        exact ⟨_, by rw [he]; exact hwf1⟩
      · exact ⟨cs, by rw [insert_out_of_range l i v hgt]; exact hwf⟩
  | remove l i _ ih =>
    obtain ⟨cs, hwf⟩ := ih
    by_cases hi : i < size l
    · obtain ⟨l1, c, _, he, hwf1, _⟩ := remove_wf l cs i hwf hi
      exact ⟨_, by rw [he]; exact hwf1⟩
    · exact ⟨cs, by rw [remove_out_of_range l i (by omega)]; exact hwf⟩
  | remove_first l v _ ih =>
    obtain ⟨cs, hwf⟩ := ih
    cases he : empty l
    · obtain ⟨l1, cs1, hl, hwf1, _⟩ := remove_first_loop_wf v cs [] l l.brk
        (by simpa using hwf) (length_le_brk l cs hwf)
      refine ⟨cs1, ?_⟩
      rw [← hwf.head_eq] at hl
      simp only [remove_first, he, Bool.false_eq_true, if_false, hl]
      exact hwf1
    · exact ⟨cs, by simp only [remove_first, he, if_true]; exact hwf⟩
  | remove_last l v _ ih =>
    obtain ⟨cs, hwf⟩ := ih
    cases he : empty l
    · obtain ⟨l1, cs1, hl, hwf1, _⟩ := remove_last_loop_wf v cs.length cs [] l l.brk rfl
        (by simpa using hwf) (length_le_brk l cs hwf)
      refine ⟨cs1, ?_⟩
      rw [← hwf.tail_eq] at hl
      simp only [remove_last, he, Bool.false_eq_true, if_false, hl]
      exact hwf1
    · exact ⟨cs, by simp only [remove_last, he, if_true]; exact hwf⟩
  | remove_all l v _ ih =>
    obtain ⟨cs, hwf⟩ := ih
    obtain ⟨l1, he, hwf1, _⟩ := filter_self_wf l cs (fun i => i != v) hwf
    exact ⟨_, by simp only [remove_all, he]; exact hwf1⟩
  | filter_self l p _ ih =>
    obtain ⟨cs, hwf⟩ := ih
    obtain ⟨l1, he, hwf1, _⟩ := filter_self_wf l cs p hwf
    exact ⟨_, by rw [he]; exact hwf1⟩
  | reverse l _ ih =>
    obtain ⟨cs, hwf⟩ := ih
    obtain ⟨l1, he, hwf1, _⟩ := reverse_wf l cs hwf
    exact ⟨_, by rw [he]; exact hwf1⟩

theorem pushes_wf (v : T) (n : Nat) : ∃ cs, WF (pushes v n) cs ∧ cs.length = n := by
  induction n with
  | zero => exact ⟨[], wf_empty, rfl⟩
  | succ n ih =>
    obtain ⟨cs, hwf, hlen⟩ := ih
    obtain ⟨l1, he, hwf1, _⟩ := push_back_wf (pushes v n) cs v hwf
    refine ⟨cs ++ [((pushes v n).brk, v)], ?_, by simp [hlen]⟩
    show WF (push_back (pushes v n) v).2 _
    rw [he]
    exact hwf1

theorem pushes_reachable [DecidableEq T] (v : T) (n : Nat) : Reachable (pushes v n) := by
  induction n with
  | zero => exact Reachable.empty
  | succ n ih => exact Reachable.push_back _ v ih

theorem pushes_facts [DecidableEq T] (v : T) (n : Nat) :
    Reachable (pushes v n) ∧ size (pushes v n) = n % 2 ^ 32 ∧
      (forward (pushes v n).store (pushes v n).brk (pushes v n).head).length = n ∧
      (empty (pushes v n) = true ↔ n = 0) := by
  obtain ⟨cs, hwf, hlen⟩ := pushes_wf v n
  subst hlen
  refine ⟨pushes_reachable v _, hwf.length_eq, ?_, ?_⟩
  · rw [forward_wf _ cs hwf]; simp [addrs]
  · rw [empty_iff _ cs hwf]; exact List.length_eq_zero.symm

theorem pushes_insert_front (v w : T) (n : Nat) :
    (insert (pushes v n) 0 w).1 = .ok () ∧
      size (insert (pushes v n) 0 w).2 = (n + 1) % 2 ^ 32 := by
  obtain ⟨cs, hwf, hlen⟩ := pushes_wf v n
  obtain ⟨l1, he, hwf1, _⟩ := insert_front_wf (pushes v n) cs w hwf
  rw [he]
  refine ⟨rfl, ?_⟩
  show l1.length = _
  rw [hwf1.length_eq, List.length_cons, hlen]

theorem insert_spec (l : DLList T) (cs : List (Nat × T)) (i : Nat) (v : T) (h : WF l cs)
    (hlen : cs.length + 1 < 2 ^ 32) :
    (i ≤ size l → ∃ l', insert l i v = (.ok (), l') ∧
        elements l' = (elements l).take i ++ v :: (elements l).drop i ∧
        size l' = size l + 1) ∧
      (size l < i → insert l i v = (.error .out_of_range, l)) := by
  have hsz : size l = cs.length := by
    show l.length = _
    rw [h.length_eq]; exact Nat.mod_eq_of_lt (by omega)
  refine ⟨fun hi => ?_, insert_out_of_range l i v⟩
  have key : ∃ l', insert l i v = (.ok (), l') ∧
      WF l' (cs.take i ++ (l.brk, v) :: cs.drop i) := by
    by_cases h0 : i = 0
    · subst h0
      obtain ⟨l1, he, hwf1, _⟩ := insert_front_wf l cs v h
      exact ⟨l1, he, by simpa using hwf1⟩
    · rcases Nat.lt_or_ge i (size l) with hlt | hge
      · obtain ⟨l1, he, hwf1, _⟩ := insert_mid_wf l cs i v h h0 hlt
        exact ⟨l1, he, hwf1⟩
      · have heq : i = size l := by omega
        obtain ⟨l1, he, hwf1, _⟩ := insert_back_wf l cs i v h h0 heq
        refine ⟨l1, he, ?_⟩
        have hic : i = cs.length := by omega
        subst hic
        simpa using hwf1
  obtain ⟨l1, he, hwf1⟩ := key
  refine ⟨l1, he, ?_, ?_⟩
  · rw [elements_wf l1 _ hwf1, elements_wf l cs h]
    simp [vals, List.map_take, List.map_drop]
  · show l1.length = _
    rw [hwf1.length_eq, hsz]
    have hl : (cs.take i ++ (l.brk, v) :: cs.drop i).length = cs.length + 1 := by
      rw [hsz] at hi
      simp [List.length_take, List.length_drop]
      omega
    rw [hl]
    exact Nat.mod_eq_of_lt hlen

theorem reverse_spec (l : DLList T) (cs : List (Nat × T)) (h : WF l cs) :
    ∃ l1, reverse l = (.ok (), l1) ∧ elements l1 = (elements l).reverse ∧
      front l1 = back l ∧ back l1 = front l ∧ size l1 = size l ∧
      reverse l1 = (.ok (), l) := by
  obtain ⟨l1, hr, hwf1, hlen, hrr⟩ := reverse_twice l cs h
  refine ⟨l1, hr, ?_, ?_, ?_, hlen, hrr⟩
  · rw [elements_wf l1 _ hwf1, elements_wf l cs h]
    simp [vals]
  · rw [front_wf l1 _ hwf1, back_wf l cs h]
    simp [vals, List.map_reverse]
  · rw [back_wf l1 _ hwf1, front_wf l cs h]
    simp [vals, List.map_reverse]

theorem push_back_frame (l l1 : DLList T) (v : T) (h : push_back l v = (.ok (), l1))
    (a : Nat) (ha : a ≠ l.brk) (hat : l.tail ≠ some a) : l1.store a = l.store a := by
  unfold push_back create_node at h
  cases ht : l.tail with
  | none =>
    simp only [ht, set_prev, set_next] at h
    have := (Prod.mk.inj h).2
    rw [← this]
    simp [Function.update, ha]
  | some t =>
    have hta : a ≠ t := fun e => hat (by rw [ht, e])
    simp only [ht, set_prev, set_next] at h
    cases hs : Function.update l.store l.brk
        (some { value := v, next := none, prev := some t }) t with
    | none =>
      rw [hs] at h
      exact absurd (congrArg Prod.fst h) (by simp)
    | some nd =>
      rw [hs] at h
      have := (Prod.mk.inj h).2
      rw [← this]
      simp [Function.update, ha, hta]

theorem filter_for_wf (predicate : T → Bool) (b : Nat) (todo : List (Nat × T)) :
    ∀ (p : Ptr) (r : DLList T) (rcs : List (Nat × T)) (fuel : Nat),
      Seg r.store p todo none → (∀ a ∈ addrs todo, a < b) → WF r rcs →
      (∀ a ∈ addrs rcs, b ≤ a) → b ≤ r.brk → todo.length ≤ fuel →
      ∃ r1 rcs1, filter_for predicate fuel r (hd todo none) = (.ok (), r1) ∧ WF r1 rcs1 ∧
        vals rcs1 = vals rcs ++ (vals todo).filter predicate ∧
        (∀ a ∈ addrs rcs1, b ≤ a) ∧ b ≤ r1.brk ∧ ∀ a < b, r1.store a = r.store a := by
  induction todo with
  | nil =>
    intro p r rcs fuel _ _ hwf hge hb _
    refine ⟨r, rcs, ?_, hwf, by simp [vals], hge, hb, fun _ _ => rfl⟩
    cases fuel <;> rfl
  | cons c rest ih =>
    intro p r rcs fuel hseg hlt hwf hge hb hf
    obtain ⟨hc, hrest⟩ := hseg
    obtain ⟨f, rfl⟩ : ∃ f, fuel = f + 1 := ⟨fuel - 1, by simp at hf; omega⟩
    have hf2 : rest.length ≤ f := by simp at hf; omega
    have hcb : c.1 < b := hlt c.1 (by simp [addrs])
    have hlt2 : ∀ a ∈ addrs rest, a < b := fun a ha =>
      hlt a (by simp only [addrs, List.map_cons, List.mem_cons]; right; exact ha)
    cases hp : predicate c.2
    · obtain ⟨r1, rcs1, hl, hwf1, hv, hge1, hb1, hfr⟩ :=
        ih (some c.1) r rcs f hrest hlt2 hwf hge hb hf2
      refine ⟨r1, rcs1, ?_, hwf1, ?_, hge1, hb1, hfr⟩
      · simp only [hd, filter_for, hc, hp, Bool.false_eq_true, if_false]
        exact hl
      · rw [hv]; simp [vals, List.filter_cons, hp]
    · obtain ⟨r0, hpb, hwf0, hbrk0⟩ := push_back_wf r rcs c.2 hwf
      have hfr0 : ∀ a < b, r0.store a = r.store a := by
        intro a ha
        refine push_back_frame r r0 c.2 hpb a (by omega) ?_
        rw [hwf.tail_eq]
        intro e
        have hne : rcs ≠ [] := by
          intro e2; subst e2; simp [lst] at e
        obtain ⟨a2, h1, h2⟩ := lst_of_ne_nil rcs hne none
        rw [h1] at e
        have : a2 = a := Option.some.inj e
        have := hge a2 h2
        omega
      have hge0 : ∀ a ∈ addrs (rcs ++ [(r.brk, c.2)]), b ≤ a := by
        intro a ha
        simp only [addrs, List.map_append, List.map_cons, List.map_nil, List.mem_append,
          List.mem_singleton] at ha
        rcases ha with ha | ha
        · exact hge a ha
        · omega
      have hrest0 : Seg r0.store (some c.1) rest none :=
        seg_congr r.store r0.store rest (some c.1) none (fun a ha => hfr0 a (hlt2 a ha)) hrest
      obtain ⟨r1, rcs1, hl, hwf1, hv, hge1, hb1, hfr⟩ :=
        ih (some c.1) r0 _ f hrest0 hlt2 hwf0 hge0 (by omega) hf2
      have hc0 : r0.store c.1 = some { value := c.2, next := hd rest none, prev := p } := by
        rw [hfr0 c.1 hcb]; exact hc
      refine ⟨r1, rcs1, ?_, hwf1, ?_, hge1, hb1, fun a ha => ?_⟩
      · simp only [hd, filter_for, hc, hp, if_true, hpb, hc0]
        exact hl
      · rw [hv]; simp [vals, List.filter_cons, hp]
      · rw [hfr a ha, hfr0 a ha]

theorem filter_wf (l : DLList T) (cs : List (Nat × T)) (predicate : T → Bool) (h : WF l cs) :
    ∃ res l2 rcs, filter l predicate = (.ok res, l2) ∧ WF res rcs ∧
      vals rcs = (vals cs).filter predicate ∧ WF l2 cs := by
  have hw0 : WF ({ store := l.store, brk := l.brk, head := none, tail := none, length := 0 } :
      DLList T) [] :=
    ⟨List.nodup_nil, trivial, rfl, rfl, rfl, fun _ ha => absurd ha (List.not_mem_nil _)⟩
  obtain ⟨r1, rcs1, hl, hwf1, hv, _, hb1, hfr⟩ :=
    filter_for_wf predicate l.brk cs none
      ⟨l.store, l.brk, none, none, 0⟩ [] l.brk h.seg h.below hw0
      (fun _ ha => absurd ha (List.not_mem_nil _)) (Nat.le_refl _) (length_le_brk l cs h)
  rw [← h.head_eq] at hl
  refine ⟨r1, { l with store := r1.store, brk := r1.brk }, rcs1, ?_, hwf1, ?_, ?_⟩
  · simp only [filter, hl]
  · simpa [vals] using hv
  · refine ⟨h.nodup, ?_, h.head_eq, h.tail_eq, h.length_eq, fun a ha => ?_⟩
    · exact seg_congr l.store r1.store cs none none (fun a ha => hfr a (h.below a ha)) h.seg
    · exact Nat.lt_of_lt_of_le (h.below a ha) hb1

theorem filter_refinement (l : DLList T) (cs : List (Nat × T)) (predicate : T → Bool)
    (h : WF l cs) :
    ∃ l1 res l2, filter_self l predicate = (.ok (), l1) ∧
      filter l predicate = (.ok res, l2) ∧
      elements l1 = elements res ∧
      elements l1 = (elements l).filter predicate ∧
      size l1 = ((elements l).filter predicate).length % 2 ^ 32 ∧
      (((elements l).filter predicate).length < 2 ^ 32 →
        size l1 = ((elements l).filter predicate).length) ∧
      size res = size l1 ∧
      elements l2 = elements l := by
  obtain ⟨l1, hfs, hwf1, _⟩ := filter_self_wf l cs predicate h
  obtain ⟨res, l2, rcs, hf, hwfr, hv, hwf2⟩ := filter_wf l cs predicate h
  have he1 : elements l1 = (elements l).filter predicate := by
    rw [elements_wf l1 _ hwf1, elements_wf l cs h]
    simp only [vals, List.filter_map]
    rfl
  have her : elements res = (elements l).filter predicate := by
    rw [elements_wf res _ hwfr, elements_wf l cs h, hv]
  have hs1 : size l1 = ((elements l).filter predicate).length % 2 ^ 32 := by
    rw [← he1, elements_wf l1 _ hwf1]
    show l1.length = _
    rw [hwf1.length_eq]; simp [vals]
  have hsr : size res = ((elements l).filter predicate).length % 2 ^ 32 := by
    rw [← her, elements_wf res _ hwfr]
    show res.length = _
    rw [hwfr.length_eq]; simp [vals]
  refine ⟨l1, res, l2, hfs, hf, he1.trans her.symm, he1, hs1, fun hlt => ?_, hsr.trans hs1.symm,
    ?_⟩
  · rw [hs1]; exact Nat.mod_eq_of_lt hlt
  · rw [elements_wf l2 cs hwf2, elements_wf l cs h]

theorem pushes_filter_self_always (n : Nat) :
    (filter_self (pushes () n) always).1 = .ok () ∧
      size (filter_self (pushes () n) always).2 = n % 2 ^ 32 ∧
      (elements (filter_self (pushes () n) always).2).length = n ∧
      ((elements (pushes () n)).filter always).length = n := by
  obtain ⟨cs, hwf, hlen⟩ := pushes_wf () n
  obtain ⟨l1, hfs, hwf1, _⟩ := filter_self_wf (pushes () n) cs always hwf
  have hall : cs.filter (fun c => always c.2) = cs := List.filter_eq_self.2 (fun _ _ => rfl)
  rw [hall] at hwf1
  rw [hfs]
  refine ⟨rfl, ?_, ?_, ?_⟩
  · show l1.length = _
    rw [hwf1.length_eq, hlen]
  · show (elements l1).length = _
    rw [elements_wf l1 cs hwf1]; simpa [vals] using hlen
  · rw [elements_wf _ cs hwf]
    have : (vals cs).filter always = vals cs := List.filter_eq_self.2 (fun _ _ => rfl)
    rw [this]; simpa [vals] using hlen

/-! ### The claims -/

theorem list_123_reachable : Reachable list_123 :=
  Reachable.push_back _ 3 (Reachable.push_back _ 2 (Reachable.push_back _ 1 Reachable.empty))

theorem list_123_elements : elements list_123 = [1, 2, 3] := by decide

/-- C18, counterexample: after `2 ^ 32` calls of `push_back` on the empty list,
`2 ^ 32` nodes are reachable from `head` through `next` links, while `size()` is 0
(`size_type` is `unsigned`), and `empty()` does not hold. -/
theorem C18_size_wraps_after_two_pow_32_pushes :
    Reachable (pushes () (2 ^ 32)) ∧
      (forward (pushes () (2 ^ 32)).store (pushes () (2 ^ 32)).brk
        (pushes () (2 ^ 32)).head).length = 2 ^ 32 ∧
      size (pushes () (2 ^ 32)) = 0 ∧
      empty (pushes () (2 ^ 32)) = false := by
  obtain ⟨hr, hs, hf, he⟩ := pushes_facts () (2 ^ 32)
  refine ⟨hr, hf, ?_, ?_⟩
  · rw [hs]; exact Nat.mod_self _
  · exact Bool.eq_false_iff.2 (fun hb => absurd (he.1 hb) (by norm_num))

/-- C18, amended: every list reached from the empty list by `push_back`,
`push_front`, `pop_back`, `pop_front`, `insert`, `remove`, `remove_first`,
`remove_last`, `remove_all`, `filter_self` and `reverse` is well formed.  With
`chain` the nodes reachable from `head` through `next` links: `size()` is the
length of `chain` modulo `2 ^ 32`, so it is that length, and `empty()` holds exactly
when `size() == 0`, while fewer than `2 ^ 32` nodes are linked; the chain ends in
`nullptr`; `head` is null iff `tail` is null iff `chain` has no node iff `empty()`;
`tail` is the last node of `chain`; and the `prev` links from `tail` visit the nodes
of `chain` in the opposite order. -/
theorem C18_reachable_list_well_formed [DecidableEq T] (l : DLList T) (h : Reachable l) :
    size l = (forward l.store l.brk l.head).length % 2 ^ 32 ∧
    ((forward l.store l.brk l.head).length < 2 ^ 32 →
      size l = (forward l.store l.brk l.head).length ∧ (empty l = true ↔ size l = 0)) ∧
    walk l.store (forward l.store l.brk l.head).length l.head = .ok none ∧
    (l.head = none ↔ l.tail = none) ∧
    (l.tail = none ↔ forward l.store l.brk l.head = []) ∧
    (empty l = true ↔ forward l.store l.brk l.head = []) ∧
    l.tail = (forward l.store l.brk l.head).getLast? ∧
    backward l.store l.brk l.tail = (forward l.store l.brk l.head).reverse := by
  obtain ⟨cs, hwf⟩ := reachable_wf l h
  exact wf_facts l cs hwf

/-- The theorem `C18_reachable_list_well_formed` at the list `{1, 2, 3}`. -/
theorem C18_reachable_list_well_formed_witness :
    Reachable list_123 ∧
    size list_123 = (forward list_123.store list_123.brk list_123.head).length % 2 ^ 32 ∧
    ((forward list_123.store list_123.brk list_123.head).length < 2 ^ 32 →
      size list_123 = (forward list_123.store list_123.brk list_123.head).length ∧
        (empty list_123 = true ↔ size list_123 = 0)) ∧
    walk list_123.store (forward list_123.store list_123.brk list_123.head).length
      list_123.head = .ok none ∧
    (list_123.head = none ↔ list_123.tail = none) ∧
    (list_123.tail = none ↔ forward list_123.store list_123.brk list_123.head = []) ∧
    (empty list_123 = true ↔ forward list_123.store list_123.brk list_123.head = []) ∧
    list_123.tail = (forward list_123.store list_123.brk list_123.head).getLast? ∧
    backward list_123.store list_123.brk list_123.tail =
      (forward list_123.store list_123.brk list_123.head).reverse :=
  ⟨list_123_reachable, C18_reachable_list_well_formed list_123 list_123_reachable⟩

/-- C19, counterexample: on the list of `2 ^ 32 - 1` elements, whose `size()` is
`2 ^ 32 - 1`, the call `insert(0, v)` returns and leaves `size()` at 0, not one
more. -/
theorem C19_insert_wraps_size :
    Reachable (pushes () (2 ^ 32 - 1)) ∧
      size (pushes () (2 ^ 32 - 1)) = 2 ^ 32 - 1 ∧
      (insert (pushes () (2 ^ 32 - 1)) 0 ()).1 = .ok () ∧
      size (insert (pushes () (2 ^ 32 - 1)) 0 ()).2 = 0 := by
  obtain ⟨hr, hs, _, _⟩ := pushes_facts () (2 ^ 32 - 1)
  obtain ⟨hi, hsi⟩ := pushes_insert_front () () (2 ^ 32 - 1)
  refine ⟨hr, ?_, hi, ?_⟩
  · rw [hs]; norm_num
  · rw [hsi]; norm_num

/-- C19, amended: for every list with element sequence `xs` of fewer than
`2 ^ 32 - 1` elements, every index `i` and item `v`: if `i <= size()`, `insert(i, v)`
makes the sequence the first `i` elements of `xs`, then `v`, then the remaining
elements of `xs`, and increases `size()` by one; if `i > size()`, `insert` throws
`out_of_range` and leaves the list unchanged. -/
theorem C19_insert_below_size_limit [DecidableEq T] (l : DLList T) (h : Reachable l)
    (i : Nat) (v : T) (hlen : (elements l).length + 1 < 2 ^ 32) :
    (i ≤ size l → ∃ l', insert l i v = (.ok (), l') ∧
        elements l' = (elements l).take i ++ v :: (elements l).drop i ∧
        size l' = size l + 1) ∧
      (size l < i → insert l i v = (.error .out_of_range, l)) := by
  obtain ⟨cs, hwf⟩ := reachable_wf l h
  refine insert_spec l cs i v hwf ?_
  rw [elements_wf l cs hwf] at hlen
  simpa [vals] using hlen

/-- The theorem `C19_insert_below_size_limit` at the list `{1, 2, 3}`, index 1
and item 9. -/
theorem C19_insert_below_size_limit_witness :
    Reachable list_123 ∧ (elements list_123).length + 1 < 2 ^ 32 ∧
    ((1 ≤ size list_123 → ∃ l', insert list_123 1 9 = (.ok (), l') ∧
        elements l' = (elements list_123).take 1 ++ 9 :: (elements list_123).drop 1 ∧
        size l' = size list_123 + 1) ∧
      (size list_123 < 1 → insert list_123 1 9 = (.error .out_of_range, list_123))) :=
  ⟨list_123_reachable, by decide,
    C19_insert_below_size_limit list_123 list_123_reachable 1 9 (by decide)⟩

/-- C20: for every list reached from the empty list by the members that change a
list, `reverse()` returns, turns the front-to-back element sequence into its
reversal, exchanges `front()` and `back()`, leaves `size()` unchanged, and a second
`reverse()` gives back the list as it was. -/
theorem C20_reverse_reverses_sequence [DecidableEq T] (l : DLList T) (h : Reachable l) :
    ∃ l1, reverse l = (.ok (), l1) ∧ elements l1 = (elements l).reverse ∧
      front l1 = back l ∧ back l1 = front l ∧ size l1 = size l ∧
      reverse l1 = (.ok (), l) := by
  obtain ⟨cs, hwf⟩ := reachable_wf l h
  exact reverse_spec l cs hwf

/-- The theorem `C20_reverse_reverses_sequence` at the list `{1, 2, 3}`. -/
theorem C20_reverse_reverses_sequence_witness :
    Reachable list_123 ∧
    ∃ l1, reverse list_123 = (.ok (), l1) ∧ elements l1 = (elements list_123).reverse ∧
      front l1 = back list_123 ∧ back l1 = front list_123 ∧ size l1 = size list_123 ∧
      reverse l1 = (.ok (), list_123) :=
  ⟨list_123_reachable, C20_reverse_reverses_sequence list_123 list_123_reachable⟩

/-- C21, counterexample: on the list of `2 ^ 32` elements, `filter_self` with a
predicate that holds of every value returns and keeps all `2 ^ 32` elements, which
all satisfy the predicate, while `size()` is 0, not their count. -/
theorem C21_size_wraps_after_filter_self :
    Reachable (pushes () (2 ^ 32)) ∧
      (filter_self (pushes () (2 ^ 32)) always).1 = .ok () ∧
      ((elements (pushes () (2 ^ 32))).filter always).length = 2 ^ 32 ∧
      (elements (filter_self (pushes () (2 ^ 32)) always).2).length = 2 ^ 32 ∧
      size (filter_self (pushes () (2 ^ 32)) always).2 = 0 := by
  obtain ⟨hok, hs, he, hf⟩ := pushes_filter_self_always (2 ^ 32)
  refine ⟨pushes_reachable () (2 ^ 32), hok, hf, he, ?_⟩
  rw [hs]; exact Nat.mod_self _

/-- C21, amended: for every list reached from the empty list by the members that
change a list, and every predicate `p` without side effects, `filter_self(p)` and
`filter(p)` both return; `filter_self(p)` leaves the list with exactly the element
sequence of the new list that `filter(p)` returns on the original list, namely the
elements that satisfy `p` in their original order; `size()` of either is their
count modulo `2 ^ 32`, so it is their count when fewer than `2 ^ 32` elements
satisfy `p`; and `filter(p)` leaves the elements of the original list as they
were. -/
theorem C21_filter_self_refines_filter [DecidableEq T] (l : DLList T) (h : Reachable l)
    (p : T → Bool) :
    ∃ l1 res l2, filter_self l p = (.ok (), l1) ∧
      filter l p = (.ok res, l2) ∧
      elements l1 = elements res ∧
      elements l1 = (elements l).filter p ∧
      size l1 = ((elements l).filter p).length % 2 ^ 32 ∧
      (((elements l).filter p).length < 2 ^ 32 →
        size l1 = ((elements l).filter p).length) ∧
      size res = size l1 ∧
      elements l2 = elements l := by
  obtain ⟨cs, hwf⟩ := reachable_wf l h
  exact filter_refinement l cs p hwf

/-- The theorem `C21_filter_self_refines_filter` at the list `{1, 2, 3}` and the
predicate that holds of the odd numbers. -/
theorem C21_filter_self_refines_filter_witness :
    Reachable list_123 ∧
    ∃ l1 res l2, filter_self list_123 is_odd = (.ok (), l1) ∧
      filter list_123 is_odd = (.ok res, l2) ∧
      elements l1 = elements res ∧
      elements l1 = (elements list_123).filter is_odd ∧
      size l1 = ((elements list_123).filter is_odd).length % 2 ^ 32 ∧
      (((elements list_123).filter is_odd).length < 2 ^ 32 →
        size l1 = ((elements list_123).filter is_odd).length) ∧
      size res = size l1 ∧
      elements l2 = elements list_123 :=
  ⟨list_123_reachable, C21_filter_self_refines_filter list_123 list_123_reachable is_odd⟩

end Dsa
